import Mathlib

/-! Sum segment tree of `src/main.cpp`

A shallow embedding of the class `SegmentTree` and a verification of its
range-sum contract.

Modelling conventions.

* A `SegmentTree*` is a value of the inductive type `SegmentTree`; the
  constructor `null` is the null pointer, `node` is a live object with the
  fields `ledge`, `redge`, `val`, `left`, `right`, `state` of the class
  (the layout coordinates `x`, `y` play no part in any operation below and
  are left out together with `setPosition` and `draw`).
* An `int` is an `Int` in the range of the type.  The three additions on
  values (`leftVal + rightVal` in `recalc`, `leftAns + rightAns` in `query`,
  `val += delta` in `updateRange`) go through `Arith.add`.  `Arith.int32` is
  the arithmetic of the compiled program: the exact sum brought back into
  `[-2^31, 2^31 - 1]` by `wrap32`, as two's complement addition does.
  `Arith.unbounded` is exact addition, for the one statement that takes the
  values as unbounded integers.  Interval bounds stay within the array
  indices and are compared and halved exactly.
* Member functions that write fields return the new object.  `query` is
  `const` but writes the `mutable` field `state`, so it returns the
  answer together with the repainted tree.
* `std::vector<int>` is `List Int`; `getLeaves` receives the output vector
  and returns it with the leaves pushed to its back.
* `build` recurses on the interval `[l, r]`, which is not structural; it
  carries a fuel argument, and `build_fuel` shows that every amount of fuel
  from the interval length on gives the same, complete tree.
-/

/-- The 32-bit two's complement value with the bits of `x`: what an `int`
holds after a computation whose exact result is `x`. -/
def wrap32 (x : Int) : Int := (x + 2147483648) % 4294967296 - 2147483648

/-- `x` is a value of the type `int`: `INT_MIN ≤ x ≤ INT_MAX`. -/
def IsInt32 (x : Int) : Prop := -2147483648 ≤ x ∧ x ≤ 2147483647

instance IsInt32.dec (x : Int) : Decidable (IsInt32 x) :=
  inferInstanceAs (Decidable (-2147483648 ≤ x ∧ x ≤ 2147483647))

/-- Arithmetic of the value type: `norm` brings an exact result back into the
type.  The two laws say that it is a reduction compatible with addition. -/
structure Arith where
  norm : Int → Int
  norm_add : ∀ a b : Int, norm (norm a + b) = norm (a + b)
  norm_zero : norm 0 = 0

/-- The operator `+` on two values of the type. -/
def Arith.add (W : Arith) (a b : Int) : Int := W.norm (a + b)

/-- The `int` of the program: 32 bits, two's complement. -/
def Arith.int32 : Arith where
  norm := wrap32
  norm_add := by intro a b; simp only [wrap32]; omega
  norm_zero := by decide

/-- Integers without bound: addition is exact. -/
def Arith.unbounded : Arith where
  norm := id
  norm_add := fun _ _ => rfl
  norm_zero := rfl

/-- Highlight tag of a node: `enum State` of the class. -/
inductive State where
  | DEFAULT
  | CONTAINED
  | OUTSIDE
  | PARTIAL
  deriving DecidableEq

/-- A pointer to a `SegmentTree` object: `null`, or a node with its fields. -/
inductive SegmentTree where
  | null : SegmentTree
  | node (ledge redge val : Int) (left right : SegmentTree) (state : State) : SegmentTree
  deriving DecidableEq

/-- The exception thrown by the public constructor (`std::invalid_argument`). -/
inductive BuildError where
  | invalid_argument
  deriving DecidableEq

namespace SegmentTree

/-- The pointer test `if (p)` negated: is `p` the null pointer. -/
def isNull : SegmentTree → Bool
  | null => true
  | node _ _ _ _ _ _ => false

/-- Field `p->ledge`; only read behind a non-null test (0 stands for no object). -/
def ledge : SegmentTree → Int
  | null => 0
  | node le _ _ _ _ _ => le

/-- Field `p->redge`; only read behind a non-null test (0 stands for no object). -/
def redge : SegmentTree → Int
  | null => 0
  | node _ re _ _ _ _ => re

/-- The expression `(p ? p->val : 0)` of `recalc`. -/
def val : SegmentTree → Int
  | null => 0
  | node _ _ v _ _ _ => v

/-- Field `p->left` (null for no object). -/
def left : SegmentTree → SegmentTree
  | null => null
  | node _ _ _ lt _ _ => lt

/-- Field `p->right` (null for no object). -/
def right : SegmentTree → SegmentTree
  | null => null
  | node _ _ _ _ rt _ => rt

/-- Field `p->state`, `none` for the null pointer. -/
def state : SegmentTree → Option State
  | null => none
  | node _ _ _ _ _ st => some st

/-- The method `recalc`: a node with a child takes the sum of its children. -/
def recalc (W : Arith) : SegmentTree → SegmentTree
  | null => null
  | node le re v lt rt st =>
    if lt.isNull = true ∧ rt.isNull = true then node le re v lt rt st
    else node le re (W.add lt.val rt.val) lt rt st

/-- The method `build(l, r, arr)` together with the child constructor that
calls it.  `arr[l]` is `arr.getD l.toNat 0`.  The first argument is fuel for
the recursion; without fuel no object is made. -/
def build (W : Arith) : Nat → Int → Int → List Int → SegmentTree
  | 0, _, _, _ => null
  | fuel + 1, l, r, arr =>
    if l = r then node l r (arr.getD l.toNat 0) null null State.DEFAULT
    else
      let mid := (l + r).tdiv 2
      recalc W
        (node l r 0 (build W fuel l mid arr) (build W fuel (mid + 1) r arr) State.DEFAULT)

/-- The body of the public constructor after its emptiness test:
`build(0, static_cast<int>(arr.size()) - 1, arr)`. -/
def ofArray (W : Arith) (arr : List Int) : SegmentTree :=
  build W arr.length 0 ((arr.length : Int) - 1) arr

/-- The public constructor `SegmentTree(const std::vector<int>&)`. -/
def new (W : Arith) (arr : List Int) : Except BuildError SegmentTree :=
  if arr.isEmpty = true then Except.error BuildError.invalid_argument
  else Except.ok (ofArray W arr)

/-- The method `query(l, r)`: the answer and the tree with the tags it wrote. -/
def query (W : Arith) : SegmentTree → Int → Int → Int × SegmentTree
  | null, _, _ => (0, null)
  | node le re v lt rt _, l0, r0 =>
    let l := if l0 > r0 then r0 else l0
    let r := if l0 > r0 then l0 else r0
    if r < le ∨ re < l then (0, node le re v lt rt State.OUTSIDE)
    else if l ≤ le ∧ re ≤ r then (v, node le re v lt rt State.CONTAINED)
    else
      let leftAns := query W lt l r
      let rightAns := query W rt l r
      (W.add leftAns.1 rightAns.1, node le re v leftAns.2 rightAns.2 State.PARTIAL)

/-- The method `update(idx, newValue)`. -/
def update (W : Arith) : SegmentTree → Int → Int → SegmentTree
  | null, _, _ => null
  | node le re v lt rt _, idx, newValue =>
    if idx < le ∨ idx > re then node le re v lt rt State.OUTSIDE
    else if le = re then node le re newValue lt rt State.CONTAINED
    else if lt.isNull = false ∧ idx ≤ lt.redge then
      recalc W (node le re v (update W lt idx newValue) rt State.PARTIAL)
    else if rt.isNull = false then
      recalc W (node le re v lt (update W rt idx newValue) State.PARTIAL)
    else recalc W (node le re v lt rt State.PARTIAL)

/-- The method `updateRange(ql, qr, delta)`. -/
def updateRange (W : Arith) : SegmentTree → Int → Int → Int → SegmentTree
  | null, _, _, _ => null
  | node le re v lt rt _, ql0, qr0, delta =>
    let ql := if ql0 > qr0 then qr0 else ql0
    let qr := if ql0 > qr0 then ql0 else qr0
    if qr < le ∨ ql > re then node le re v lt rt State.OUTSIDE
    else if le = re then node le re (W.add v delta) lt rt State.CONTAINED
    else
      recalc W (node le re v (updateRange W lt ql qr delta) (updateRange W rt ql qr delta)
        State.PARTIAL)

/-- The method `resetVisuals`. -/
def resetVisuals : SegmentTree → SegmentTree
  | null => null
  | node le re v lt rt _ => node le re v (resetVisuals lt) (resetVisuals rt) State.DEFAULT

/-- The method `getLeaves(leaves)`: the vector after the call. -/
def getLeaves : SegmentTree → List Int → List Int
  | null, leaves => leaves
  | node le re v lt rt _, leaves =>
    if le = re then leaves ++ [v]
    else getLeaves rt (getLeaves lt leaves)

end SegmentTree

/-- One call of the public interface on an existing tree. -/
inductive Op where
  | query (l r : Int)
  | update (idx newValue : Int)
  | updateRange (ql qr delta : Int)
  | resetVisuals
  deriving DecidableEq

/-- The tree after one call. -/
def Op.run (W : Arith) : Op → SegmentTree → SegmentTree
  | Op.query l r, t => (t.query W l r).2
  | Op.update idx newValue, t => t.update W idx newValue
  | Op.updateRange ql qr delta, t => t.updateRange W ql qr delta
  | Op.resetVisuals, t => t.resetVisuals

/-- The value arguments of a call are values of the type `int`. -/
def Op.ArgsInt32 : Op → Prop
  | Op.update _ newValue => IsInt32 newValue
  | Op.updateRange _ _ delta => IsInt32 delta
  | Op.query _ _ => True
  | Op.resetVisuals => True

instance Op.ArgsInt32.dec : (op : Op) → Decidable op.ArgsInt32
  | Op.update _ newValue => inferInstanceAs (Decidable (IsInt32 newValue))
  | Op.updateRange _ _ delta => inferInstanceAs (Decidable (IsInt32 delta))
  | Op.query _ _ => isTrue trivial
  | Op.resetVisuals => isTrue trivial

/-- The value arguments of a call are left as they are by `W.norm`. -/
def Op.Fits (W : Arith) : Op → Prop
  | Op.update _ newValue => W.norm newValue = newValue
  | Op.updateRange _ _ delta => W.norm delta = delta
  | Op.query _ _ => True
  | Op.resetVisuals => True

/-- The tree after a sequence of calls, first call first. -/
def runOps (W : Arith) (t : SegmentTree) (ops : List Op) : SegmentTree :=
  ops.foldl (fun s op => op.run W s) t

/-- The demo array of `main`. -/
def datos : List Int := [2, 1, 3, 4, 5, 7, 8, 9]

/-- Node reached from `t` along a path of child links (`false` is `left`,
`true` is `right`); `null` when the path leaves the tree. -/
def SegmentTree.subtree : SegmentTree → List Bool → SegmentTree
  | t, [] => t
  | t, false :: p => SegmentTree.subtree t.left p
  | t, true :: p => SegmentTree.subtree t.right p

/-- Shape of a well-formed tree: a leaf has `ledge = redge` and no child; any
other node has `ledge < redge` and two children that split its interval into
`[ledge, m]` and `[m + 1, redge]`. -/
def Shape : SegmentTree → Prop
  | SegmentTree.null => False
  | SegmentTree.node le re _ lt rt _ =>
    (le = re ∧ lt.isNull = true ∧ rt.isNull = true) ∨
    (le < re ∧ Shape lt ∧ Shape rt ∧ lt.ledge = le ∧ rt.ledge = lt.redge + 1 ∧ rt.redge = re)

/-- Sum invariant: every node with a child holds the sum of its children, as
the addition of the value type gives it. -/
def SumInv (W : Arith) : SegmentTree → Prop
  | SegmentTree.null => True
  | SegmentTree.node _ _ v lt rt _ =>
    ((lt.isNull = true ∧ rt.isNull = true) ∨ v = W.add lt.val rt.val) ∧
      SumInv W lt ∧ SumInv W rt

instance Shape.dec : (t : SegmentTree) → Decidable (Shape t)
  | SegmentTree.null => isFalse (fun h => h)
  | SegmentTree.node le re _ lt rt _ =>
    have := Shape.dec lt
    have := Shape.dec rt
    inferInstanceAs (Decidable
      ((le = re ∧ lt.isNull = true ∧ rt.isNull = true) ∨
        (le < re ∧ Shape lt ∧ Shape rt ∧ lt.ledge = le ∧ rt.ledge = lt.redge + 1 ∧
          rt.redge = re)))

instance SumInv.dec (W : Arith) : (t : SegmentTree) → Decidable (SumInv W t)
  | SegmentTree.null => isTrue trivial
  | SegmentTree.node _ _ v lt rt _ =>
    have := SumInv.dec W lt
    have := SumInv.dec W rt
    inferInstanceAs (Decidable
      (((lt.isNull = true ∧ rt.isNull = true) ∨ v = W.add lt.val rt.val) ∧
        SumInv W lt ∧ SumInv W rt))

/-- Sum of the entries of `xs` whose index lies in `[lo, hi]`, the first entry
of `xs` having index `k`. -/
def sumWithin : List Int → Int → Int → Int → Int
  | [], _, _, _ => 0
  | x :: xs, k, lo, hi => (if lo ≤ k ∧ k ≤ hi then x else 0) + sumWithin xs (k + 1) lo hi

/-- The list `xs` with `d` added to the entries whose index lies in `[lo, hi]`,
the first entry of `xs` having index `k`. -/
def addWithin (W : Arith) : List Int → Int → Int → Int → Int → List Int
  | [], _, _, _, _ => []
  | x :: xs, k, lo, hi, d =>
    (if lo ≤ k ∧ k ≤ hi then W.add x d else x) :: addWithin W xs (k + 1) lo hi d

/-- The tree with every value set to 0 and every tag set to `DEFAULT`: what is
left are the intervals and the child links. -/
def SegmentTree.skeleton : SegmentTree → SegmentTree
  | SegmentTree.null => SegmentTree.null
  | SegmentTree.node le re _ lt rt _ =>
    SegmentTree.node le re 0 (SegmentTree.skeleton lt) (SegmentTree.skeleton rt) State.DEFAULT

/-- The tree with every value set to 0: intervals, child links and tags. -/
def SegmentTree.eraseVal : SegmentTree → SegmentTree
  | SegmentTree.null => SegmentTree.null
  | SegmentTree.node le re _ lt rt st =>
    SegmentTree.node le re 0 (SegmentTree.eraseVal lt) (SegmentTree.eraseVal rt) st

/-- Number of edges on the longest path from the root down to a leaf. -/
def SegmentTree.height : SegmentTree → Nat
  | SegmentTree.null => 0
  | SegmentTree.node _ _ _ lt rt _ =>
    if lt.isNull = true ∧ rt.isNull = true then 0
    else 1 + max (SegmentTree.height lt) (SegmentTree.height rt)

/-- Tags of the nodes at depth `k` (the root has depth 0), left to right. -/
def SegmentTree.tagsAtDepth : SegmentTree → Nat → List State
  | SegmentTree.null, _ => []
  | SegmentTree.node _ _ _ _ _ st, 0 => [st]
  | SegmentTree.node _ _ _ lt rt _, k + 1 =>
    SegmentTree.tagsAtDepth lt k ++ SegmentTree.tagsAtDepth rt k

/-- Tags of all nodes, parent before children, left before right. -/
def SegmentTree.tags : SegmentTree → List State
  | SegmentTree.null => []
  | SegmentTree.node _ _ _ lt rt st => st :: (SegmentTree.tags lt ++ SegmentTree.tags rt)

/-- The triples `(ledge, redge, val)` of the nodes tagged `CONTAINED`, parent
before children, left before right. -/
def SegmentTree.contained : SegmentTree → List (Int × Int × Int)
  | SegmentTree.null => []
  | SegmentTree.node le re v lt rt st =>
    (if st = State.CONTAINED then [(le, re, v)] else []) ++
      (SegmentTree.contained lt ++ SegmentTree.contained rt)

/-- Shape with the split point of `build`: as `Shape`, and every node that is
not a leaf has `0 ≤ ledge` and splits at `mid = (ledge + redge) / 2`. -/
def MidShape : SegmentTree → Prop
  | SegmentTree.null => False
  | SegmentTree.node le re _ lt rt _ =>
    (le = re ∧ lt.isNull = true ∧ rt.isNull = true) ∨
    (le < re ∧ 0 ≤ le ∧ MidShape lt ∧ MidShape rt ∧ lt.ledge = le ∧
      lt.redge = (le + re) / 2 ∧ rt.ledge = (le + re) / 2 + 1 ∧ rt.redge = re)

instance MidShape.dec : (t : SegmentTree) → Decidable (MidShape t)
  | SegmentTree.null => isFalse (fun h => h)
  | SegmentTree.node le re _ lt rt _ =>
    have := MidShape.dec lt
    have := MidShape.dec rt
    inferInstanceAs (Decidable
      ((le = re ∧ lt.isNull = true ∧ rt.isNull = true) ∨
        (le < re ∧ 0 ≤ le ∧ MidShape lt ∧ MidShape rt ∧ lt.ledge = le ∧
          lt.redge = (le + re) / 2 ∧ rt.ledge = (le + re) / 2 + 1 ∧ rt.redge = re)))

/-- What holds of every tree the public interface can produce from an array of
length `n`: shape, sum invariant and root interval `[0, n - 1]`. -/
def Good (W : Arith) (n : Nat) (t : SegmentTree) : Prop :=
  Shape t ∧ SumInv W t ∧ t.ledge = 0 ∧ t.redge = (n : Int) - 1

/-- Every leaf holds a value that `W.norm` leaves as it is: a value of the
type. -/
def LeavesFit (W : Arith) (t : SegmentTree) : Prop :=
  ∀ x ∈ t.getLeaves [], W.norm x = x

variable {W : Arith}

/-! ## Laws of the arithmetic -/

theorem Arith.norm_norm (W : Arith) (a : Int) : W.norm (W.norm a) = W.norm a := by
  have h := W.norm_add a 0
  simpa using h

theorem Arith.norm_add_right (W : Arith) (a b : Int) : W.norm (a + W.norm b) = W.norm (a + b) := by
  rw [add_comm, W.norm_add, add_comm]

theorem Arith.norm_add_norm (W : Arith) (a b : Int) :
    W.norm (W.norm a + W.norm b) = W.norm (a + b) := by
  rw [W.norm_add, W.norm_add_right]

theorem Arith.norm_add_eq (W : Arith) (a b : Int) : W.norm (W.add a b) = W.add a b :=
  W.norm_norm (a + b)

theorem Arith.add_norm_norm (W : Arith) (a b : Int) :
    W.add (W.norm a) (W.norm b) = W.norm (a + b) :=
  W.norm_add_norm a b

theorem Arith.add_add_neg (W : Arith) (a d : Int) (h : W.norm a = a) :
    W.add (W.add a d) (-d) = a := by
  unfold Arith.add
  rw [W.norm_add, add_neg_cancel_right, h]

theorem wrap32_eq_self_iff (x : Int) : wrap32 x = x ↔ IsInt32 x := by
  unfold wrap32 IsInt32
  omega

theorem int32_norm_eq_iff (x : Int) : Arith.int32.norm x = x ↔ IsInt32 x :=
  wrap32_eq_self_iff x

theorem isInt32_wrap32 (x : Int) : IsInt32 (wrap32 x) := by
  unfold wrap32 IsInt32
  omega

namespace SegmentTree

/-! ## Basic facts -/

theorem isNull_eq_true_iff (t : SegmentTree) : t.isNull = true ↔ t = null := by
  cases t <;> simp [isNull]

theorem getLeaves_append (t : SegmentTree) :
    ∀ acc : List Int, t.getLeaves acc = acc ++ t.getLeaves [] := by
  induction t with
  | null => intro acc; simp [getLeaves]
  | node le re v lt rt st ihl ihr =>
    intro acc
    unfold getLeaves
    split
    · simp
    · rw [ihr (lt.getLeaves acc), ihl acc, ihr (lt.getLeaves []), List.append_assoc]

theorem ledge_node (le re v : Int) (lt rt : SegmentTree) (st : State) :
    (node le re v lt rt st).ledge = le := rfl

theorem redge_node (le re v : Int) (lt rt : SegmentTree) (st : State) :
    (node le re v lt rt st).redge = re := rfl

theorem val_node (le re v : Int) (lt rt : SegmentTree) (st : State) :
    (node le re v lt rt st).val = v := rfl

theorem recalc_node (le re v : Int) (lt rt : SegmentTree) (st : State)
    (h : lt.isNull = false) :
    recalc W (node le re v lt rt st) = node le re (W.add lt.val rt.val) lt rt st := by
  simp [recalc, h]

theorem recalc_leaf (le re v : Int) (st : State) :
    recalc W (node le re v null null st) = node le re v null null st := by
  simp [recalc, isNull]

end SegmentTree

theorem Shape.isNull_eq_false {t : SegmentTree} (h : Shape t) : t.isNull = false := by
  cases t with
  | null => exact absurd h (by simp [Shape])
  | node le re v lt rt st => rfl

theorem Shape.ledge_le_redge : ∀ {t : SegmentTree}, Shape t → t.ledge ≤ t.redge := by
  intro t
  induction t with
  | null => intro h; exact absurd h (by simp [Shape])
  | node le re v lt rt st ihl ihr =>
    intro h
    simp only [Shape] at h
    simp only [SegmentTree.ledge, SegmentTree.redge]
    rcases h with ⟨h, _⟩ | ⟨h, _⟩ <;> omega

namespace SegmentTree

/-! ## Construction -/

theorem mid_bounds (l r : Int) (hl : 0 ≤ l) (hlr : l < r) :
    l ≤ (l + r).tdiv 2 ∧ (l + r).tdiv 2 < r := by
  have h : (l + r).tdiv 2 = (l + r) / 2 := Int.tdiv_eq_ediv (by omega) (by norm_num)
  rw [h]
  omega

theorem build_spec (arr : List Int) :
    ∀ (fuel : Nat) (l r : Int), 0 ≤ l → l ≤ r → r - l < fuel →
      Shape (build W fuel l r arr) ∧ SumInv W (build W fuel l r arr) ∧
        (build W fuel l r arr).ledge = l ∧ (build W fuel l r arr).redge = r := by
  intro fuel
  induction fuel with
  | zero => intro l r _ _ h; omega
  | succ fuel ih =>
    intro l r hl hlr hf
    unfold build
    by_cases h : l = r
    · subst h
      simp [Shape, SumInv, isNull, ledge, redge]
    · have hm := mid_bounds l r hl (by omega)
      obtain ⟨s1, v1, a1, b1⟩ := ih l ((l + r).tdiv 2) hl hm.1 (by omega)
      obtain ⟨s2, v2, a2, b2⟩ := ih ((l + r).tdiv 2 + 1) r (by omega) (by omega) (by omega)
      simp only [h, if_false]
      rw [recalc_node _ _ _ _ _ _ s1.isNull_eq_false]
      refine ⟨?_, ?_, rfl, rfl⟩
      · simp only [Shape]
        exact Or.inr ⟨by omega, s1, s2, a1, by rw [a2, b1], b2⟩
      · exact ⟨Or.inr rfl, v1, v2⟩

/-- Fuel from the interval length on does not change what `build` returns. -/
theorem build_fuel (arr : List Int) :
    ∀ (fuel fuel2 : Nat) (l r : Int), 0 ≤ l → l ≤ r → r - l < fuel → r - l < fuel2 →
      build W fuel l r arr = build W fuel2 l r arr := by
  intro fuel
  induction fuel with
  | zero => intro _ l r _ _ h; omega
  | succ fuel ih =>
    intro fuel2 l r hl hlr hf hf2
    cases fuel2 with
    | zero => omega
    | succ fuel2 =>
      unfold build
      by_cases h : l = r
      · simp [h]
      · have hm := mid_bounds l r hl (by omega)
        simp only [h, if_false]
        rw [ih fuel2 l ((l + r).tdiv 2) hl hm.1 (by omega) (by omega),
          ih fuel2 ((l + r).tdiv 2 + 1) r (by omega) (by omega) (by omega) (by omega)]

theorem take_one_drop (arr : List Int) (k : Nat) (h : k < arr.length) :
    (arr.drop k).take 1 = [arr.getD k 0] := by
  induction arr generalizing k with
  | nil => simp at h
  | cons a as ih =>
    cases k with
    | zero => simp
    | succ k =>
      simp only [List.drop_succ_cons, List.getD_cons_succ]
      exact ih k (by simpa using h)

theorem build_leaves (arr : List Int) :
    ∀ (fuel : Nat) (l r : Int), 0 ≤ l → l ≤ r → r - l < fuel → r < arr.length →
      (build W fuel l r arr).getLeaves [] = (arr.drop l.toNat).take (r - l + 1).toNat := by
  intro fuel
  induction fuel with
  | zero => intro l r _ _ h; omega
  | succ fuel ih =>
    intro l r hl hlr hf hr
    unfold build
    by_cases h : l = r
    · subst h
      simp only [if_true, getLeaves]
      have : (l - l + 1).toNat = 1 := by omega
      rw [this, take_one_drop arr l.toNat (by omega)]
      simp
    · have hm := mid_bounds l r hl (by omega)
      obtain ⟨s1, -, -, -⟩ := build_spec arr fuel l ((l + r).tdiv 2) hl hm.1 (by omega)
      simp only [h, if_false]
      rw [recalc_node _ _ _ _ _ _ s1.isNull_eq_false]
      simp only [getLeaves, h, if_false]
      rw [getLeaves_append, ih l ((l + r).tdiv 2) hl hm.1 (by omega) (by omega),
        ih ((l + r).tdiv 2 + 1) r (by omega) (by omega) (by omega) hr]
      generalize (l + r).tdiv 2 = m at hm
      have e1 : (r - l + 1).toNat = (m - l + 1).toNat + (r - (m + 1) + 1).toNat := by omega
      have e2 : (m + 1).toNat = l.toNat + (m - l + 1).toNat := by omega
      rw [e1, List.take_add, List.drop_drop, e2]

end SegmentTree

namespace SegmentTree

/-! ## Order correction of the range arguments -/

theorem query_swap (t : SegmentTree) (l r : Int) :
    t.query W l r = t.query W (min l r) (max l r) := by
  cases t with
  | null => rfl
  | node le re v lt rt st =>
    unfold query
    rcases lt_or_le r l with h | h
    · have h1 : max l r = l := max_eq_left h.le
      have h2 : min l r = r := min_eq_right h.le
      have h3 : ¬ r > l := by omega
      simp only [h1, h2, h3, gt_iff_lt, h, if_true, if_false]
    · have h1 : max l r = r := max_eq_right h
      have h2 : min l r = l := min_eq_left h
      have h3 : ¬ l > r := by omega
      simp only [h1, h2, h3, if_false]

theorem updateRange_swap (t : SegmentTree) (l r d : Int) :
    t.updateRange W l r d = t.updateRange W (min l r) (max l r) d := by
  cases t with
  | null => rfl
  | node le re v lt rt st =>
    unfold updateRange
    rcases lt_or_le r l with h | h
    · have h1 : max l r = l := max_eq_left h.le
      have h2 : min l r = r := min_eq_right h.le
      have h3 : ¬ r > l := by omega
      simp only [h1, h2, h3, gt_iff_lt, h, if_true, if_false]
    · have h1 : max l r = r := max_eq_right h
      have h2 : min l r = l := min_eq_left h
      have h3 : ¬ l > r := by omega
      simp only [h1, h2, h3, if_false]

/-- One step of `query` on a node when the bounds are in order. -/
theorem query_node (le re v : Int) (lt rt : SegmentTree) (st : State) (l r : Int)
    (h : l ≤ r) :
    (node le re v lt rt st).query W l r =
      if r < le ∨ re < l then (0, node le re v lt rt State.OUTSIDE)
      else if l ≤ le ∧ re ≤ r then (v, node le re v lt rt State.CONTAINED)
      else (W.add (lt.query W l r).1 (rt.query W l r).1,
        node le re v (lt.query W l r).2 (rt.query W l r).2 State.PARTIAL) := by
  have h3 : ¬ l > r := by omega
  simp only [query, h3, if_false]

/-- One step of `updateRange` on a node when the bounds are in order. -/
theorem updateRange_node (le re v : Int) (lt rt : SegmentTree) (st : State) (l r d : Int)
    (h : l ≤ r) :
    (node le re v lt rt st).updateRange W l r d =
      if r < le ∨ l > re then node le re v lt rt State.OUTSIDE
      else if le = re then node le re (W.add v d) lt rt State.CONTAINED
      else recalc W (node le re v (lt.updateRange W l r d) (rt.updateRange W l r d)
        State.PARTIAL) := by
  have h3 : ¬ l > r := by omega
  simp only [updateRange, h3, if_false]

/-! ## Fields that no operation changes -/

theorem recalc_isNull (t : SegmentTree) : (recalc W t).isNull = t.isNull := by
  cases t with
  | null => rfl
  | node le re v lt rt st => simp only [recalc]; split <;> rfl

theorem recalc_ledge (t : SegmentTree) : (recalc W t).ledge = t.ledge := by
  cases t with
  | null => rfl
  | node le re v lt rt st => simp only [recalc]; split <;> rfl

theorem recalc_redge (t : SegmentTree) : (recalc W t).redge = t.redge := by
  cases t with
  | null => rfl
  | node le re v lt rt st => simp only [recalc]; split <;> rfl

theorem update_isNull (t : SegmentTree) (idx nv : Int) :
    (t.update W idx nv).isNull = t.isNull := by
  cases t with
  | null => rfl
  | node le re v lt rt st =>
    unfold update
    split_ifs <;> (try rw [recalc_isNull]) <;> rfl

theorem update_ledge (t : SegmentTree) (idx nv : Int) :
    (t.update W idx nv).ledge = t.ledge := by
  cases t with
  | null => rfl
  | node le re v lt rt st =>
    unfold update
    split_ifs <;> (try rw [recalc_ledge]) <;> rfl

theorem update_redge (t : SegmentTree) (idx nv : Int) :
    (t.update W idx nv).redge = t.redge := by
  cases t with
  | null => rfl
  | node le re v lt rt st =>
    unfold update
    split_ifs <;> (try rw [recalc_redge]) <;> rfl

theorem updateRange_isNull (t : SegmentTree) (l r d : Int) :
    (t.updateRange W l r d).isNull = t.isNull := by
  cases t with
  | null => rfl
  | node le re v lt rt st =>
    simp only [updateRange]
    split_ifs <;> (try rw [recalc_isNull]) <;> rfl

theorem updateRange_ledge (t : SegmentTree) (l r d : Int) :
    (t.updateRange W l r d).ledge = t.ledge := by
  cases t with
  | null => rfl
  | node le re v lt rt st =>
    simp only [updateRange]
    split_ifs <;> (try rw [recalc_ledge]) <;> rfl

theorem updateRange_redge (t : SegmentTree) (l r d : Int) :
    (t.updateRange W l r d).redge = t.redge := by
  cases t with
  | null => rfl
  | node le re v lt rt st =>
    simp only [updateRange]
    split_ifs <;> (try rw [recalc_redge]) <;> rfl

end SegmentTree

namespace SegmentTree

/-! ## `resetVisuals` and `query` only write tags -/

theorem resetVisuals_isNull (t : SegmentTree) : t.resetVisuals.isNull = t.isNull := by
  cases t <;> rfl

theorem resetVisuals_ledge (t : SegmentTree) : t.resetVisuals.ledge = t.ledge := by
  cases t <;> rfl

theorem resetVisuals_redge (t : SegmentTree) : t.resetVisuals.redge = t.redge := by
  cases t <;> rfl

theorem resetVisuals_val (t : SegmentTree) : t.resetVisuals.val = t.val := by
  cases t <;> rfl

theorem resetVisuals_getLeaves (t : SegmentTree) :
    ∀ acc : List Int, t.resetVisuals.getLeaves acc = t.getLeaves acc := by
  induction t with
  | null => intro acc; rfl
  | node le re v lt rt st ihl ihr =>
    intro acc
    simp only [resetVisuals, getLeaves, ihl, ihr]

theorem resetVisuals_shape (t : SegmentTree) : Shape t.resetVisuals ↔ Shape t := by
  induction t with
  | null => exact Iff.rfl
  | node le re v lt rt st ihl ihr =>
    simp only [resetVisuals, Shape, ihl, ihr, resetVisuals_isNull, resetVisuals_ledge,
      resetVisuals_redge]

theorem resetVisuals_sumInv (t : SegmentTree) : SumInv W t.resetVisuals ↔ SumInv W t := by
  induction t with
  | null => exact Iff.rfl
  | node le re v lt rt st ihl ihr =>
    simp only [resetVisuals, SumInv, ihl, ihr, resetVisuals_isNull, resetVisuals_val]

theorem resetVisuals_idem (t : SegmentTree) : t.resetVisuals.resetVisuals = t.resetVisuals := by
  induction t with
  | null => rfl
  | node le re v lt rt st ihl ihr => simp only [resetVisuals, ihl, ihr]

theorem resetVisuals_query (t : SegmentTree) :
    ∀ l r : Int, (t.query W l r).2.resetVisuals = t.resetVisuals := by
  induction t with
  | null => intro l r; rfl
  | node le re v lt rt st ihl ihr =>
    intro l r
    simp only [query]
    split_ifs <;> simp only [resetVisuals, ihl, ihr]

theorem query_shape (t : SegmentTree) (l r : Int) : Shape (t.query W l r).2 ↔ Shape t := by
  rw [← resetVisuals_shape, resetVisuals_query, resetVisuals_shape]

theorem query_sumInv (t : SegmentTree) (l r : Int) : SumInv W (t.query W l r).2 ↔ SumInv W t := by
  rw [← resetVisuals_sumInv, resetVisuals_query, resetVisuals_sumInv]

theorem query_ledge (t : SegmentTree) (l r : Int) : (t.query W l r).2.ledge = t.ledge := by
  rw [← resetVisuals_ledge, resetVisuals_query, resetVisuals_ledge]

theorem query_redge (t : SegmentTree) (l r : Int) : (t.query W l r).2.redge = t.redge := by
  rw [← resetVisuals_redge, resetVisuals_query, resetVisuals_redge]

theorem query_getLeaves (t : SegmentTree) (l r : Int) (acc : List Int) :
    (t.query W l r).2.getLeaves acc = t.getLeaves acc := by
  rw [← resetVisuals_getLeaves, resetVisuals_query, resetVisuals_getLeaves]

/-! ## The mutating operations keep the shape and the sum invariant -/

theorem update_shape (t : SegmentTree) (idx nv : Int) : Shape t → Shape (t.update W idx nv) := by
  induction t with
  | null => intro h; exact h
  | node le re v lt rt st ihl ihr =>
    intro h
    simp only [Shape] at h
    unfold update
    split_ifs with h1 h2 h3 h4
    · exact h
    · exact h
    · rcases h with ⟨h, _⟩ | ⟨hlt, sl, sr, a, b, c⟩
      · exact absurd h h2
      · rw [recalc_node _ _ _ _ _ _ (by rw [update_isNull]; exact sl.isNull_eq_false)]
        exact Or.inr ⟨hlt, ihl sl, sr, by rw [update_ledge]; exact a,
          by rw [update_redge]; exact b, c⟩
    · rcases h with ⟨h, _⟩ | ⟨hlt, sl, sr, a, b, c⟩
      · exact absurd h h2
      · rw [recalc_node _ _ _ _ _ _ sl.isNull_eq_false]
        exact Or.inr ⟨hlt, sl, ihr sr, a, by rw [update_ledge]; exact b,
          by rw [update_redge]; exact c⟩
    · rcases h with ⟨h, _⟩ | ⟨hlt, sl, sr, a, b, c⟩
      · exact absurd h h2
      · exact absurd sr.isNull_eq_false h4

theorem update_sumInv (t : SegmentTree) (idx nv : Int) :
    Shape t → SumInv W t → SumInv W (t.update W idx nv) := by
  induction t with
  | null => intro _ h; exact h
  | node le re v lt rt st ihl ihr =>
    intro h hs
    simp only [Shape] at h
    unfold update
    split_ifs with h1 h2 h3 h4
    · exact hs
    · rcases h with ⟨_, hl, hr⟩ | ⟨hlt, _⟩
      · exact ⟨Or.inl ⟨hl, hr⟩, hs.2.1, hs.2.2⟩
      · omega
    · rcases h with ⟨h, _⟩ | ⟨hlt, sl, sr, a, b, c⟩
      · exact absurd h h2
      · rw [recalc_node _ _ _ _ _ _ (by rw [update_isNull]; exact sl.isNull_eq_false)]
        exact ⟨Or.inr rfl, ihl sl hs.2.1, hs.2.2⟩
    · rcases h with ⟨h, _⟩ | ⟨hlt, sl, sr, a, b, c⟩
      · exact absurd h h2
      · rw [recalc_node _ _ _ _ _ _ sl.isNull_eq_false]
        exact ⟨Or.inr rfl, hs.2.1, ihr sr hs.2.2⟩
    · rcases h with ⟨h, _⟩ | ⟨hlt, sl, sr, a, b, c⟩
      · exact absurd h h2
      · exact absurd sr.isNull_eq_false h4

theorem updateRange_shape_ordered (t : SegmentTree) (l r d : Int) (hlr : l ≤ r) :
    Shape t → Shape (t.updateRange W l r d) := by
  induction t with
  | null => intro h; exact h
  | node le re v lt rt st ihl ihr =>
    intro h
    simp only [Shape] at h
    rw [updateRange_node _ _ _ _ _ _ _ _ _ hlr]
    split_ifs with h1 h2
    · exact h
    · exact h
    · rcases h with ⟨h, _⟩ | ⟨hlt, sl, sr, a, b, c⟩
      · exact absurd h h2
      · rw [recalc_node _ _ _ _ _ _ (by rw [updateRange_isNull]; exact sl.isNull_eq_false)]
        exact Or.inr ⟨hlt, ihl sl, ihr sr, by rw [updateRange_ledge]; exact a,
          by rw [updateRange_ledge, updateRange_redge]; exact b,
          by rw [updateRange_redge]; exact c⟩

theorem updateRange_shape (t : SegmentTree) (l r d : Int) :
    Shape t → Shape (t.updateRange W l r d) := by
  rw [updateRange_swap]
  exact updateRange_shape_ordered t _ _ d (min_le_max)

theorem updateRange_sumInv_ordered (t : SegmentTree) (l r d : Int) (hlr : l ≤ r) :
    Shape t → SumInv W t → SumInv W (t.updateRange W l r d) := by
  induction t with
  | null => intro _ h; exact h
  | node le re v lt rt st ihl ihr =>
    intro h hs
    simp only [Shape] at h
    rw [updateRange_node _ _ _ _ _ _ _ _ _ hlr]
    split_ifs with h1 h2
    · exact hs
    · rcases h with ⟨_, hl, hr⟩ | ⟨hlt, _⟩
      · exact ⟨Or.inl ⟨hl, hr⟩, hs.2.1, hs.2.2⟩
      · omega
    · rcases h with ⟨h, _⟩ | ⟨hlt, sl, sr, a, b, c⟩
      · exact absurd h h2
      · rw [recalc_node _ _ _ _ _ _ (by rw [updateRange_isNull]; exact sl.isNull_eq_false)]
        exact ⟨Or.inr rfl, ihl sl hs.2.1, ihr sr hs.2.2⟩

theorem updateRange_sumInv (t : SegmentTree) (l r d : Int) :
    Shape t → SumInv W t → SumInv W (t.updateRange W l r d) := by
  rw [updateRange_swap]
  exact updateRange_sumInv_ordered t _ _ d (min_le_max)

end SegmentTree

/-! ## Sums and additions over an index window of a list -/

theorem sumWithin_append (xs ys : List Int) (lo hi : Int) :
    ∀ k : Int, sumWithin (xs ++ ys) k lo hi =
      sumWithin xs k lo hi + sumWithin ys (k + xs.length) lo hi := by
  induction xs with
  | nil => intro k; simp [sumWithin]
  | cons x xs ih =>
    intro k
    have e : k + ((xs.length + 1 : Nat) : Int) = k + 1 + (xs.length : Int) := by
      push_cast; omega
    rw [List.cons_append, sumWithin, sumWithin, ih, List.length_cons, e]
    omega

theorem sumWithin_outside (xs : List Int) (lo hi : Int) :
    ∀ k : Int, hi < k ∨ k + xs.length - 1 < lo → sumWithin xs k lo hi = 0 := by
  induction xs with
  | nil => intro k _; rfl
  | cons x xs ih =>
    intro k h
    simp only [List.length_cons, Nat.cast_add, Nat.cast_one] at h
    have hk : ¬ (lo ≤ k ∧ k ≤ hi) := by omega
    simp only [sumWithin, hk, if_false, zero_add]
    exact ih (k + 1) (by omega)

theorem sumWithin_inside (xs : List Int) (lo hi : Int) :
    ∀ k : Int, lo ≤ k → k + xs.length - 1 ≤ hi → sumWithin xs k lo hi = xs.sum := by
  induction xs with
  | nil => intro k _ _; rfl
  | cons x xs ih =>
    intro k h1 h2
    simp only [List.length_cons, Nat.cast_add, Nat.cast_one] at h2
    have hk : lo ≤ k ∧ k ≤ hi := by omega
    simp only [sumWithin, hk, and_self, if_true, List.sum_cons]
    rw [ih (k + 1) (by omega) (by omega)]

theorem addWithin_length (xs : List Int) (lo hi d : Int) :
    ∀ k : Int, (addWithin W xs k lo hi d).length = xs.length := by
  induction xs with
  | nil => intro k; rfl
  | cons x xs ih => intro k; simp only [addWithin, List.length_cons, ih]

theorem addWithin_append (xs ys : List Int) (lo hi d : Int) :
    ∀ k : Int, addWithin W (xs ++ ys) k lo hi d =
      addWithin W xs k lo hi d ++ addWithin W ys (k + xs.length) lo hi d := by
  induction xs with
  | nil => intro k; simp [addWithin]
  | cons x xs ih =>
    intro k
    have e : k + ((xs.length + 1 : Nat) : Int) = k + 1 + (xs.length : Int) := by
      push_cast; omega
    rw [List.cons_append, addWithin, addWithin, ih, List.length_cons, e, List.cons_append]

theorem addWithin_outside (xs : List Int) (lo hi d : Int) :
    ∀ k : Int, hi < k ∨ k + xs.length - 1 < lo → addWithin W xs k lo hi d = xs := by
  induction xs with
  | nil => intro k _; rfl
  | cons x xs ih =>
    intro k h
    simp only [List.length_cons, Nat.cast_add, Nat.cast_one] at h
    have hk : ¬ (lo ≤ k ∧ k ≤ hi) := by omega
    simp only [addWithin, hk, if_false]
    rw [ih (k + 1) (by omega)]

theorem addWithin_getElem? (xs : List Int) (lo hi d : Int) :
    ∀ (k : Int) (i : Nat), (addWithin W xs k lo hi d)[i]? =
      (xs[i]?).map (fun x => if lo ≤ k + i ∧ k + i ≤ hi then W.add x d else x) := by
  induction xs with
  | nil => intro k i; simp [addWithin]
  | cons x xs ih =>
    intro k i
    cases i with
    | zero => simp [addWithin]
    | succ i =>
      simp only [addWithin, List.getElem?_cons_succ, ih, Nat.cast_add, Nat.cast_one]
      have e : k + 1 + (i : Int) = k + ((i : Int) + 1) := by omega
      rw [e]

theorem addWithin_neg (xs : List Int) (lo hi d : Int) (hx : ∀ x ∈ xs, W.norm x = x) :
    ∀ k : Int, addWithin W (addWithin W xs k lo hi d) k lo hi (-d) = xs := by
  induction xs with
  | nil => intro k; rfl
  | cons x xs ih =>
    intro k
    have h0 : W.norm x = x := hx x (List.mem_cons_self x xs)
    simp only [addWithin, ih (fun y hy => hx y (List.mem_cons_of_mem x hy))]
    split_ifs
    · rw [W.add_add_neg x d h0]
    · rfl

theorem addWithin_fits (xs : List Int) (lo hi d : Int) (hx : ∀ x ∈ xs, W.norm x = x) :
    ∀ k : Int, ∀ y ∈ addWithin W xs k lo hi d, W.norm y = y := by
  induction xs with
  | nil => intro k y hy; simp [addWithin] at hy
  | cons x xs ih =>
    intro k y hy
    simp only [addWithin, List.mem_cons] at hy
    rcases hy with hy | hy
    · subst hy
      split_ifs
      · exact W.norm_add_eq x d
      · exact hx x (List.mem_cons_self x xs)
    · exact ih (fun z hz => hx z (List.mem_cons_of_mem x hz)) (k + 1) y hy

namespace SegmentTree

/-! ## What the leaves and the node values are -/

theorem getLeaves_node (le re v : Int) (lt rt : SegmentTree) (st : State) (h : le ≠ re) :
    (node le re v lt rt st).getLeaves [] = lt.getLeaves [] ++ rt.getLeaves [] := by
  simp only [getLeaves, h, if_false]
  rw [getLeaves_append]

theorem getLeaves_leaf (le re v : Int) (lt rt : SegmentTree) (st : State) (h : le = re) :
    (node le re v lt rt st).getLeaves [] = [v] := by
  simp [getLeaves, h]

theorem leaves_length : ∀ t : SegmentTree, Shape t →
    ((t.getLeaves []).length : Int) = t.redge - t.ledge + 1 := by
  intro t
  induction t with
  | null => intro h; exact absurd h (by simp [Shape])
  | node le re v lt rt st ihl ihr =>
    intro h
    simp only [Shape] at h
    rcases h with ⟨h, _⟩ | ⟨hlt, sl, sr, a, b, c⟩
    · rw [getLeaves_leaf _ _ _ _ _ _ h]
      simp only [ledge_node, redge_node, List.length_singleton, Nat.cast_one]
      omega
    · rw [getLeaves_node _ _ _ _ _ _ (by omega)]
      simp only [List.length_append, Nat.cast_add, ihl sl, ihr sr, ledge_node, redge_node]
      omega

theorem leavesFit_leaf (le re v : Int) (lt rt : SegmentTree) (st : State) (h : le = re)
    (hf : LeavesFit W (node le re v lt rt st)) : W.norm v = v := by
  apply hf
  rw [getLeaves_leaf _ _ _ _ _ _ h]
  exact List.mem_singleton_self v

theorem leavesFit_node (le re v : Int) (lt rt : SegmentTree) (st : State) (h : le ≠ re)
    (hf : LeavesFit W (node le re v lt rt st)) : LeavesFit W lt ∧ LeavesFit W rt := by
  unfold LeavesFit at hf ⊢
  rw [getLeaves_node _ _ _ _ _ _ h] at hf
  exact ⟨fun x hx => hf x (List.mem_append_left _ hx),
    fun x hx => hf x (List.mem_append_right _ hx)⟩

/-- The value of a node is the sum of the leaves below it, brought back into
the type. -/
theorem val_eq_sum : ∀ t : SegmentTree, Shape t → SumInv W t → LeavesFit W t →
    t.val = W.norm (t.getLeaves []).sum := by
  intro t
  induction t with
  | null => intro h; exact absurd h (by simp [Shape])
  | node le re v lt rt st ihl ihr =>
    intro h hs hf
    simp only [Shape] at h
    rcases h with ⟨h, _⟩ | ⟨hlt, sl, sr, a, b, c⟩
    · have hv := leavesFit_leaf le re v lt rt st h hf
      rw [getLeaves_leaf _ _ _ _ _ _ h]
      simp only [val_node, List.sum_cons, List.sum_nil, add_zero]
      exact hv.symm
    · have hne : le ≠ re := by omega
      obtain ⟨fl, fr⟩ := leavesFit_node le re v lt rt st hne hf
      rw [getLeaves_node _ _ _ _ _ _ hne]
      rcases hs with ⟨hv | hv, vl, vr⟩
      · exact absurd hv.1 (by rw [sl.isNull_eq_false]; simp)
      · rw [List.sum_append, val_node, hv, ihl sl vl fl, ihr sr vr fr]
        exact W.add_norm_norm _ _

/-- The answer of `query` with ordered bounds, in terms of the leaves. -/
theorem query_ordered (l r : Int) (hlr : l ≤ r) : ∀ t : SegmentTree, Shape t → SumInv W t →
    LeavesFit W t →
    (t.query W l r).1 = W.norm (sumWithin (t.getLeaves []) t.ledge l r) := by
  intro t
  induction t with
  | null => intro h; exact absurd h (by simp [Shape])
  | node le re v lt rt st ihl ihr =>
    intro h hs hf
    have hlen := leaves_length _ h
    have hval := val_eq_sum _ h hs hf
    simp only [ledge_node, redge_node, val_node] at hlen hval ⊢
    rw [query_node _ _ _ _ _ _ _ _ hlr]
    split_ifs with h1 h2
    · rw [sumWithin_outside _ _ _ _ (by omega)]
      exact W.norm_zero.symm
    · rw [sumWithin_inside _ _ _ _ (by omega) (by omega)]
      exact hval
    · simp only [Shape] at h
      rcases h with ⟨h, _⟩ | ⟨hlt, sl, sr, a, b, c⟩
      · omega
      · have hne : le ≠ re := by omega
        obtain ⟨fl, fr⟩ := leavesFit_node le re v lt rt st hne hf
        rw [getLeaves_node _ _ _ _ _ _ hne, sumWithin_append, ihl sl hs.2.1 fl,
          ihr sr hs.2.2 fr, a, b]
        have e : le + ((lt.getLeaves []).length : Int) = lt.redge + 1 := by
          rw [leaves_length _ sl, a]; omega
        rw [e]
        exact W.add_norm_norm _ _

end SegmentTree

namespace SegmentTree

/-! ## What the mutating operations do to the leaves -/

/-- An in-range `update` replaces the leaf of index `idx`. -/
theorem update_leaves (idx nv : Int) : ∀ t : SegmentTree, Shape t →
    t.ledge ≤ idx → idx ≤ t.redge →
    (t.update W idx nv).getLeaves [] = (t.getLeaves []).set (idx - t.ledge).toNat nv := by
  intro t
  induction t with
  | null => intro h; exact absurd h (by simp [Shape])
  | node le re v lt rt st ihl ihr =>
    intro h h1 h2
    simp only [ledge_node, redge_node] at h1 h2 ⊢
    simp only [Shape] at h
    have hout : ¬ (idx < le ∨ idx > re) := by omega
    unfold update
    simp only [hout, if_false]
    rcases h with ⟨h, _⟩ | ⟨hlt, sl, sr, a, b, c⟩
    · simp only [h, if_true]
      rw [getLeaves_leaf _ _ _ _ _ _ rfl, getLeaves_leaf _ _ _ _ _ _ rfl]
      have : (idx - re).toNat = 0 := by omega
      rw [this]
      rfl
    · have hne : le ≠ re := by omega
      have hll := leaves_length _ sl
      have hlr := leaves_length _ sr
      have hle := sl.ledge_le_redge
      simp only [hne, if_false, sl.isNull_eq_false, sr.isNull_eq_false, true_and, if_true]
      by_cases hi : idx ≤ lt.redge
      · simp only [hi, if_true]
        rw [recalc_node _ _ _ _ _ _ (by rw [update_isNull]; exact sl.isNull_eq_false),
          getLeaves_node _ _ _ _ _ _ hne, getLeaves_node _ _ _ _ _ _ hne,
          ihl sl (by omega) hi, a,
          List.set_append_left _ _ (by omega)]
      · simp only [hi, if_false]
        rw [recalc_node _ _ _ _ _ _ sl.isNull_eq_false,
          getLeaves_node _ _ _ _ _ _ hne, getLeaves_node _ _ _ _ _ _ hne,
          ihr sr (by omega) (by omega), List.set_append_right _ _ (by omega)]
        have e : (idx - le).toNat - (lt.getLeaves []).length = (idx - rt.ledge).toNat := by
          omega
        rw [e]

/-- An out-of-range `update` leaves every leaf as it is. -/
theorem update_leaves_outside (idx nv : Int) (t : SegmentTree)
    (h : idx < t.ledge ∨ idx > t.redge) :
    (t.update W idx nv).getLeaves [] = t.getLeaves [] := by
  cases t with
  | null => rfl
  | node le re v lt rt st =>
    simp only [ledge_node, redge_node] at h
    unfold update
    simp only [h, if_true]
    rfl

/-- The leaves after `updateRange` with ordered bounds. -/
theorem updateRange_leaves_ordered (l r d : Int) (hlr : l ≤ r) : ∀ t : SegmentTree, Shape t →
    (t.updateRange W l r d).getLeaves [] = addWithin W (t.getLeaves []) t.ledge l r d := by
  intro t
  induction t with
  | null => intro h; exact absurd h (by simp [Shape])
  | node le re v lt rt st ihl ihr =>
    intro h
    have hlen := leaves_length _ h
    simp only [ledge_node, redge_node] at hlen ⊢
    rw [updateRange_node _ _ _ _ _ _ _ _ _ hlr]
    simp only [Shape] at h
    split_ifs with h1 h2
    · rw [addWithin_outside _ _ _ _ _ (by omega)]
      rfl
    · rw [getLeaves_leaf _ _ _ _ _ _ h2, getLeaves_leaf _ _ _ _ _ _ h2]
      have hk : l ≤ le ∧ le ≤ r := by omega
      simp only [addWithin, hk, and_self, if_true]
    · rcases h with ⟨h, _⟩ | ⟨hlt, sl, sr, a, b, c⟩
      · exact absurd h h2
      · rw [recalc_node _ _ _ _ _ _ (by rw [updateRange_isNull]; exact sl.isNull_eq_false),
          getLeaves_node _ _ _ _ _ _ h2, getLeaves_node _ _ _ _ _ _ h2, addWithin_append,
          ihl sl, ihr sr, a, b]
        have e : le + ((lt.getLeaves []).length : Int) = lt.redge + 1 := by
          rw [leaves_length _ sl, a]; omega
        rw [e]

theorem updateRange_leaves (l r d : Int) (t : SegmentTree) (h : Shape t) :
    (t.updateRange W l r d).getLeaves [] =
      addWithin W (t.getLeaves []) t.ledge (min l r) (max l r) d := by
  rw [updateRange_swap]
  exact updateRange_leaves_ordered _ _ d min_le_max t h

/-- The answer of `query` for bounds in any order. -/
theorem query_leaves (l r : Int) (t : SegmentTree) (h : Shape t) (hs : SumInv W t)
    (hf : LeavesFit W t) :
    (t.query W l r).1 = W.norm (sumWithin (t.getLeaves []) t.ledge (min l r) (max l r)) := by
  rw [query_swap]
  exact query_ordered _ _ min_le_max t h hs hf

end SegmentTree

/-! ## Trees reached from a built tree -/

theorem Good.length_getLeaves {n : Nat} {t : SegmentTree} (h : Good W n t) :
    (t.getLeaves []).length = n := by
  have := SegmentTree.leaves_length t h.1
  rw [h.2.2.1, h.2.2.2] at this
  omega

theorem good_ofArray (A : List Int) (hA : A ≠ []) : Good W A.length (SegmentTree.ofArray W A) := by
  have hpos : 0 < A.length := List.length_pos.mpr hA
  exact SegmentTree.build_spec A A.length 0 ((A.length : Int) - 1) (le_refl 0) (by omega)
    (by omega)

theorem good_run {n : Nat} (op : Op) {t : SegmentTree} (h : Good W n t) : Good W n (op.run W t) :=
    by
  obtain ⟨sh, sm, a, b⟩ := h
  cases op with
  | query l r =>
    exact ⟨(SegmentTree.query_shape t l r).mpr sh, (SegmentTree.query_sumInv t l r).mpr sm,
      by rw [Op.run, SegmentTree.query_ledge]; exact a,
      by rw [Op.run, SegmentTree.query_redge]; exact b⟩
  | update idx nv =>
    exact ⟨SegmentTree.update_shape t idx nv sh, SegmentTree.update_sumInv t idx nv sh sm,
      by rw [Op.run, SegmentTree.update_ledge]; exact a,
      by rw [Op.run, SegmentTree.update_redge]; exact b⟩
  | updateRange l r d =>
    exact ⟨SegmentTree.updateRange_shape t l r d sh,
      SegmentTree.updateRange_sumInv t l r d sh sm,
      by rw [Op.run, SegmentTree.updateRange_ledge]; exact a,
      by rw [Op.run, SegmentTree.updateRange_redge]; exact b⟩
  | resetVisuals =>
    exact ⟨(SegmentTree.resetVisuals_shape t).mpr sh, (SegmentTree.resetVisuals_sumInv t).mpr sm,
      by rw [Op.run, SegmentTree.resetVisuals_ledge]; exact a,
      by rw [Op.run, SegmentTree.resetVisuals_redge]; exact b⟩

theorem good_runOps {n : Nat} (ops : List Op) :
    ∀ {t : SegmentTree}, Good W n t → Good W n (runOps W t ops) := by
  induction ops with
  | nil => intro t h; exact h
  | cons op ops ih => intro t h; exact ih (good_run op h)

theorem good_reached (A : List Int) (hA : A ≠ []) (ops : List Op) :
    Good W A.length (runOps W (SegmentTree.ofArray W A) ops) :=
  good_runOps ops (good_ofArray A hA)

/-! ## From window sums to sums over index sets -/

theorem sumWithin_eq_sum (xs : List Int) (lo hi : Int) :
    ∀ k : Int, sumWithin xs k lo hi =
      ∑ i ∈ Finset.range xs.length,
        if lo ≤ k + (i : Int) ∧ k + (i : Int) ≤ hi then xs.getD i 0 else 0 := by
  induction xs with
  | nil => intro k; simp [sumWithin]
  | cons x xs ih =>
    intro k
    rw [sumWithin, ih, List.length_cons, Finset.sum_range_succ']
    simp only [List.getD_cons_succ, List.getD_cons_zero, Nat.cast_zero, add_zero, Nat.cast_add,
      Nat.cast_one]
    rw [add_comm]
    congr 1
    apply Finset.sum_congr rfl
    intro i _
    have e : k + 1 + (i : Int) = k + ((i : Int) + 1) := by ring
    rw [e]

theorem Good.query_eq {n : Nat} {t : SegmentTree} (h : Good W n t) (hf : LeavesFit W t)
    (l r : Int) :
    (t.query W l r).1 =
      W.norm (∑ i ∈ (Finset.range n).filter
        (fun i : Nat => min l r ≤ (i : Int) ∧ (i : Int) ≤ max l r),
        (t.getLeaves []).getD i 0) := by
  rw [SegmentTree.query_leaves _ _ _ h.1 h.2.1 hf, h.2.2.1, sumWithin_eq_sum,
    h.length_getLeaves, Finset.sum_filter]
  simp only [zero_add]

theorem Good.query_Icc {n : Nat} {t : SegmentTree} (h : Good W n t) (hf : LeavesFit W t)
    (l r : Nat) (hlr : l ≤ r) (hr : r < n) :
    (t.query W l r).1 = W.norm (∑ i ∈ Finset.Icc l r, (t.getLeaves []).getD i 0) := by
  rw [h.query_eq hf]
  congr 1
  apply Finset.sum_congr _ (fun _ _ => rfl)
  ext i
  simp only [Finset.mem_filter, Finset.mem_range, Finset.mem_Icc]
  have h1 : min (l : Int) (r : Int) = l := min_eq_left (by omega)
  have h2 : max (l : Int) (r : Int) = r := max_eq_right (by omega)
  rw [h1, h2]
  omega

theorem SegmentTree.ofArray_leaves (A : List Int) (hA : A ≠ []) :
    (SegmentTree.ofArray W A).getLeaves [] = A := by
  have hpos : 0 < A.length := List.length_pos.mpr hA
  have h := @SegmentTree.build_leaves W A A.length 0 ((A.length : Int) - 1) (le_refl 0)
    (by omega) (by omega) (by omega)
  have e : ((A.length : Int) - 1 - 0 + 1).toNat = A.length := by omega
  rw [e] at h
  simpa [SegmentTree.ofArray] using h

/-! ## The leaves stay values of the type -/

theorem leavesFit_ofArray (A : List Int) (hA : A ≠ []) (hfit : ∀ x ∈ A, W.norm x = x) :
    LeavesFit W (SegmentTree.ofArray W A) := by
  unfold LeavesFit
  rw [SegmentTree.ofArray_leaves A hA]
  exact hfit

theorem leavesFit_run {n : Nat} (op : Op) {t : SegmentTree} (h : Good W n t)
    (hop : op.Fits W) (hf : LeavesFit W t) : LeavesFit W (op.run W t) := by
  unfold LeavesFit at hf ⊢
  cases op with
  | query l r =>
    intro x hx
    rw [Op.run, SegmentTree.query_getLeaves] at hx
    exact hf x hx
  | update idx nv =>
    intro x hx
    rw [Op.run] at hx
    by_cases hin : t.ledge ≤ idx ∧ idx ≤ t.redge
    · rw [SegmentTree.update_leaves idx nv t h.1 hin.1 hin.2] at hx
      rcases List.mem_or_eq_of_mem_set hx with hx | hx
      · exact hf x hx
      · rw [hx]; exact hop
    · rw [SegmentTree.update_leaves_outside idx nv t (by omega)] at hx
      exact hf x hx
  | updateRange l r d =>
    intro x hx
    rw [Op.run, SegmentTree.updateRange_leaves l r d t h.1] at hx
    exact addWithin_fits _ _ _ _ hf _ x hx
  | resetVisuals =>
    intro x hx
    rw [Op.run, SegmentTree.resetVisuals_getLeaves] at hx
    exact hf x hx

theorem leavesFit_runOps {n : Nat} (ops : List Op) (hops : ∀ op ∈ ops, op.Fits W) :
    ∀ {t : SegmentTree}, Good W n t → LeavesFit W t → LeavesFit W (runOps W t ops) := by
  induction ops with
  | nil => intro t _ h; exact h
  | cons op ops ih =>
    intro t hg h
    exact ih (fun o ho => hops o (List.mem_cons_of_mem op ho))
      (good_run op hg) (leavesFit_run op hg (hops op (List.mem_cons_self op ops)) h)

theorem leavesFit_reached (A : List Int) (hA : A ≠ []) (ops : List Op)
    (hfit : ∀ x ∈ A, W.norm x = x) (hops : ∀ op ∈ ops, op.Fits W) :
    LeavesFit W (runOps W (SegmentTree.ofArray W A) ops) :=
  leavesFit_runOps ops hops (good_ofArray A hA) (leavesFit_ofArray A hA hfit)

theorem fits_of_argsInt32 {op : Op} (h : op.ArgsInt32) : op.Fits Arith.int32 := by
  cases op with
  | query l r => trivial
  | update idx nv => exact (wrap32_eq_self_iff nv).mpr h
  | updateRange l r d => exact (wrap32_eq_self_iff d).mpr h
  | resetVisuals => trivial

theorem fits_unbounded (op : Op) : op.Fits Arith.unbounded := by
  cases op <;> trivial

namespace SegmentTree

/-! ## Undoing a range update -/

theorem resetVisuals_left (t : SegmentTree) : t.resetVisuals.left = t.left.resetVisuals := by
  cases t <;> rfl

theorem resetVisuals_right (t : SegmentTree) : t.resetVisuals.right = t.right.resetVisuals := by
  cases t <;> rfl

theorem resetVisuals_subtree (p : List Bool) :
    ∀ t : SegmentTree, t.resetVisuals.subtree p = (t.subtree p).resetVisuals := by
  induction p with
  | nil => intro t; rfl
  | cons b p ih =>
    intro t
    cases b
    · simp only [subtree, resetVisuals_left, ih]
    · simp only [subtree, resetVisuals_right, ih]

/-- Trees that agree once the tags are reset hold the same value at every node. -/
theorem subtree_val_of_resetVisuals_eq {a b : SegmentTree}
    (h : a.resetVisuals = b.resetVisuals) (p : List Bool) :
    (a.subtree p).val = (b.subtree p).val := by
  rw [← resetVisuals_val (a.subtree p), ← resetVisuals_val (b.subtree p),
    ← resetVisuals_subtree, ← resetVisuals_subtree, h]

theorem val_of_resetVisuals_eq {a b : SegmentTree} (h : a.resetVisuals = b.resetVisuals) :
    a.val = b.val :=
  subtree_val_of_resetVisuals_eq h []

theorem getLeaves_of_resetVisuals_eq {a b : SegmentTree} (h : a.resetVisuals = b.resetVisuals) :
    a.getLeaves [] = b.getLeaves [] := by
  rw [← resetVisuals_getLeaves a, ← resetVisuals_getLeaves b, h]

theorem updateRange_undo_ordered (l r d : Int) (hlr : l ≤ r) : ∀ t : SegmentTree, SumInv W t →
    LeavesFit W t →
    ((t.updateRange W l r d).updateRange W l r (-d)).resetVisuals = t.resetVisuals := by
  intro t
  induction t with
  | null => intro _ _; rfl
  | node le re v lt rt st ihl ihr =>
    intro hs hf
    rw [updateRange_node _ _ _ _ _ _ _ _ _ hlr]
    split_ifs with h1 h2
    · rw [updateRange_node _ _ _ _ _ _ _ _ _ hlr, if_pos h1]
      rfl
    · rw [updateRange_node _ _ _ _ _ _ _ _ _ hlr, if_neg h1, if_pos h2]
      simp only [resetVisuals, W.add_add_neg v d (leavesFit_leaf le re v lt rt st h2 hf)]
    · obtain ⟨fl, fr⟩ := leavesFit_node le re v lt rt st h2 hf
      by_cases hn : lt.isNull = true ∧ rt.isNull = true
      · obtain ⟨hl, hr⟩ := hn
        rw [isNull_eq_true_iff] at hl hr
        subst hl hr
        have e0 : ∀ c : Int, (null : SegmentTree).updateRange W l r c = null := fun _ => rfl
        rw [e0, recalc_leaf, updateRange_node _ _ _ _ _ _ _ _ _ hlr, if_neg h1, if_neg h2, e0,
          recalc_leaf]
        rfl
      · have hv : v = W.add lt.val rt.val := by
          rcases hs.1 with h | h
          · exact absurd h hn
          · exact h
        have e1 : recalc W (node le re v (lt.updateRange W l r d) (rt.updateRange W l r d)
            State.PARTIAL) =
            node le re (W.add (lt.updateRange W l r d).val (rt.updateRange W l r d).val)
              (lt.updateRange W l r d) (rt.updateRange W l r d) State.PARTIAL := by
          simp only [recalc, updateRange_isNull, hn, if_false]
        rw [e1, updateRange_node _ _ _ _ _ _ _ _ _ hlr]
        simp only [h1, h2, if_false]
        have e2 : ∀ w : Int, recalc W (node le re w
            ((lt.updateRange W l r d).updateRange W l r (-d))
            ((rt.updateRange W l r d).updateRange W l r (-d)) State.PARTIAL) =
            node le re (W.add ((lt.updateRange W l r d).updateRange W l r (-d)).val
              ((rt.updateRange W l r d).updateRange W l r (-d)).val)
              ((lt.updateRange W l r d).updateRange W l r (-d))
              ((rt.updateRange W l r d).updateRange W l r (-d)) State.PARTIAL := by
          intro w
          simp only [recalc, updateRange_isNull, hn, if_false]
        rw [e2]
        simp only [resetVisuals, ihl hs.2.1 fl, ihr hs.2.2 fr]
        rw [val_of_resetVisuals_eq (ihl hs.2.1 fl), val_of_resetVisuals_eq (ihr hs.2.2 fr), ← hv]

theorem updateRange_undo (l r d : Int) (t : SegmentTree) (hs : SumInv W t)
    (hf : LeavesFit W t) :
    ((t.updateRange W l r d).updateRange W l r (-d)).resetVisuals = t.resetVisuals := by
  rw [updateRange_swap _ l r (-d), updateRange_swap t l r d]
  exact updateRange_undo_ordered _ _ d min_le_max t hs hf

end SegmentTree

namespace SegmentTree

/-! ## Nodes addressed by paths -/

theorem subtree_null (p : List Bool) : (null : SegmentTree).subtree p = null := by
  induction p with
  | nil => rfl
  | cons b p ih => cases b <;> exact ih

theorem subtree_cons_false (t : SegmentTree) (p : List Bool) :
    t.subtree (false :: p) = t.left.subtree p := rfl

theorem subtree_cons_true (t : SegmentTree) (p : List Bool) :
    t.subtree (true :: p) = t.right.subtree p := rfl

theorem resetVisuals_state (t : SegmentTree) :
    t.resetVisuals.state = t.state.map (fun _ => State.DEFAULT) := by
  cases t <;> rfl

theorem subtree_ledge_of_resetVisuals_eq {a b : SegmentTree}
    (h : a.resetVisuals = b.resetVisuals) (p : List Bool) :
    (a.subtree p).ledge = (b.subtree p).ledge := by
  rw [← resetVisuals_ledge (a.subtree p), ← resetVisuals_ledge (b.subtree p),
    ← resetVisuals_subtree, ← resetVisuals_subtree, h]

theorem subtree_redge_of_resetVisuals_eq {a b : SegmentTree}
    (h : a.resetVisuals = b.resetVisuals) (p : List Bool) :
    (a.subtree p).redge = (b.subtree p).redge := by
  rw [← resetVisuals_redge (a.subtree p), ← resetVisuals_redge (b.subtree p),
    ← resetVisuals_subtree, ← resetVisuals_subtree, h]

theorem subtree_isNull_of_resetVisuals_eq {a b : SegmentTree}
    (h : a.resetVisuals = b.resetVisuals) (p : List Bool) :
    (a.subtree p).isNull = (b.subtree p).isNull := by
  rw [← resetVisuals_isNull (a.subtree p), ← resetVisuals_isNull (b.subtree p),
    ← resetVisuals_subtree, ← resetVisuals_subtree, h]

/-- The answer of `query` does not read the tags. -/
theorem query_fst_resetVisuals (t : SegmentTree) :
    ∀ l r : Int, (t.resetVisuals.query W l r).1 = (t.query W l r).1 := by
  induction t with
  | null => intro l r; rfl
  | node le re v lt rt st ihl ihr =>
    intro l r
    simp only [resetVisuals, query]
    split_ifs <;> simp only [ihl, ihr]

theorem query_fst_of_resetVisuals_eq {a b : SegmentTree} (h : a.resetVisuals = b.resetVisuals)
    (l r : Int) : (a.query W l r).1 = (b.query W l r).1 := by
  rw [← query_fst_resetVisuals a, ← query_fst_resetVisuals b, h]

theorem update_outside (t : SegmentTree) (idx nv : Int) (hn : t.isNull = false)
    (h : idx < t.ledge ∨ idx > t.redge) :
    (t.update W idx nv).resetVisuals = t.resetVisuals ∧
    (t.update W idx nv).state = some State.OUTSIDE ∧
    ∀ p : List Bool, p ≠ [] → ((t.update W idx nv).subtree p).state = (t.subtree p).state := by
  cases t with
  | null => exact absurd hn (by simp [isNull])
  | node le re v lt rt st =>
    simp only [ledge_node, redge_node] at h
    simp only [update, h, if_true]
    refine ⟨rfl, rfl, ?_⟩
    intro p hp
    cases p with
    | nil => exact absurd rfl hp
    | cons b p => cases b <;> rfl

theorem iterate_query_resetVisuals (l r : Int) (k : Nat) :
    ∀ t : SegmentTree, ((fun s : SegmentTree => (s.query W l r).2)^[k] t).resetVisuals =
      t.resetVisuals := by
  induction k with
  | zero => intro t; rfl
  | succ k ih =>
    intro t
    rw [Function.iterate_succ_apply, ih, resetVisuals_query]

end SegmentTree

namespace SegmentTree

/-! ## Intervals and child links never change -/

theorem skeleton_isNull (t : SegmentTree) : t.skeleton.isNull = t.isNull := by
  cases t <;> rfl

theorem skeleton_ledge (t : SegmentTree) : t.skeleton.ledge = t.ledge := by
  cases t <;> rfl

theorem skeleton_redge (t : SegmentTree) : t.skeleton.redge = t.redge := by
  cases t <;> rfl

theorem skeleton_left (t : SegmentTree) : t.skeleton.left = t.left.skeleton := by
  cases t <;> rfl

theorem skeleton_right (t : SegmentTree) : t.skeleton.right = t.right.skeleton := by
  cases t <;> rfl

theorem skeleton_subtree (p : List Bool) :
    ∀ t : SegmentTree, t.skeleton.subtree p = (t.subtree p).skeleton := by
  induction p with
  | nil => intro t; rfl
  | cons b p ih =>
    intro t
    cases b
    · simp only [subtree, skeleton_left, ih]
    · simp only [subtree, skeleton_right, ih]

theorem skeleton_recalc (t : SegmentTree) : (recalc W t).skeleton = t.skeleton := by
  cases t with
  | null => rfl
  | node le re v lt rt st => simp only [recalc]; split <;> rfl

theorem skeleton_resetVisuals (t : SegmentTree) : t.resetVisuals.skeleton = t.skeleton := by
  induction t with
  | null => rfl
  | node le re v lt rt st ihl ihr => simp only [resetVisuals, skeleton, ihl, ihr]

theorem skeleton_query (t : SegmentTree) (l r : Int) : (t.query W l r).2.skeleton = t.skeleton := by
  rw [← skeleton_resetVisuals, resetVisuals_query, skeleton_resetVisuals]

theorem skeleton_update (idx nv : Int) :
    ∀ t : SegmentTree, (t.update W idx nv).skeleton = t.skeleton := by
  intro t
  induction t with
  | null => rfl
  | node le re v lt rt st ihl ihr =>
    unfold update
    split_ifs <;> (try rw [skeleton_recalc]) <;> simp only [skeleton, ihl, ihr]

theorem skeleton_updateRange (d : Int) :
    ∀ (t : SegmentTree) (l r : Int), (t.updateRange W l r d).skeleton = t.skeleton := by
  intro t
  induction t with
  | null => intro l r; rfl
  | node le re v lt rt st ihl ihr =>
    intro l r
    simp only [updateRange]
    split_ifs <;> (try rw [skeleton_recalc]) <;> simp only [skeleton, ihl, ihr]

end SegmentTree

theorem skeleton_run (op : Op) (t : SegmentTree) : (op.run W t).skeleton = t.skeleton := by
  cases op with
  | query l r => exact SegmentTree.skeleton_query t l r
  | update idx nv => exact SegmentTree.skeleton_update idx nv t
  | updateRange l r d => exact SegmentTree.skeleton_updateRange d t l r
  | resetVisuals => exact SegmentTree.skeleton_resetVisuals t

theorem skeleton_runOps (ops : List Op) :
    ∀ t : SegmentTree, (runOps W t ops).skeleton = t.skeleton := by
  induction ops with
  | nil => intro t; rfl
  | cons op ops ih =>
    intro t
    exact (ih (op.run W t)).trans (skeleton_run op t)

theorem subtree_fields_of_skeleton_eq {a b : SegmentTree} (h : a.skeleton = b.skeleton)
    (p : List Bool) :
    (a.subtree p).ledge = (b.subtree p).ledge ∧ (a.subtree p).redge = (b.subtree p).redge ∧
      (a.subtree p).isNull = (b.subtree p).isNull := by
  refine ⟨?_, ?_, ?_⟩
  · rw [← SegmentTree.skeleton_ledge (a.subtree p), ← SegmentTree.skeleton_ledge (b.subtree p),
      ← SegmentTree.skeleton_subtree, ← SegmentTree.skeleton_subtree, h]
  · rw [← SegmentTree.skeleton_redge (a.subtree p), ← SegmentTree.skeleton_redge (b.subtree p),
      ← SegmentTree.skeleton_subtree, ← SegmentTree.skeleton_subtree, h]
  · rw [← SegmentTree.skeleton_isNull (a.subtree p), ← SegmentTree.skeleton_isNull (b.subtree p),
      ← SegmentTree.skeleton_subtree, ← SegmentTree.skeleton_subtree, h]

theorem midShape_skeleton (t : SegmentTree) : MidShape t.skeleton ↔ MidShape t := by
  induction t with
  | null => exact Iff.rfl
  | node le re v lt rt st ihl ihr =>
    simp only [SegmentTree.skeleton, MidShape, ihl, ihr, SegmentTree.skeleton_isNull,
      SegmentTree.skeleton_ledge, SegmentTree.skeleton_redge]

theorem midShape_of_skeleton_eq {a b : SegmentTree} (h : a.skeleton = b.skeleton)
    (hb : MidShape b) : MidShape a := by
  rw [← midShape_skeleton, h, midShape_skeleton]
  exact hb

theorem MidShape.not_null {t : SegmentTree} (h : MidShape t) : t.isNull = false := by
  cases t with
  | null => exact absurd h (by simp [MidShape])
  | node le re v lt rt st => rfl

theorem MidShape.at_path (p : List Bool) :
    ∀ {t : SegmentTree}, MidShape t → (t.subtree p).isNull = false → MidShape (t.subtree p) := by
  induction p with
  | nil => intro t h _; exact h
  | cons b p ih =>
    intro t h hn
    cases t with
    | null => exact absurd h (by simp [MidShape])
    | node le re v lt rt st =>
      simp only [MidShape] at h
      rcases h with ⟨_, hl, hr⟩ | ⟨_, _, ml, mr, _⟩
      · rw [SegmentTree.isNull_eq_true_iff] at hl hr
        subst hl hr
        cases b <;>
          simp [SegmentTree.subtree, SegmentTree.left, SegmentTree.right,
            SegmentTree.subtree_null, SegmentTree.isNull] at hn
      · cases b
        · exact ih ml hn
        · exact ih mr hn

theorem build_midShape (arr : List Int) :
    ∀ (fuel : Nat) (l r : Int), 0 ≤ l → l ≤ r → r - l < fuel →
      MidShape (SegmentTree.build W fuel l r arr) := by
  intro fuel
  induction fuel with
  | zero => intro l r _ _ h; omega
  | succ fuel ih =>
    intro l r hl hlr hf
    unfold SegmentTree.build
    by_cases h : l = r
    · subst h
      simp [MidShape, SegmentTree.isNull]
    · have hm := SegmentTree.mid_bounds l r hl (by omega)
      have he : (l + r).tdiv 2 = (l + r) / 2 := Int.tdiv_eq_ediv (by omega) (by norm_num)
      obtain ⟨s1, -, a1, b1⟩ := SegmentTree.build_spec arr fuel l ((l + r).tdiv 2) hl hm.1
        (by omega)
      obtain ⟨-, -, a2, b2⟩ := SegmentTree.build_spec arr fuel ((l + r).tdiv 2 + 1) r
        (by omega) (by omega) (by omega)
      have m1 := ih l ((l + r).tdiv 2) hl hm.1 (by omega)
      have m2 := ih ((l + r).tdiv 2 + 1) r (by omega) (by omega) (by omega)
      simp only [h, if_false]
      rw [SegmentTree.recalc_node _ _ _ _ _ _ s1.isNull_eq_false]
      exact Or.inr ⟨by omega, hl, m1, m2, a1, by rw [b1, he], by rw [a2, he], b2⟩

theorem midShape_reached (A : List Int) (hA : A ≠ []) (ops : List Op) :
    MidShape (runOps W (SegmentTree.ofArray W A) ops) := by
  have hpos : 0 < A.length := List.length_pos.mpr hA
  exact midShape_of_skeleton_eq (skeleton_runOps ops _)
    (build_midShape A A.length 0 ((A.length : Int) - 1) (le_refl 0) (by omega) (by omega))

/-- What `MidShape` says of the root node. -/
theorem MidShape.local {s : SegmentTree} (h : MidShape s) :
    s.ledge ≤ s.redge ∧
    ((s.left.isNull = true ∧ s.right.isNull = true) ↔ s.ledge = s.redge) ∧
    (s.ledge ≠ s.redge →
      s.left.isNull = false ∧ s.right.isNull = false ∧
      s.left.ledge = s.ledge ∧ s.left.redge = (s.ledge + s.redge) / 2 ∧
      s.right.ledge = (s.ledge + s.redge) / 2 + 1 ∧ s.right.redge = s.redge) := by
  cases s with
  | null => exact absurd h (by simp [MidShape])
  | node le re v lt rt st =>
    simp only [MidShape] at h
    simp only [SegmentTree.ledge_node, SegmentTree.redge_node, SegmentTree.left,
      SegmentTree.right]
    rcases h with ⟨h0, hl, hr⟩ | ⟨hlt, h0, ml, mr, a, b, c, d⟩
    · exact ⟨by omega, ⟨fun _ => h0, fun _ => ⟨hl, hr⟩⟩, fun hne => absurd h0 hne⟩
    · refine ⟨by omega, ⟨fun hn => ?_, fun he => by omega⟩,
        fun _ => ⟨ml.not_null, mr.not_null, a, b, c, d⟩⟩
      rw [ml.not_null] at hn
      exact absurd hn.1 (by simp)

namespace SegmentTree

/-! ## Tags are a function of the intervals -/

theorem eraseVal_isNull (t : SegmentTree) : t.eraseVal.isNull = t.isNull := by
  cases t <;> rfl

theorem eraseVal_redge (t : SegmentTree) : t.eraseVal.redge = t.redge := by
  cases t <;> rfl

theorem eraseVal_state (t : SegmentTree) : t.eraseVal.state = t.state := by
  cases t <;> rfl

theorem eraseVal_left (t : SegmentTree) : t.eraseVal.left = t.left.eraseVal := by
  cases t <;> rfl

theorem eraseVal_right (t : SegmentTree) : t.eraseVal.right = t.right.eraseVal := by
  cases t <;> rfl

theorem eraseVal_subtree (p : List Bool) :
    ∀ t : SegmentTree, t.eraseVal.subtree p = (t.subtree p).eraseVal := by
  induction p with
  | nil => intro t; rfl
  | cons b p ih =>
    intro t
    cases b
    · simp only [subtree, eraseVal_left, ih]
    · simp only [subtree, eraseVal_right, ih]

theorem subtree_state_of_eraseVal_eq {a b : SegmentTree} (h : a.eraseVal = b.eraseVal)
    (p : List Bool) : (a.subtree p).state = (b.subtree p).state := by
  rw [← eraseVal_state (a.subtree p), ← eraseVal_state (b.subtree p), ← eraseVal_subtree,
    ← eraseVal_subtree, h]

theorem skeleton_eraseVal (t : SegmentTree) : t.eraseVal.skeleton = t.skeleton := by
  induction t with
  | null => rfl
  | node le re v lt rt st ihl ihr => simp only [eraseVal, skeleton, ihl, ihr]

theorem eraseVal_recalc (t : SegmentTree) : (recalc W t).eraseVal = t.eraseVal := by
  cases t with
  | null => rfl
  | node le re v lt rt st => simp only [recalc]; split <;> rfl

theorem eraseVal_resetVisuals (t : SegmentTree) : t.resetVisuals.eraseVal = t.skeleton := by
  induction t with
  | null => rfl
  | node le re v lt rt st ihl ihr => simp only [resetVisuals, eraseVal, skeleton, ihl, ihr]

theorem resetVisuals_recalc (t : SegmentTree) :
    (recalc W t).resetVisuals = recalc W t.resetVisuals := by
  cases t with
  | null => rfl
  | node le re v lt rt st =>
    simp only [recalc, resetVisuals, resetVisuals_isNull, resetVisuals_val]
    split <;> rfl

theorem resetVisuals_build (arr : List Int) :
    ∀ (fuel : Nat) (l r : Int), (build W fuel l r arr).resetVisuals = build W fuel l r arr := by
  intro fuel
  induction fuel with
  | zero => intro l r; rfl
  | succ fuel ih =>
    intro l r
    unfold build
    split
    · rfl
    · simp only [resetVisuals_recalc, resetVisuals, ih]

theorem eraseVal_query_congr (l r : Int) :
    ∀ a b : SegmentTree, a.eraseVal = b.eraseVal →
      (a.query W l r).2.eraseVal = (b.query W l r).2.eraseVal := by
  intro a
  induction a generalizing l r with
  | null =>
    intro b h
    cases b with
    | null => rfl
    | node le re v lt rt st => simp [eraseVal] at h
  | node le re v lt rt st ihl ihr =>
    intro b h
    cases b with
    | null => simp [eraseVal] at h
    | node le2 re2 v2 lt2 rt2 st2 =>
      simp only [eraseVal, node.injEq, true_and] at h
      obtain ⟨h1, h2, h3, h4, h5⟩ := h
      subst h1 h2 h5
      simp only [query]
      split_ifs <;> simp only [eraseVal, h3, h4, ihl _ _ lt2 h3, ihr _ _ rt2 h4]

theorem eraseVal_update_congr (idx nv : Int) :
    ∀ a b : SegmentTree, a.eraseVal = b.eraseVal →
      (a.update W idx nv).eraseVal = (b.update W idx nv).eraseVal := by
  intro a
  induction a with
  | null =>
    intro b h
    cases b with
    | null => rfl
    | node le re v lt rt st => simp [eraseVal] at h
  | node le re v lt rt st ihl ihr =>
    intro b h
    cases b with
    | null => simp [eraseVal] at h
    | node le2 re2 v2 lt2 rt2 st2 =>
      simp only [eraseVal, node.injEq, true_and] at h
      obtain ⟨h1, h2, h3, h4, h5⟩ := h
      subst h1 h2 h5
      have n1 : lt.isNull = lt2.isNull := by rw [← eraseVal_isNull lt, h3, eraseVal_isNull]
      have n2 : rt.isNull = rt2.isNull := by rw [← eraseVal_isNull rt, h4, eraseVal_isNull]
      have n3 : lt.redge = lt2.redge := by rw [← eraseVal_redge lt, h3, eraseVal_redge]
      unfold update
      rw [n1, n2, n3]
      split_ifs <;> (try rw [eraseVal_recalc, eraseVal_recalc]) <;>
        simp only [eraseVal, h3, h4, ihl lt2 h3, ihr rt2 h4]

theorem eraseVal_updateRange_congr (d : Int) :
    ∀ (a b : SegmentTree) (l r : Int), a.eraseVal = b.eraseVal →
      (a.updateRange W l r d).eraseVal = (b.updateRange W l r d).eraseVal := by
  intro a
  induction a with
  | null =>
    intro b l r h
    cases b with
    | null => rfl
    | node le re v lt rt st => simp [eraseVal] at h
  | node le re v lt rt st ihl ihr =>
    intro b l r h
    cases b with
    | null => simp [eraseVal] at h
    | node le2 re2 v2 lt2 rt2 st2 =>
      simp only [eraseVal, node.injEq, true_and] at h
      obtain ⟨h1, h2, h3, h4, h5⟩ := h
      subst h1 h2 h5
      simp only [updateRange]
      split_ifs <;> (try rw [eraseVal_recalc, eraseVal_recalc]) <;>
        simp only [eraseVal, h3, h4, ihl lt2 _ _ h3, ihr rt2 _ _ h4]

end SegmentTree

theorem eraseVal_run_congr (op : Op) {a b : SegmentTree} (h : a.eraseVal = b.eraseVal) :
    (op.run W a).eraseVal = (op.run W b).eraseVal := by
  cases op with
  | query l r => exact SegmentTree.eraseVal_query_congr l r a b h
  | update idx nv => exact SegmentTree.eraseVal_update_congr idx nv a b h
  | updateRange l r d => exact SegmentTree.eraseVal_updateRange_congr d a b l r h
  | resetVisuals =>
    show a.resetVisuals.eraseVal = b.resetVisuals.eraseVal
    rw [SegmentTree.eraseVal_resetVisuals, SegmentTree.eraseVal_resetVisuals,
      ← SegmentTree.skeleton_eraseVal a, ← SegmentTree.skeleton_eraseVal b, h]

/-! ## Frame of the point update -/

theorem Shape.at_path_bounds (p : List Bool) :
    ∀ {t : SegmentTree}, Shape t → (t.subtree p).isNull = false →
      Shape (t.subtree p) ∧ t.ledge ≤ (t.subtree p).ledge ∧ (t.subtree p).redge ≤ t.redge := by
  induction p with
  | nil => intro t h _; exact ⟨h, le_refl _, le_refl _⟩
  | cons b p ih =>
    intro t h hn
    cases t with
    | null => exact absurd h (by simp [Shape])
    | node le re v lt rt st =>
      have hs := h
      simp only [Shape] at hs
      rcases hs with ⟨_, hl, hr⟩ | ⟨_, sl, sr, a, b1, c⟩
      · rw [SegmentTree.isNull_eq_true_iff] at hl hr
        subst hl hr
        cases b <;>
          simp [SegmentTree.subtree, SegmentTree.left, SegmentTree.right,
            SegmentTree.subtree_null, SegmentTree.isNull] at hn
      · have e1 := sl.ledge_le_redge
        have e2 := sr.ledge_le_redge
        simp only [SegmentTree.ledge_node, SegmentTree.redge_node]
        cases b
        · obtain ⟨x, y, z⟩ := ih sl hn
          exact ⟨x, by rw [← a]; exact y, by
            have : (lt.subtree p).redge ≤ lt.redge := z
            show (lt.subtree p).redge ≤ re
            omega⟩
        · obtain ⟨x, y, z⟩ := ih sr hn
          exact ⟨x, by
            have : rt.ledge ≤ (rt.subtree p).ledge := y
            show le ≤ (rt.subtree p).ledge
            omega, by rw [← c]; exact z⟩

namespace SegmentTree

/-- One step of `update` on a node that is not a leaf and holds `idx`. -/
theorem update_internal (le re v : Int) (lt rt : SegmentTree) (st : State) (idx nv : Int)
    (h : Shape (node le re v lt rt st)) (hne : le ≠ re) (h1 : le ≤ idx) (h2 : idx ≤ re) :
    (node le re v lt rt st).update W idx nv =
      if idx ≤ lt.redge then
        node le re (W.add (lt.update W idx nv).val rt.val) (lt.update W idx nv) rt State.PARTIAL
      else
        node le re (W.add lt.val (rt.update W idx nv).val) lt (rt.update W idx nv)
          State.PARTIAL := by
  simp only [Shape] at h
  rcases h with ⟨h, _⟩ | ⟨_, sl, sr, _⟩
  · exact absurd h hne
  · have hout : ¬ (idx < le ∨ idx > re) := by omega
    rw [update]
    simp only [hout, hne, if_false, sl.isNull_eq_false, sr.isNull_eq_false, true_and, if_true]
    split_ifs
    · rw [recalc_node _ _ _ _ _ _ (by rw [update_isNull]; exact sl.isNull_eq_false)]
    · rw [recalc_node _ _ _ _ _ _ sl.isNull_eq_false]

theorem update_frame (idx nv : Int) : ∀ t : SegmentTree, Shape t →
    t.ledge ≤ idx → idx ≤ t.redge → ∀ p : List Bool, (t.subtree p).isNull = false →
    (((t.subtree p).ledge ≤ idx ∧ idx ≤ (t.subtree p).redge) →
      ((t.subtree p).ledge = (t.subtree p).redge →
        ((t.update W idx nv).subtree p).val = nv ∧
        ((t.update W idx nv).subtree p).state = some State.CONTAINED) ∧
      ((t.subtree p).ledge ≠ (t.subtree p).redge →
        ((t.update W idx nv).subtree p).val =
          W.add ((t.update W idx nv).subtree p).left.val
            ((t.update W idx nv).subtree p).right.val ∧
        ((t.update W idx nv).subtree p).state = some State.PARTIAL)) ∧
    (¬ ((t.subtree p).ledge ≤ idx ∧ idx ≤ (t.subtree p).redge) →
      (t.update W idx nv).subtree p = t.subtree p) := by
  intro t
  induction t with
  | null => intro h; exact absurd h (by simp [Shape])
  | node le re v lt rt st ihl ihr =>
    intro h h1 h2 p hn
    simp only [ledge_node, redge_node] at h1 h2
    have hs := h
    simp only [Shape] at hs
    rcases hs with ⟨he, hl, hr⟩ | ⟨hlt, sl, sr, a, b, c⟩
    · rw [isNull_eq_true_iff] at hl hr
      subst hl hr
      cases p with
      | nil =>
        subst he
        have hout : ¬ (idx < le ∨ idx > le) := by omega
        simp only [subtree, ledge_node, redge_node, update, hout, if_false, if_true]
        exact ⟨fun _ => ⟨fun _ => ⟨rfl, rfl⟩, fun hne => absurd rfl hne⟩, fun hc => by omega⟩
      | cons b p =>
        cases b <;> simp [subtree, left, right, subtree_null, isNull] at hn
    · have hne : le ≠ re := by omega
      have e1 := sl.ledge_le_redge
      have e2 := sr.ledge_le_redge
      rw [update_internal le re v lt rt st idx nv h hne h1 h2]
      by_cases hi : idx ≤ lt.redge
      · simp only [hi, if_true]
        cases p with
        | nil =>
          simp only [subtree, ledge_node, redge_node]
          exact ⟨fun _ => ⟨fun hc => absurd hc hne, fun _ => ⟨rfl, rfl⟩⟩, fun hc => by omega⟩
        | cons b p =>
          cases b
          · exact ihl sl (by omega) hi p hn
          · have hb := (sr.at_path_bounds p hn).2.1
            refine ⟨fun hc => ?_, fun _ => rfl⟩
            have : (rt.subtree p).ledge ≤ idx := hc.1
            omega
      · simp only [hi, if_false]
        cases p with
        | nil =>
          simp only [subtree, ledge_node, redge_node]
          exact ⟨fun _ => ⟨fun hc => absurd hc hne, fun _ => ⟨rfl, rfl⟩⟩, fun hc => by omega⟩
        | cons b p =>
          cases b
          · have hb := (sl.at_path_bounds p hn).2.2
            refine ⟨fun hc => ?_, fun _ => rfl⟩
            have : idx ≤ (lt.subtree p).redge := hc.2
            omega
          · exact ihr sr (by omega) (by omega) p hn

end SegmentTree

namespace SegmentTree

/-! ## Tags written by the range update -/

theorem subtree_append (p q : List Bool) :
    ∀ t : SegmentTree, t.subtree (p ++ q) = (t.subtree p).subtree q := by
  induction p with
  | nil => intro t; rfl
  | cons b p ih => intro t; cases b <;> exact ih _

theorem subtree_dropLast_isNull (p : List Bool) :
    ∀ t : SegmentTree, (t.subtree p).isNull = false → (t.subtree p.dropLast).isNull = false := by
  induction p with
  | nil => intro t h; exact h
  | cons b p ih =>
    intro t h
    cases p with
    | nil =>
      cases t with
      | null => cases b <;> exact h
      | node le re v lt rt st => rfl
    | cons c p =>
      cases b
      · exact ih t.left h
      · exact ih t.right h

theorem recalc_state (t : SegmentTree) : (recalc W t).state = t.state := by
  cases t with
  | null => rfl
  | node le re v lt rt st => simp only [recalc]; split <;> rfl

theorem subtree_node_false (le re v : Int) (lt rt : SegmentTree) (st : State) (p : List Bool) :
    (node le re v lt rt st).subtree (false :: p) = lt.subtree p := rfl

theorem subtree_node_true (le re v : Int) (lt rt : SegmentTree) (st : State) (p : List Bool) :
    (node le re v lt rt st).subtree (true :: p) = rt.subtree p := rfl

/-- The tag `updateRange` writes on a node it visits: the source case split. -/
theorem updateRange_tags (l r d : Int) (hlr : l ≤ r) : ∀ t : SegmentTree, Shape t →
    ∀ p : List Bool, (t.subtree p).isNull = false →
    ((t.updateRange W l r d).subtree p).state =
      if p = [] ∨ ¬ (r < (t.subtree p.dropLast).ledge ∨ l > (t.subtree p.dropLast).redge) then
        (if r < (t.subtree p).ledge ∨ l > (t.subtree p).redge then some State.OUTSIDE
         else if (t.subtree p).ledge = (t.subtree p).redge then some State.CONTAINED
         else some State.PARTIAL)
      else (t.subtree p).state := by
  intro t
  induction t with
  | null => intro h; exact absurd h (by simp [Shape])
  | node le re v lt rt st ihl ihr =>
    intro h p hn
    have hs := h
    simp only [Shape] at hs
    rw [updateRange_node _ _ _ _ _ _ _ _ _ hlr]
    cases p with
    | nil =>
      simp only [subtree, ledge_node, redge_node, true_or, if_true]
      split_ifs <;> first | rfl | (rw [recalc_state]; rfl)
    | cons b p =>
      by_cases h1 : r < le ∨ l > re
      · simp only [h1, if_true]
        have hd := subtree_dropLast_isNull (b :: p) _ hn
        obtain ⟨-, x, y⟩ := h.at_path_bounds (b :: p).dropLast hd
        simp only [ledge_node, redge_node] at x y
        have hc : ¬ (b :: p = [] ∨ ¬ (r < ((node le re v lt rt st).subtree
            (b :: p).dropLast).ledge ∨ l > ((node le re v lt rt st).subtree
            (b :: p).dropLast).redge)) := by
          simp only [List.cons_ne_nil, false_or, not_not]
          omega
        rw [if_neg hc]
        cases b <;> rfl
      · rcases hs with ⟨he, hl, hr⟩ | ⟨hlt, sl, sr, a, b1, c⟩
        · rw [isNull_eq_true_iff] at hl hr
          subst hl hr
          cases b <;> simp [subtree, left, right, subtree_null, isNull] at hn
        · have hne : le ≠ re := by omega
          simp only [h1, hne, if_false]
          rw [recalc_node _ _ _ _ _ _ (by rw [updateRange_isNull]; exact sl.isNull_eq_false)]
          cases p with
          | nil =>
            have hc : ([b] = [] ∨ ¬ (r < ((node le re v lt rt st).subtree
                [b].dropLast).ledge ∨ l > ((node le re v lt rt st).subtree
                [b].dropLast).redge)) := Or.inr h1
            rw [if_pos hc]
            cases b
            · have := ihl sl [] hn
              simpa using this
            · have := ihr sr [] hn
              simpa using this
          | cons c p =>
            cases b
            · have := ihl sl (c :: p) hn
              simpa only [List.dropLast_cons₂, subtree_node_false, List.cons_ne_nil, false_or]
                using this
            · have := ihr sr (c :: p) hn
              simpa only [List.dropLast_cons₂, subtree_node_true, List.cons_ne_nil, false_or]
                using this

end SegmentTree

theorem Shape.parent_bounds {t : SegmentTree} (h : Shape t) (p : List Bool) (hp : p ≠ [])
    (hn : (t.subtree p).isNull = false) :
    (t.subtree p.dropLast).ledge ≤ (t.subtree p).ledge ∧
      (t.subtree p).redge ≤ (t.subtree p.dropLast).redge := by
  have hd := SegmentTree.subtree_dropLast_isNull p t hn
  have hsp := (h.at_path_bounds p.dropLast hd).1
  have e : t.subtree p = (t.subtree p.dropLast).subtree [p.getLast hp] := by
    rw [← SegmentTree.subtree_append, List.dropLast_append_getLast]
  rw [e] at hn ⊢
  exact (hsp.at_path_bounds _ hn).2

theorem SegmentTree.resetVisuals_state_of_not_null (t : SegmentTree) (h : t.isNull = false) :
    t.resetVisuals.state = some State.DEFAULT := by
  cases t with
  | null => exact absurd h (by simp [SegmentTree.isNull])
  | node le re v lt rt st => rfl

namespace SegmentTree

/-! ## Height of the built tree -/

theorem height_node (le re v : Int) (lt rt : SegmentTree) (st : State)
    (h : lt.isNull = false) :
    (node le re v lt rt st).height = 1 + max lt.height rt.height := by
  simp [height, h]

theorem build_height (arr : List Int) :
    ∀ (fuel : Nat) (l r : Int), 0 ≤ l → l ≤ r → r - l < fuel →
      (2 : Int) ^ (build W fuel l r arr).height < 2 * (r - l + 1) := by
  intro fuel
  induction fuel with
  | zero => intro l r _ _ h; omega
  | succ fuel ih =>
    intro l r hl hlr hf
    unfold build
    by_cases h : l = r
    · subst h
      simp [height, isNull]
    · have hm := mid_bounds l r hl (by omega)
      have he : (l + r).tdiv 2 = (l + r) / 2 := Int.tdiv_eq_ediv (by omega) (by norm_num)
      obtain ⟨s1, -, -, -⟩ := build_spec arr fuel l ((l + r).tdiv 2) hl hm.1 (by omega)
      have i1 := ih l ((l + r).tdiv 2) hl hm.1 (by omega)
      have i2 := ih ((l + r).tdiv 2 + 1) r (by omega) (by omega) (by omega)
      simp only [h, if_false]
      rw [recalc_node _ _ _ _ _ _ s1.isNull_eq_false, height_node _ _ _ _ _ _ s1.isNull_eq_false]
      generalize (build W fuel l ((l + r).tdiv 2) arr).height = hl at i1 ⊢
      generalize (build W fuel ((l + r).tdiv 2 + 1) r arr).height = hr at i2 ⊢
      rw [he] at i1 i2
      have key : ∀ k : Nat, (2 : Int) ^ k < 2 * ((l + r) / 2 - l + 1) →
          (2 : Int) ^ (1 + k) < 2 * (r - l + 1) := by
        intro k hk
        cases k with
        | zero => simp only [add_zero, pow_one]; omega
        | succ k =>
          rw [pow_succ] at hk
          rw [pow_add, pow_one, pow_succ]
          omega
      rcases max_cases hl hr with ⟨e, _⟩ | ⟨e, _⟩
      · rw [e]; exact key hl i1
      · rw [e]; exact key hr (by omega)

end SegmentTree

namespace SegmentTree

/-! ## How many nodes a query tags `PARTIAL` -/

theorem resetVisuals_tagsAtDepth_count (t : SegmentTree) :
    ∀ k : Nat, (t.resetVisuals.tagsAtDepth k).count State.PARTIAL = 0 := by
  induction t with
  | null => intro k; rfl
  | node le re v lt rt st ihl ihr =>
    intro k
    cases k with
    | zero => simp [resetVisuals, tagsAtDepth]
    | succ k => simp [resetVisuals, tagsAtDepth, ihl, ihr]

theorem resetVisuals_tags_count (t : SegmentTree) :
    t.resetVisuals.tags.count State.PARTIAL = 0 := by
  induction t with
  | null => rfl
  | node le re v lt rt st ihl ihr => simp [resetVisuals, tags, ihl, ihr]

/-- A node that the query leaves at once (disjoint or covered) yields no
`PARTIAL` tag below it. -/
theorem query_done_count (l r : Int) (hlr : l ≤ r) (t : SegmentTree)
    (h : (r < t.ledge ∨ t.redge < l) ∨ (l ≤ t.ledge ∧ t.redge ≤ r)) :
    (∀ k : Nat, ((t.resetVisuals.query W l r).2.tagsAtDepth k).count State.PARTIAL = 0) ∧
      (t.resetVisuals.query W l r).2.tags.count State.PARTIAL = 0 := by
  cases t with
  | null => exact ⟨fun k => rfl, rfl⟩
  | node le re v lt rt st =>
    simp only [ledge_node, redge_node] at h
    simp only [resetVisuals]
    rw [query_node _ _ _ _ _ _ _ _ hlr]
    by_cases h1 : r < le ∨ re < l
    · simp only [h1, if_true]
      refine ⟨fun k => ?_, ?_⟩
      · cases k with
        | zero => simp [tagsAtDepth]
        | succ k => simp [tagsAtDepth, resetVisuals_tagsAtDepth_count]
      · simp [tags, resetVisuals_tags_count]
    · have h2 : l ≤ le ∧ re ≤ r := by
        rcases h with h | h
        · exact absurd h h1
        · exact h
      simp only [h1, h2, and_self, if_true, if_false]
      refine ⟨fun k => ?_, ?_⟩
      · cases k with
        | zero => simp [tagsAtDepth]
        | succ k => simp [tagsAtDepth, resetVisuals_tagsAtDepth_count]
      · simp [tags, resetVisuals_tags_count]

/-- One step of the query on a reset node that it has to split. -/
theorem query_split (l r : Int) (hlr : l ≤ r) (le re v : Int) (lt rt : SegmentTree) (st : State)
    (h1 : ¬ (r < le ∨ re < l)) (h2 : ¬ (l ≤ le ∧ re ≤ r)) :
    ((node le re v lt rt st).resetVisuals.query W l r).2 =
      node le re v (lt.resetVisuals.query W l r).2 (rt.resetVisuals.query W l r).2 State.PARTIAL :=
          by
  simp only [resetVisuals]
  rw [query_node _ _ _ _ _ _ _ _ hlr]
  simp only [h1, h2, if_false]

/-- When the range covers one end of the interval of the node, at most one
node per depth is tagged `PARTIAL`. -/
theorem query_partial_one_sided (l r : Int) (hlr : l ≤ r) : ∀ t : SegmentTree, Shape t →
    (l ≤ t.ledge ∨ t.redge ≤ r) →
    (∀ k : Nat, ((t.resetVisuals.query W l r).2.tagsAtDepth k).count State.PARTIAL ≤ 1) ∧
      (t.resetVisuals.query W l r).2.tags.count State.PARTIAL ≤ t.height := by
  intro t
  induction t with
  | null => intro h; exact absurd h (by simp [Shape])
  | node le re v lt rt st ihl ihr =>
    intro h hside
    simp only [ledge_node, redge_node] at hside
    by_cases hd : (r < le ∨ re < l) ∨ (l ≤ le ∧ re ≤ r)
    · obtain ⟨z1, z2⟩ := @query_done_count W l r hlr (node le re v lt rt st) hd
      exact ⟨fun k => by rw [z1 k]; exact Nat.zero_le _, by rw [z2]; exact Nat.zero_le _⟩
    · have h1 : ¬ (r < le ∨ re < l) := fun hc => hd (Or.inl hc)
      have h2 : ¬ (l ≤ le ∧ re ≤ r) := fun hc => hd (Or.inr hc)
      rw [query_split l r hlr le re v lt rt st h1 h2]
      simp only [Shape] at h
      rcases h with ⟨he, _⟩ | ⟨hlt, sl, sr, a, b, c⟩
      · omega
      · rw [height_node _ _ _ _ _ _ sl.isNull_eq_false]
        have el := sl.ledge_le_redge
        have er := sr.ledge_le_redge
        by_cases hm : r ≤ lt.redge
        · obtain ⟨z1, z2⟩ := @query_done_count W l r hlr rt (Or.inl (Or.inl (by omega)))
          obtain ⟨i1, i2⟩ := ihl sl (by omega)
          refine ⟨fun k => ?_, ?_⟩
          · cases k with
            | zero => simp [tagsAtDepth]
            | succ k => simp only [tagsAtDepth, List.count_append, z1 k, add_zero]; exact i1 k
          · simp only [tags, List.count_cons_self, List.count_append, z2, add_zero]
            have := Nat.le_max_left lt.height rt.height
            omega
        · by_cases hm2 : lt.redge < l
          · obtain ⟨z1, z2⟩ := @query_done_count W l r hlr lt (Or.inl (Or.inr hm2))
            obtain ⟨i1, i2⟩ := ihr sr (by omega)
            refine ⟨fun k => ?_, ?_⟩
            · cases k with
              | zero => simp [tagsAtDepth]
              | succ k => simp only [tagsAtDepth, List.count_append, z1 k, zero_add]; exact i1 k
            · simp only [tags, List.count_cons_self, List.count_append, z2, zero_add]
              have := Nat.le_max_right lt.height rt.height
              omega
          · rcases hside with hs | hs
            · obtain ⟨z1, z2⟩ := @query_done_count W l r hlr lt (Or.inr ⟨by omega, by omega⟩)
              obtain ⟨i1, i2⟩ := ihr sr (Or.inl (by omega))
              refine ⟨fun k => ?_, ?_⟩
              · cases k with
                | zero => simp [tagsAtDepth]
                | succ k =>
                  simp only [tagsAtDepth, List.count_append, z1 k, zero_add]; exact i1 k
              · simp only [tags, List.count_cons_self, List.count_append, z2, zero_add]
                have := Nat.le_max_right lt.height rt.height
                omega
            · obtain ⟨z1, z2⟩ := @query_done_count W l r hlr rt (Or.inr ⟨by omega, by omega⟩)
              obtain ⟨i1, i2⟩ := ihl sl (Or.inr (by omega))
              refine ⟨fun k => ?_, ?_⟩
              · cases k with
                | zero => simp [tagsAtDepth]
                | succ k =>
                  simp only [tagsAtDepth, List.count_append, z1 k, add_zero]; exact i1 k
              · simp only [tags, List.count_cons_self, List.count_append, z2, add_zero]
                have := Nat.le_max_left lt.height rt.height
                omega

end SegmentTree

namespace SegmentTree

/-- At most two nodes per depth are tagged `PARTIAL` by a query with ordered
bounds, and at most twice the height in all. -/
theorem query_partial_ordered (l r : Int) (hlr : l ≤ r) : ∀ t : SegmentTree, Shape t →
    (∀ k : Nat, ((t.resetVisuals.query W l r).2.tagsAtDepth k).count State.PARTIAL ≤ 2) ∧
      (t.resetVisuals.query W l r).2.tags.count State.PARTIAL ≤ 2 * t.height := by
  intro t
  induction t with
  | null => intro h; exact absurd h (by simp [Shape])
  | node le re v lt rt st ihl ihr =>
    intro h
    by_cases hd : (r < le ∨ re < l) ∨ (l ≤ le ∧ re ≤ r)
    · obtain ⟨z1, z2⟩ := @query_done_count W l r hlr (node le re v lt rt st) hd
      exact ⟨fun k => by rw [z1 k]; exact Nat.zero_le _, by rw [z2]; exact Nat.zero_le _⟩
    · have h1 : ¬ (r < le ∨ re < l) := fun hc => hd (Or.inl hc)
      have h2 : ¬ (l ≤ le ∧ re ≤ r) := fun hc => hd (Or.inr hc)
      rw [query_split l r hlr le re v lt rt st h1 h2]
      simp only [Shape] at h
      rcases h with ⟨he, _⟩ | ⟨hlt, sl, sr, a, b, c⟩
      · omega
      · rw [height_node _ _ _ _ _ _ sl.isNull_eq_false]
        have el := sl.ledge_le_redge
        have er := sr.ledge_le_redge
        have ml := Nat.le_max_left lt.height rt.height
        have mr := Nat.le_max_right lt.height rt.height
        by_cases hm : r ≤ lt.redge
        · obtain ⟨z1, z2⟩ := @query_done_count W l r hlr rt (Or.inl (Or.inl (by omega)))
          obtain ⟨i1, i2⟩ := ihl sl
          refine ⟨fun k => ?_, ?_⟩
          · cases k with
            | zero => simp [tagsAtDepth]
            | succ k => simp only [tagsAtDepth, List.count_append, z1 k, add_zero]; exact i1 k
          · simp only [tags, List.count_cons_self, List.count_append, z2, add_zero]
            omega
        · by_cases hm2 : lt.redge < l
          · obtain ⟨z1, z2⟩ := @query_done_count W l r hlr lt (Or.inl (Or.inr hm2))
            obtain ⟨i1, i2⟩ := ihr sr
            refine ⟨fun k => ?_, ?_⟩
            · cases k with
              | zero => simp [tagsAtDepth]
              | succ k => simp only [tagsAtDepth, List.count_append, z1 k, zero_add]; exact i1 k
            · simp only [tags, List.count_cons_self, List.count_append, z2, zero_add]
              omega
          · obtain ⟨i1, i2⟩ := @query_partial_one_sided W l r hlr lt sl (Or.inr (by omega))
            obtain ⟨j1, j2⟩ := @query_partial_one_sided W l r hlr rt sr (Or.inl (by omega))
            refine ⟨fun k => ?_, ?_⟩
            · cases k with
              | zero => simp [tagsAtDepth]
              | succ k =>
                simp only [tagsAtDepth, List.count_append]
                have := i1 k
                have := j1 k
                omega
            · simp only [tags, List.count_cons_self, List.count_append]
              omega

end SegmentTree

namespace SegmentTree

/-! ## The nodes a query tags `CONTAINED` -/

theorem resetVisuals_contained (t : SegmentTree) : t.resetVisuals.contained = [] := by
  induction t with
  | null => rfl
  | node le re v lt rt st ihl ihr => simp [resetVisuals, contained, ihl, ihr]

/-- The `CONTAINED` nodes of a query with ordered bounds lie inside the node and
inside the range, come in increasing order and cover the part of the range
inside the node. -/
theorem query_contained_ordered (l r : Int) (hlr : l ≤ r) : ∀ t : SegmentTree, Shape t →
    (∀ c ∈ (t.resetVisuals.query W l r).2.contained,
      t.ledge ≤ c.1 ∧ c.1 ≤ c.2.1 ∧ c.2.1 ≤ t.redge ∧ l ≤ c.1 ∧ c.2.1 ≤ r) ∧
    (t.resetVisuals.query W l r).2.contained.Pairwise (fun a b => a.2.1 < b.1) ∧
    (∀ i : Int, (∃ c ∈ (t.resetVisuals.query W l r).2.contained, c.1 ≤ i ∧ i ≤ c.2.1) ↔
      (l ≤ i ∧ i ≤ r ∧ t.ledge ≤ i ∧ i ≤ t.redge)) := by
  intro t
  induction t with
  | null => intro h; exact absurd h (by simp [Shape])
  | node le re v lt rt st ihl ihr =>
    intro h
    have hle := h.ledge_le_redge
    simp only [ledge_node, redge_node] at hle ⊢
    by_cases h1 : r < le ∨ re < l
    · have e : (node le re v lt rt st).resetVisuals.query W l r =
          (0, node le re v lt.resetVisuals rt.resetVisuals State.OUTSIDE) := by
        simp only [resetVisuals]
        rw [query_node _ _ _ _ _ _ _ _ hlr, if_pos h1]
      rw [e]
      simp only [contained, resetVisuals_contained]
      refine ⟨by simp, by simp, fun i => ?_⟩
      simp only [List.append_nil, reduceCtorEq, if_false, List.not_mem_nil, false_and,
        exists_false, false_iff]
      omega
    · by_cases h2 : l ≤ le ∧ re ≤ r
      · have e : (node le re v lt rt st).resetVisuals.query W l r =
            (v, node le re v lt.resetVisuals rt.resetVisuals State.CONTAINED) := by
          simp only [resetVisuals]
          rw [query_node _ _ _ _ _ _ _ _ hlr, if_neg h1, if_pos h2]
        rw [e]
        simp only [contained, resetVisuals_contained, if_true, List.append_nil]
        refine ⟨?_, by simp, fun i => ?_⟩
        · intro c hc
          simp only [List.mem_singleton] at hc
          subst hc
          simp only
          omega
        · simp only [List.mem_singleton, exists_eq_left]
          omega
      · have e2 := @query_split W l r hlr le re v lt rt st h1 h2
        rw [e2]
        simp only [Shape] at h
        rcases h with ⟨he, _⟩ | ⟨hlt, sl, sr, a, b, c⟩
        · omega
        · obtain ⟨a1, a2, a3⟩ := ihl sl
          obtain ⟨b1, b2, b3⟩ := ihr sr
          have el := sl.ledge_le_redge
          have er := sr.ledge_le_redge
          simp only [contained, reduceCtorEq, if_false, List.nil_append]
          refine ⟨?_, ?_, fun i => ?_⟩
          · intro x hx
            rcases List.mem_append.mp hx with hx | hx
            · have := a1 x hx; omega
            · have := b1 x hx; omega
          · rw [List.pairwise_append]
            refine ⟨a2, b2, ?_⟩
            intro x hx y hy
            have := a1 x hx
            have := b1 y hy
            omega
          · have i1 := a3 i
            have i2 := b3 i
            constructor
            · rintro ⟨x, hx, hxi⟩
              rcases List.mem_append.mp hx with hx | hx
              · have := i1.mp ⟨x, hx, hxi⟩; omega
              · have := i2.mp ⟨x, hx, hxi⟩; omega
            · intro hi
              by_cases hil : i ≤ lt.redge
              · obtain ⟨x, hx, hxi⟩ := i1.mpr (by omega)
                exact ⟨x, List.mem_append.mpr (Or.inl hx), hxi⟩
              · obtain ⟨x, hx, hxi⟩ := i2.mpr (by omega)
                exact ⟨x, List.mem_append.mpr (Or.inr hx), hxi⟩

theorem val_fits (t : SegmentTree) (h : Shape t) (hs : SumInv W t) (hf : LeavesFit W t) :
    W.norm t.val = t.val := by
  rw [val_eq_sum t h hs hf, W.norm_norm]

/-- The answer of a query with ordered bounds is the sum of the values of the
`CONTAINED` nodes, brought back into the type. -/
theorem query_contained_sum (l r : Int) (hlr : l ≤ r) : ∀ t : SegmentTree, Shape t →
    SumInv W t → LeavesFit W t →
    (t.resetVisuals.query W l r).1 =
      W.norm ((t.resetVisuals.query W l r).2.contained.map (fun c => c.2.2)).sum := by
  intro t
  induction t with
  | null => intro h; exact absurd h (by simp [Shape])
  | node le re v lt rt st ihl ihr =>
    intro h hs hf
    have hv := val_fits _ h hs hf
    simp only [val_node] at hv
    by_cases h1 : r < le ∨ re < l
    · have e : (node le re v lt rt st).resetVisuals.query W l r =
          (0, node le re v lt.resetVisuals rt.resetVisuals State.OUTSIDE) := by
        simp only [resetVisuals]
        rw [query_node _ _ _ _ _ _ _ _ hlr, if_pos h1]
      rw [e]
      simp only [contained, resetVisuals_contained, reduceCtorEq, if_false, List.append_nil,
        List.map_nil, List.sum_nil]
      exact W.norm_zero.symm
    · by_cases h2 : l ≤ le ∧ re ≤ r
      · have e : (node le re v lt rt st).resetVisuals.query W l r =
            (v, node le re v lt.resetVisuals rt.resetVisuals State.CONTAINED) := by
          simp only [resetVisuals]
          rw [query_node _ _ _ _ _ _ _ _ hlr, if_neg h1, if_pos h2]
        rw [e]
        simp only [contained, resetVisuals_contained, if_true, List.append_nil,
          List.map_cons, List.map_nil, List.sum_cons, List.sum_nil, add_zero]
        exact hv.symm
      · have e2 := @query_split W l r hlr le re v lt rt st h1 h2
        have e1 : ((node le re v lt rt st).resetVisuals.query W l r).1 =
            W.add (lt.resetVisuals.query W l r).1 (rt.resetVisuals.query W l r).1 := by
          simp only [resetVisuals]
          rw [query_node _ _ _ _ _ _ _ _ hlr, if_neg h1, if_neg h2]
        rw [e1, e2]
        simp only [Shape] at h
        rcases h with ⟨he, _⟩ | ⟨hlt, sl, sr, a, b, c⟩
        · have hle : le ≤ re := by omega
          omega
        · have hne : le ≠ re := by omega
          obtain ⟨fl, fr⟩ := leavesFit_node le re v lt rt st hne hf
          simp only [contained, reduceCtorEq, if_false, List.nil_append]
          rw [List.map_append, List.sum_append, ihl sl hs.2.1 fl, ihr sr hs.2.2 fr]
          exact W.add_norm_norm _ _

end SegmentTree

theorem SumInv.at_subtree (p : List Bool) :
    ∀ {t : SegmentTree}, SumInv W t → SumInv W (t.subtree p) := by
  induction p with
  | nil => intro t h; exact h
  | cons b p ih =>
    intro t h
    cases t with
    | null => cases b <;> exact ih h
    | node le re v lt rt st =>
      cases b
      · exact ih h.2.1
      · exact ih h.2.2

theorem SumInv.val_eq {s : SegmentTree} (h : SumInv W s) (hn : s.left.isNull = false) :
    s.val = W.add s.left.val s.right.val := by
  cases s with
  | null => exact absurd hn (by simp [SegmentTree.left, SegmentTree.isNull])
  | node le re v lt rt st =>
    rcases h.1 with h1 | h1
    · rw [SegmentTree.left] at hn
      rw [hn] at h1
      exact absurd h1.1 (by simp)
    · exact h1

/-! ## The contract of the tree -/

/-- C1: on the tree built from a non-empty array `A`, `query(l, r)` with
`0 ≤ l ≤ r ≤ n - 1` returns `A[l] + A[l+1] + ... + A[r]` when the values are
taken as unbounded integers (exact addition).  In the 32-bit arithmetic of
the program, on an array of `int`s, the answer is that sum wrapped to 32
bits, hence the sum itself whenever the sum is an `int`. -/
theorem query_build_sum (A : List Int) (l r : Nat) (hA : A ≠ []) (hlr : l ≤ r)
    (hr : r < A.length) :
    ((SegmentTree.ofArray Arith.unbounded A).query Arith.unbounded l r).1 =
      ∑ i ∈ Finset.Icc l r, A.getD i 0 ∧
    ((∀ x ∈ A, IsInt32 x) →
      ((SegmentTree.ofArray Arith.int32 A).query Arith.int32 l r).1 =
        wrap32 (∑ i ∈ Finset.Icc l r, A.getD i 0) ∧
      (IsInt32 (∑ i ∈ Finset.Icc l r, A.getD i 0) →
        ((SegmentTree.ofArray Arith.int32 A).query Arith.int32 l r).1 =
          ∑ i ∈ Finset.Icc l r, A.getD i 0)) := by
  constructor
  · have q := (@good_ofArray Arith.unbounded A hA).query_Icc
      (leavesFit_ofArray A hA (fun _ _ => rfl)) l r hlr hr
    rw [SegmentTree.ofArray_leaves A hA] at q
    exact q
  · intro h32
    have q := (@good_ofArray Arith.int32 A hA).query_Icc
      (leavesFit_ofArray A hA (fun x hx => (wrap32_eq_self_iff x).mpr (h32 x hx))) l r hlr hr
    rw [SegmentTree.ofArray_leaves A hA] at q
    refine ⟨q, fun hs => ?_⟩
    rw [q]
    exact (wrap32_eq_self_iff _).mpr hs

theorem query_build_sum_witness :
    (datos ≠ []) ∧
    ((2 : Nat) ≤ (5 : Nat)) ∧
    ((5 : Nat) < datos.length) ∧
    (((SegmentTree.ofArray Arith.unbounded datos).query Arith.unbounded (2 : Nat) (5 : Nat)).1 =
      ∑ i ∈ Finset.Icc (2 : Nat) (5 : Nat), datos.getD i 0 ∧
    ((∀ x ∈ datos, IsInt32 x) →
      ((SegmentTree.ofArray Arith.int32 datos).query Arith.int32 (2 : Nat) (5 : Nat)).1 =
        wrap32 (∑ i ∈ Finset.Icc (2 : Nat) (5 : Nat), datos.getD i 0) ∧
      (IsInt32 (∑ i ∈ Finset.Icc (2 : Nat) (5 : Nat), datos.getD i 0) →
        ((SegmentTree.ofArray Arith.int32 datos).query Arith.int32 (2 : Nat) (5 : Nat)).1 =
          ∑ i ∈ Finset.Icc (2 : Nat) (5 : Nat), datos.getD i 0))) :=
  ⟨by decide, by decide, by decide,
    query_build_sum datos (2 : Nat) (5 : Nat) (by decide) (by decide) (by decide)⟩

/-- C2, amended for the 32-bit arithmetic: on every tree reached from
`build(A)`, `A` a non-empty array of `int`s, by a sequence of calls with `int`
arguments (`update`, `updateRange`, and also `query` and `resetVisuals`),
`query(l, r)` with `0 ≤ l ≤ r ≤ n - 1` is the sum of the entries `l..r` of the
current `getLeaves()` wrapped to 32 bits, hence that sum itself whenever the
sum is an `int`; and on `A = [2,1,3,4,5,7,8,9]` the answers of `query(2, 5)`
are 19, then 25 after `update(3, 10)`, then 34 after `updateRange(1, 4, 3)`,
when the leaves are `[2,4,6,13,8,7,8,9]`. -/
theorem query_reflects_mutations :
    (∀ (A : List Int) (ops : List Op) (l r : Nat), A ≠ [] → (∀ x ∈ A, IsInt32 x) →
      (∀ op ∈ ops, op.ArgsInt32) → l ≤ r → r < A.length →
      ((runOps Arith.int32 (SegmentTree.ofArray Arith.int32 A) ops).query Arith.int32 l r).1 =
        wrap32 (∑ i ∈ Finset.Icc l r,
          ((runOps Arith.int32 (SegmentTree.ofArray Arith.int32 A) ops).getLeaves []).getD i 0) ∧
      (IsInt32 (∑ i ∈ Finset.Icc l r,
          ((runOps Arith.int32 (SegmentTree.ofArray Arith.int32 A) ops).getLeaves []).getD i 0) →
        ((runOps Arith.int32 (SegmentTree.ofArray Arith.int32 A) ops).query Arith.int32 l r).1 =
          ∑ i ∈ Finset.Icc l r,
            ((runOps Arith.int32 (SegmentTree.ofArray Arith.int32 A) ops).getLeaves []).getD
              i 0)) ∧
    ((SegmentTree.ofArray Arith.int32 datos).query Arith.int32 2 5).1 = 19 ∧
    ((runOps Arith.int32 (SegmentTree.ofArray Arith.int32 datos) [Op.update 3 10]).query
      Arith.int32 2 5).1 = 25 ∧
    ((runOps Arith.int32 (SegmentTree.ofArray Arith.int32 datos)
      [Op.update 3 10, Op.updateRange 1 4 3]).query Arith.int32 2 5).1 = 34 ∧
    (runOps Arith.int32 (SegmentTree.ofArray Arith.int32 datos)
      [Op.update 3 10, Op.updateRange 1 4 3]).getLeaves [] = [2, 4, 6, 13, 8, 7, 8, 9] := by
  refine ⟨?_, by decide, by decide, by decide, by decide⟩
  intro A ops l r hA h32 hops hlr hr
  have hf : LeavesFit Arith.int32 (runOps Arith.int32 (SegmentTree.ofArray Arith.int32 A) ops) :=
    leavesFit_reached A hA ops (fun x hx => (wrap32_eq_self_iff x).mpr (h32 x hx))
      (fun op ho => fits_of_argsInt32 (hops op ho))
  have q := (@good_reached Arith.int32 A hA ops).query_Icc hf l r hlr hr
  refine ⟨q, fun hs => ?_⟩
  rw [q]
  exact (wrap32_eq_self_iff _).mpr hs

theorem query_reflects_mutations_witness :
    datos ≠ [] ∧ (∀ x ∈ datos, IsInt32 x) ∧
    (∀ op ∈ [Op.update 3 10, Op.updateRange 1 4 3], op.ArgsInt32) ∧ 2 ≤ 5 ∧ 5 < datos.length ∧
    (((runOps Arith.int32 (SegmentTree.ofArray Arith.int32 datos)
        [Op.update 3 10, Op.updateRange 1 4 3]).query Arith.int32 (2 : Nat) (5 : Nat)).1 =
      wrap32 (∑ i ∈ Finset.Icc 2 5,
        ((runOps Arith.int32 (SegmentTree.ofArray Arith.int32 datos)
          [Op.update 3 10, Op.updateRange 1 4 3]).getLeaves []).getD i 0) ∧
    (IsInt32 (∑ i ∈ Finset.Icc 2 5,
        ((runOps Arith.int32 (SegmentTree.ofArray Arith.int32 datos)
          [Op.update 3 10, Op.updateRange 1 4 3]).getLeaves []).getD i 0) →
      ((runOps Arith.int32 (SegmentTree.ofArray Arith.int32 datos)
          [Op.update 3 10, Op.updateRange 1 4 3]).query Arith.int32 (2 : Nat) (5 : Nat)).1 =
        ∑ i ∈ Finset.Icc 2 5,
          ((runOps Arith.int32 (SegmentTree.ofArray Arith.int32 datos)
            [Op.update 3 10, Op.updateRange 1 4 3]).getLeaves []).getD i 0)) :=
  ⟨by decide, by decide, by decide, by decide, by decide,
    query_reflects_mutations.1 datos [Op.update 3 10, Op.updateRange 1 4 3] 2 5 (by decide)
      (by decide) (by decide) (by decide) (by decide)⟩

/-- C2 as stated fails: on the tree built from
`[-2000000000, 2000000000, 2000000000, -2000000000]` the entries 1..2 of
`getLeaves()` add up to 4000000000, and `query(1, 2)` returns -294967296. -/
theorem query_reflects_mutations_counterexample :
    ((SegmentTree.ofArray Arith.int32 [-2000000000, 2000000000, 2000000000, -2000000000]).query
      Arith.int32 1 2).1 = -294967296 ∧
    ((SegmentTree.ofArray Arith.int32 [-2000000000, 2000000000, 2000000000, -2000000000]).query
      Arith.int32 1 2).1 ≠
      ∑ i ∈ Finset.Icc 1 2,
        ((SegmentTree.ofArray Arith.int32
          [-2000000000, 2000000000, 2000000000, -2000000000]).getLeaves []).getD i 0 := by
  decide

/-- C3: on a tree reached from `build(A)`, `A` non-empty of length `n`, and for
`0 ≤ idx ≤ n - 1`, after `update(idx, v)` the sequence `getLeaves()` still has
length `n`, holds `v` at position `idx`, and is unchanged at every other position. -/
theorem update_leaves_frame (A : List Int) (ops : List Op) (idx v : Int) (hA : A ≠ [])
    (h0 : 0 ≤ idx) (h1 : idx ≤ (A.length : Int) - 1) :
    ((runOps Arith.int32 (SegmentTree.ofArray Arith.int32 A) ops).getLeaves []).length = A.length ∧
    (((runOps Arith.int32 (SegmentTree.ofArray Arith.int32 A) ops).update Arith.int32 idx
        v).getLeaves []).length = A.length ∧
    (((runOps Arith.int32 (SegmentTree.ofArray Arith.int32 A) ops).update Arith.int32 idx
        v).getLeaves [])[idx.toNat]? = some v ∧
    ∀ j : Nat, j ≠ idx.toNat →
      (((runOps Arith.int32 (SegmentTree.ofArray Arith.int32 A) ops).update Arith.int32 idx
          v).getLeaves [])[j]? =
        ((runOps Arith.int32 (SegmentTree.ofArray Arith.int32 A) ops).getLeaves [])[j]? := by
  have hg := @good_reached Arith.int32 A hA ops
  have hlen := hg.length_getLeaves
  have e := @SegmentTree.update_leaves Arith.int32 idx v _ hg.1 (by rw [hg.2.2.1]; exact h0)
    (by rw [hg.2.2.2]; exact h1)
  rw [hg.2.2.1, sub_zero] at e
  rw [e]
  refine ⟨hlen, by rw [List.length_set, hlen], ?_, ?_⟩
  · rw [List.getElem?_set]
    simp only [if_true]
    rw [if_pos (by omega)]
  · intro j hj
    exact List.getElem?_set_ne (Ne.symm hj)

theorem update_leaves_frame_witness :
    datos ≠ [] ∧ (0 : Int) ≤ 3 ∧ (3 : Int) ≤ (datos.length : Int) - 1 ∧
    ((runOps Arith.int32 (SegmentTree.ofArray Arith.int32 datos) []).getLeaves []).length =
        datos.length ∧
    (((runOps Arith.int32 (SegmentTree.ofArray Arith.int32 datos) []).update Arith.int32 3
        10).getLeaves []).length
      = datos.length ∧
    (((runOps Arith.int32 (SegmentTree.ofArray Arith.int32 datos) []).update Arith.int32 3
        10).getLeaves [])[(3 : Int).toNat]?
      = some 10 ∧
    ∀ j : Nat, j ≠ (3 : Int).toNat →
      (((runOps Arith.int32 (SegmentTree.ofArray Arith.int32 datos) []).update Arith.int32 3
          10).getLeaves [])[j]? =
        ((runOps Arith.int32 (SegmentTree.ofArray Arith.int32 datos) []).getLeaves [])[j]? :=
  ⟨by decide, by decide, by decide,
    update_leaves_frame datos [] 3 10 (by decide) (by decide) (by decide)⟩

/-- C4, amended for the 32-bit arithmetic: on a tree reached from `build(A)`,
`A` non-empty, and for all integers `l`, `r`, `d` (in either order, possibly
outside `[0, n - 1]`), after `updateRange(l, r, d)` every leaf whose index lies
in `[min l r, max l r]` holds its old value plus `d` wrapped to 32 bits, hence
exactly its old value plus `d` whenever that is an `int`, and every other leaf
is unchanged. -/
theorem updateRange_leaves_frame (A : List Int) (ops : List Op) (l r d : Int) (hA : A ≠ []) :
    (((runOps Arith.int32 (SegmentTree.ofArray Arith.int32 A) ops).updateRange
        Arith.int32 l r d).getLeaves []).length =
      ((runOps Arith.int32 (SegmentTree.ofArray Arith.int32 A) ops).getLeaves []).length ∧
    ∀ i : Nat,
      i < ((runOps Arith.int32 (SegmentTree.ofArray Arith.int32 A) ops).getLeaves []).length →
      (((runOps Arith.int32 (SegmentTree.ofArray Arith.int32 A) ops).updateRange
          Arith.int32 l r d).getLeaves []).getD i 0 =
        (if min l r ≤ (i : Int) ∧ (i : Int) ≤ max l r then
          wrap32 (((runOps Arith.int32 (SegmentTree.ofArray Arith.int32 A) ops).getLeaves
            []).getD i 0 + d)
        else
          ((runOps Arith.int32 (SegmentTree.ofArray Arith.int32 A) ops).getLeaves []).getD i 0) ∧
      (min l r ≤ (i : Int) ∧ (i : Int) ≤ max l r →
        IsInt32 (((runOps Arith.int32 (SegmentTree.ofArray Arith.int32 A) ops).getLeaves
          []).getD i 0 + d) →
        (((runOps Arith.int32 (SegmentTree.ofArray Arith.int32 A) ops).updateRange
            Arith.int32 l r d).getLeaves []).getD i 0 =
          ((runOps Arith.int32 (SegmentTree.ofArray Arith.int32 A) ops).getLeaves []).getD i 0
            + d) := by
  have hg := @good_reached Arith.int32 A hA ops
  rw [SegmentTree.updateRange_leaves l r d _ hg.1, hg.2.2.1]
  refine ⟨addWithin_length _ _ _ _ _, ?_⟩
  intro i hi
  have e : (addWithin Arith.int32
      ((runOps Arith.int32 (SegmentTree.ofArray Arith.int32 A) ops).getLeaves []) 0 (min l r)
        (max l r) d).getD i 0 =
      if min l r ≤ (i : Int) ∧ (i : Int) ≤ max l r then
        wrap32 (((runOps Arith.int32 (SegmentTree.ofArray Arith.int32 A) ops).getLeaves
          []).getD i 0 + d)
      else
        ((runOps Arith.int32 (SegmentTree.ofArray Arith.int32 A) ops).getLeaves []).getD i 0 := by
    rw [List.getD_eq_getElem?_getD, List.getD_eq_getElem?_getD, addWithin_getElem?,
      List.getElem?_eq_getElem hi]
    simp only [Option.map_some', Option.getD_some, zero_add]
    rfl
  refine ⟨e, fun hin hs => ?_⟩
  rw [e, if_pos hin]
  exact (wrap32_eq_self_iff _).mpr hs

theorem updateRange_leaves_frame_witness :
    (datos ≠ []) ∧
    ((((runOps Arith.int32 (SegmentTree.ofArray Arith.int32 datos) [Op.update 3 10]).updateRange
        Arith.int32 (4 : Int) (1 : Int) (3 : Int)).getLeaves []).length =
      ((runOps Arith.int32 (SegmentTree.ofArray Arith.int32 datos) [Op.update 3 10]).getLeaves
          []).length ∧
    ∀ i : Nat,
      i < ((runOps Arith.int32 (SegmentTree.ofArray Arith.int32 datos) [Op.update 3 10]).getLeaves
          []).length →
      (((runOps Arith.int32 (SegmentTree.ofArray Arith.int32 datos) [Op.update 3 10]).updateRange
          Arith.int32 (4 : Int) (1 : Int) (3 : Int)).getLeaves []).getD i 0 =
        (if min (4 : Int) (1 : Int) ≤ (i : Int) ∧ (i : Int) ≤ max (4 : Int) (1 : Int) then
          wrap32 (((runOps Arith.int32 (SegmentTree.ofArray Arith.int32 datos) [Op.update 3
              10]).getLeaves
            []).getD i 0 + (3 : Int))
        else
          ((runOps Arith.int32 (SegmentTree.ofArray Arith.int32 datos) [Op.update 3 10]).getLeaves
              []).getD i 0) ∧
      (min (4 : Int) (1 : Int) ≤ (i : Int) ∧ (i : Int) ≤ max (4 : Int) (1 : Int) →
        IsInt32 (((runOps Arith.int32 (SegmentTree.ofArray Arith.int32 datos) [Op.update 3
            10]).getLeaves
          []).getD i 0 + (3 : Int)) →
        (((runOps Arith.int32 (SegmentTree.ofArray Arith.int32 datos) [Op.update 3 10]).updateRange
            Arith.int32 (4 : Int) (1 : Int) (3 : Int)).getLeaves []).getD i 0 =
          ((runOps Arith.int32 (SegmentTree.ofArray Arith.int32 datos) [Op.update 3 10]).getLeaves
              []).getD i 0
            + (3 : Int))) :=
  ⟨by decide,
    updateRange_leaves_frame datos [Op.update 3 10] (4 : Int) (1 : Int) (3 : Int) (by decide)⟩

/-- C4 as stated fails: on the tree built from `[2147483647]`,
`updateRange(0, 0, 1)` leaves -2147483648 in leaf 0, not 2147483647 + 1. -/
theorem updateRange_leaves_frame_counterexample :
    (((SegmentTree.ofArray Arith.int32 [2147483647]).updateRange Arith.int32 0 0 1).getLeaves
      []).getD 0 0 = -2147483648 ∧
    (((SegmentTree.ofArray Arith.int32 [2147483647]).updateRange Arith.int32 0 0 1).getLeaves
      []).getD 0 0 ≠ ((SegmentTree.ofArray Arith.int32 [2147483647]).getLeaves []).getD 0 0 + 1 :=
          by
  decide

/-- C5: `getLeaves()` on the tree built from a non-empty array `A`, called with
an empty output vector, yields exactly `A`. -/
theorem getLeaves_build (A : List Int) (hA : A ≠ []) :
    (SegmentTree.ofArray Arith.int32 A).getLeaves [] = A :=
  SegmentTree.ofArray_leaves A hA

theorem getLeaves_build_witness :
    datos ≠ [] ∧ (SegmentTree.ofArray Arith.int32 datos).getLeaves [] = datos :=
  ⟨by decide, getLeaves_build datos (by decide)⟩

/-- C6: the constructor fails with the invalid-argument error exactly when the
array is empty; for the empty array it returns no tree, and for every non-empty
array it returns a tree, which is complete (well shaped, over `[0, n - 1]`) and
is what `build` makes with any larger amount of fuel. -/
theorem new_error_iff_empty (A : List Int) :
    (SegmentTree.new Arith.int32 A = Except.error BuildError.invalid_argument ↔ A = []) ∧
    (A = [] → ∀ t : SegmentTree, SegmentTree.new Arith.int32 A ≠ Except.ok t) ∧
    (A ≠ [] → ∃ t : SegmentTree, SegmentTree.new Arith.int32 A = Except.ok t ∧ Shape t ∧
      t.ledge = 0 ∧ t.redge = (A.length : Int) - 1 ∧
      ∀ fuel : Nat, A.length ≤ fuel →
        SegmentTree.build Arith.int32 fuel 0 ((A.length : Int) - 1) A = t) := by
  refine ⟨?_, ?_, ?_⟩
  · cases A with
    | nil => simp [SegmentTree.new]
    | cons a as => simp [SegmentTree.new]
  · intro h t
    subst h
    simp [SegmentTree.new]
  · intro hA
    have hg := @good_ofArray Arith.int32 A hA
    have hpos : 0 < A.length := List.length_pos.mpr hA
    refine ⟨SegmentTree.ofArray Arith.int32 A, ?_, hg.1, hg.2.2.1, hg.2.2.2, ?_⟩
    · cases A with
      | nil => exact absurd rfl hA
      | cons a as => simp [SegmentTree.new]
    · intro fuel hf
      exact SegmentTree.build_fuel A fuel A.length 0 ((A.length : Int) - 1) (le_refl 0)
        (by omega) (by omega) (by omega)

/-- C7, amended for the 32-bit arithmetic: in the tree built from a non-empty
array, in every tree reached from it, and after one more call of `update`,
`updateRange`, `query` or `resetVisuals` with any integer arguments, every
node with children holds the sum of the values of its two children wrapped to
32 bits, hence exactly that sum whenever the sum is an `int`. -/
theorem sumInv_reached (A : List Int) (ops : List Op) (hA : A ≠ []) :
    SumInv Arith.int32 (SegmentTree.ofArray Arith.int32 A) ∧
    SumInv Arith.int32 (runOps Arith.int32 (SegmentTree.ofArray Arith.int32 A) ops) ∧
    (∀ op : Op,
      SumInv Arith.int32 (op.run Arith.int32
        (runOps Arith.int32 (SegmentTree.ofArray Arith.int32 A) ops))) ∧
    ∀ (op : Op) (p : List Bool),
      (((op.run Arith.int32 (runOps Arith.int32 (SegmentTree.ofArray Arith.int32 A)
        ops)).subtree p).left.isNull = false →
      ((op.run Arith.int32 (runOps Arith.int32 (SegmentTree.ofArray Arith.int32 A)
          ops)).subtree p).val =
        wrap32 (((op.run Arith.int32 (runOps Arith.int32 (SegmentTree.ofArray Arith.int32 A)
            ops)).subtree p).left.val +
          ((op.run Arith.int32 (runOps Arith.int32 (SegmentTree.ofArray Arith.int32 A)
            ops)).subtree p).right.val) ∧
      (IsInt32 (((op.run Arith.int32 (runOps Arith.int32 (SegmentTree.ofArray Arith.int32 A)
            ops)).subtree p).left.val +
          ((op.run Arith.int32 (runOps Arith.int32 (SegmentTree.ofArray Arith.int32 A)
            ops)).subtree p).right.val) →
        ((op.run Arith.int32 (runOps Arith.int32 (SegmentTree.ofArray Arith.int32 A)
            ops)).subtree p).val =
          ((op.run Arith.int32 (runOps Arith.int32 (SegmentTree.ofArray Arith.int32 A)
              ops)).subtree p).left.val +
            ((op.run Arith.int32 (runOps Arith.int32 (SegmentTree.ofArray Arith.int32 A)
              ops)).subtree p).right.val)) := by
  have hg := @good_reached Arith.int32 A hA ops
  refine ⟨(@good_ofArray Arith.int32 A hA).2.1, hg.2.1, fun op => (good_run op hg).2.1, ?_⟩
  intro op p hn
  have hv := ((good_run op hg).2.1.at_subtree p).val_eq hn
  refine ⟨hv, fun hs => ?_⟩
  rw [hv]
  exact (wrap32_eq_self_iff _).mpr hs

theorem sumInv_reached_witness :
    (datos ≠ []) ∧
    (SumInv Arith.int32 (SegmentTree.ofArray Arith.int32 datos) ∧
    SumInv Arith.int32 (runOps Arith.int32 (SegmentTree.ofArray Arith.int32 datos) [Op.update 11 4,
        Op.updateRange 6 (-2) 5, Op.query 9 3, Op.resetVisuals]) ∧
    (∀ op : Op,
      SumInv Arith.int32 (op.run Arith.int32
        (runOps Arith.int32 (SegmentTree.ofArray Arith.int32 datos) [Op.update 11 4, Op.updateRange
            6 (-2) 5, Op.query 9 3, Op.resetVisuals]))) ∧
    ∀ (op : Op) (p : List Bool),
      (((op.run Arith.int32 (runOps Arith.int32 (SegmentTree.ofArray Arith.int32 datos)
        [Op.update 11 4, Op.updateRange 6 (-2) 5, Op.query 9 3, Op.resetVisuals])).subtree
            p).left.isNull = false →
      ((op.run Arith.int32 (runOps Arith.int32 (SegmentTree.ofArray Arith.int32 datos)
          [Op.update 11 4, Op.updateRange 6 (-2) 5, Op.query 9 3, Op.resetVisuals])).subtree p).val
              =
        wrap32 (((op.run Arith.int32 (runOps Arith.int32 (SegmentTree.ofArray Arith.int32 datos)
            [Op.update 11 4, Op.updateRange 6 (-2) 5, Op.query 9 3, Op.resetVisuals])).subtree
                p).left.val +
          ((op.run Arith.int32 (runOps Arith.int32 (SegmentTree.ofArray Arith.int32 datos)
            [Op.update 11 4, Op.updateRange 6 (-2) 5, Op.query 9 3, Op.resetVisuals])).subtree
                p).right.val) ∧
      (IsInt32 (((op.run Arith.int32 (runOps Arith.int32 (SegmentTree.ofArray Arith.int32 datos)
            [Op.update 11 4, Op.updateRange 6 (-2) 5, Op.query 9 3, Op.resetVisuals])).subtree
                p).left.val +
          ((op.run Arith.int32 (runOps Arith.int32 (SegmentTree.ofArray Arith.int32 datos)
            [Op.update 11 4, Op.updateRange 6 (-2) 5, Op.query 9 3, Op.resetVisuals])).subtree
                p).right.val) →
        ((op.run Arith.int32 (runOps Arith.int32 (SegmentTree.ofArray Arith.int32 datos)
            [Op.update 11 4, Op.updateRange 6 (-2) 5, Op.query 9 3, Op.resetVisuals])).subtree
                p).val =
          ((op.run Arith.int32 (runOps Arith.int32 (SegmentTree.ofArray Arith.int32 datos)
              [Op.update 11 4, Op.updateRange 6 (-2) 5, Op.query 9 3, Op.resetVisuals])).subtree
                  p).left.val +
            ((op.run Arith.int32 (runOps Arith.int32 (SegmentTree.ofArray Arith.int32 datos)
              [Op.update 11 4, Op.updateRange 6 (-2) 5, Op.query 9 3, Op.resetVisuals])).subtree
                  p).right.val))) :=
  ⟨by decide,
    sumInv_reached datos [Op.update 11 4, Op.updateRange 6 (-2) 5, Op.query 9 3, Op.resetVisuals]
        (by decide)⟩

/-- C7 as stated fails: in the tree built from `[2147483647, 1]` the root
holds -2147483648 while its children hold 2147483647 and 1. -/
theorem sumInv_reached_counterexample :
    (SegmentTree.ofArray Arith.int32 [2147483647, 1]).val = -2147483648 ∧
    (SegmentTree.ofArray Arith.int32 [2147483647, 1]).val ≠
      (SegmentTree.ofArray Arith.int32 [2147483647, 1]).left.val +
        (SegmentTree.ofArray Arith.int32 [2147483647, 1]).right.val := by
  decide

/-- C8, amended for the 32-bit arithmetic: on the tree built from a non-empty
array `A` of `int`s of length `n`, for all integers `l`, `r`, `query(l, r)`
returns the sum of `A[i]` over the indices `i` with `min l r ≤ i ≤ max l r` and
`0 ≤ i ≤ n - 1`, wrapped to 32 bits, hence that sum itself whenever the sum is
an `int`; it is 0 when the range does not meet `[0, n - 1]`. -/
theorem query_build_clamped (A : List Int) (l r : Int) (hA : A ≠ [])
    (hA32 : ∀ x ∈ A, IsInt32 x) :
    ((SegmentTree.ofArray Arith.int32 A).query Arith.int32 l r).1 =
      wrap32 (∑ i ∈ (Finset.range A.length).filter
        (fun i : Nat => min l r ≤ (i : Int) ∧ (i : Int) ≤ max l r), A.getD i 0) ∧
    (IsInt32 (∑ i ∈ (Finset.range A.length).filter
        (fun i : Nat => min l r ≤ (i : Int) ∧ (i : Int) ≤ max l r), A.getD i 0) →
      ((SegmentTree.ofArray Arith.int32 A).query Arith.int32 l r).1 =
        ∑ i ∈ (Finset.range A.length).filter
          (fun i : Nat => min l r ≤ (i : Int) ∧ (i : Int) ≤ max l r), A.getD i 0) ∧
    (max l r < 0 ∨ (A.length : Int) - 1 < min l r →
      ((SegmentTree.ofArray Arith.int32 A).query Arith.int32 l r).1 = 0) := by
  have hq := (@good_ofArray Arith.int32 A hA).query_eq
    (leavesFit_ofArray A hA (fun x hx => (wrap32_eq_self_iff x).mpr (hA32 x hx))) l r
  rw [SegmentTree.ofArray_leaves A hA] at hq
  refine ⟨hq, fun hs => ?_, fun h => ?_⟩
  · rw [hq]
    exact (wrap32_eq_self_iff _).mpr hs
  · rw [hq]
    have e : (∑ i ∈ (Finset.range A.length).filter
        (fun i : Nat => min l r ≤ (i : Int) ∧ (i : Int) ≤ max l r), A.getD i 0) = 0 := by
      apply Finset.sum_eq_zero
      intro i hi
      simp only [Finset.mem_filter, Finset.mem_range] at hi
      omega
    rw [e]
    rfl

theorem query_build_clamped_witness :
    (datos ≠ []) ∧
    (∀ x ∈ datos, IsInt32 x) ∧
    (((SegmentTree.ofArray Arith.int32 datos).query Arith.int32 (12 : Int) (-3 : Int)).1 =
      wrap32 (∑ i ∈ (Finset.range datos.length).filter
        (fun i : Nat => min (12 : Int) (-3 : Int) ≤ (i : Int) ∧ (i : Int) ≤ max (12 : Int) (-3 :
            Int)), datos.getD i 0) ∧
    (IsInt32 (∑ i ∈ (Finset.range datos.length).filter
        (fun i : Nat => min (12 : Int) (-3 : Int) ≤ (i : Int) ∧ (i : Int) ≤ max (12 : Int) (-3 :
            Int)), datos.getD i 0) →
      ((SegmentTree.ofArray Arith.int32 datos).query Arith.int32 (12 : Int) (-3 : Int)).1 =
        ∑ i ∈ (Finset.range datos.length).filter
          (fun i : Nat => min (12 : Int) (-3 : Int) ≤ (i : Int) ∧ (i : Int) ≤ max (12 : Int) (-3 :
              Int)), datos.getD i 0) ∧
    (max (12 : Int) (-3 : Int) < 0 ∨ (datos.length : Int) - 1 < min (12 : Int) (-3 : Int) →
      ((SegmentTree.ofArray Arith.int32 datos).query Arith.int32 (12 : Int) (-3 : Int)).1 = 0)) :=
  ⟨by decide, by decide,
    query_build_clamped datos (12 : Int) (-3 : Int) (by decide) (by decide)⟩

/-- C8 as stated fails: on the tree built from `[2000000000, 2000000000]`,
`query(-5, 9)` returns -294967296, and the entries add up to 4000000000. -/
theorem query_build_clamped_counterexample :
    ((SegmentTree.ofArray Arith.int32 [2000000000, 2000000000]).query Arith.int32 (-5) 9).1 =
      -294967296 ∧
    ((SegmentTree.ofArray Arith.int32 [2000000000, 2000000000]).query Arith.int32 (-5) 9).1 ≠
      ∑ i ∈ (Finset.range [(2000000000 : Int), 2000000000].length).filter
        (fun i : Nat => min (-5 : Int) 9 ≤ (i : Int) ∧ (i : Int) ≤ max (-5 : Int) 9),
        [(2000000000 : Int), 2000000000].getD i 0 := by
  decide

/-- C9: for every tree and all integers `l`, `r`, `query(l, r)` and
`query(r, l)` return the same value and leave the same tree, tags included. -/
theorem query_comm (t : SegmentTree) (l r : Int) : t.query Arith.int32 l r = t.query Arith.int32 r
    l := by
  rw [SegmentTree.query_swap t l r, SegmentTree.query_swap t r l, min_comm, max_comm]

/-- C10: on a tree reached from `build(A)`, `A` a non-empty array of `int`s, by
calls with `int` arguments, `updateRange(l, r, d)` followed by
`updateRange(l, r, -d)` restores `getLeaves()` and the value of every node. -/
theorem updateRange_undo_restores (A : List Int) (ops : List Op) (l r d : Int) (hA : A ≠ [])
    (hA32 : ∀ x ∈ A, IsInt32 x) (hops : ∀ op ∈ ops, op.ArgsInt32) :
    ((((runOps Arith.int32 (SegmentTree.ofArray Arith.int32 A) ops).updateRange
        Arith.int32 l r d).updateRange Arith.int32 l r (-d)).getLeaves [] =
      (runOps Arith.int32 (SegmentTree.ofArray Arith.int32 A) ops).getLeaves []) ∧
    ∀ p : List Bool,
      ((((runOps Arith.int32 (SegmentTree.ofArray Arith.int32 A) ops).updateRange
          Arith.int32 l r d).updateRange Arith.int32 l r (-d)).subtree p).val =
        ((runOps Arith.int32 (SegmentTree.ofArray Arith.int32 A) ops).subtree p).val := by
  have hg := @good_reached Arith.int32 A hA ops
  have hf : LeavesFit Arith.int32 (runOps Arith.int32 (SegmentTree.ofArray Arith.int32 A) ops) :=
    leavesFit_reached A hA ops (fun x hx => (wrap32_eq_self_iff x).mpr (hA32 x hx))
      (fun op ho => fits_of_argsInt32 (hops op ho))
  have h := SegmentTree.updateRange_undo l r d _ hg.2.1 hf
  exact ⟨SegmentTree.getLeaves_of_resetVisuals_eq h,
    SegmentTree.subtree_val_of_resetVisuals_eq h⟩

theorem updateRange_undo_restores_witness :
    datos ≠ [] ∧ (∀ x ∈ datos, IsInt32 x) ∧ (∀ op ∈ [Op.update 3 10], op.ArgsInt32) ∧
    ((((runOps Arith.int32 (SegmentTree.ofArray Arith.int32 datos)
        [Op.update 3 10]).updateRange Arith.int32 6 (-1) 4).updateRange Arith.int32
          6 (-1) (-4)).getLeaves [] =
      (runOps Arith.int32 (SegmentTree.ofArray Arith.int32 datos) [Op.update 3 10]).getLeaves
        []) ∧
    ∀ p : List Bool,
      ((((runOps Arith.int32 (SegmentTree.ofArray Arith.int32 datos)
          [Op.update 3 10]).updateRange Arith.int32 6 (-1) 4).updateRange Arith.int32
            6 (-1) (-4)).subtree p).val =
        ((runOps Arith.int32 (SegmentTree.ofArray Arith.int32 datos)
          [Op.update 3 10]).subtree p).val :=
  ⟨by decide, by decide, by decide,
    updateRange_undo_restores datos [Op.update 3 10] 6 (-1) 4 (by decide) (by decide)
      (by decide)⟩

/-- C11: on a tree reached from `build(A)`, `A` non-empty of length `n`, an
`update(idx, v)` with `idx < 0` or `idx > n - 1` changes no node value (so
`getLeaves()` and every `query` answer stay the same) and no tag but the
root one, which becomes `OUTSIDE`. -/
theorem update_out_of_bounds (A : List Int) (ops : List Op) (idx v : Int) (hA : A ≠ [])
    (h : idx < 0 ∨ idx > (A.length : Int) - 1) :
    (∀ p : List Bool,
      (((runOps Arith.int32 (SegmentTree.ofArray Arith.int32 A) ops).update Arith.int32 idx
          v).subtree p).val =
        ((runOps Arith.int32 (SegmentTree.ofArray Arith.int32 A) ops).subtree p).val) ∧
    ((runOps Arith.int32 (SegmentTree.ofArray Arith.int32 A) ops).update Arith.int32 idx
        v).getLeaves [] =
      (runOps Arith.int32 (SegmentTree.ofArray Arith.int32 A) ops).getLeaves [] ∧
    (∀ l r : Int, (((runOps Arith.int32 (SegmentTree.ofArray Arith.int32 A) ops).update Arith.int32
        idx v).query Arith.int32 l r).1 =
      ((runOps Arith.int32 (SegmentTree.ofArray Arith.int32 A) ops).query Arith.int32 l r).1) ∧
    ((runOps Arith.int32 (SegmentTree.ofArray Arith.int32 A) ops).update Arith.int32 idx v).state =
        some State.OUTSIDE ∧
    ∀ p : List Bool, p ≠ [] →
      (((runOps Arith.int32 (SegmentTree.ofArray Arith.int32 A) ops).update Arith.int32 idx
          v).subtree p).state =
        ((runOps Arith.int32 (SegmentTree.ofArray Arith.int32 A) ops).subtree p).state := by
  have hg := @good_reached Arith.int32 A hA ops
  obtain ⟨hr, hs, hp⟩ := SegmentTree.update_outside (runOps Arith.int32 (SegmentTree.ofArray
      Arith.int32 A) ops) idx v
    hg.1.isNull_eq_false (by rw [hg.2.2.1, hg.2.2.2]; exact h)
  exact ⟨SegmentTree.subtree_val_of_resetVisuals_eq hr,
    SegmentTree.getLeaves_of_resetVisuals_eq hr,
    SegmentTree.query_fst_of_resetVisuals_eq hr, hs, hp⟩

theorem update_out_of_bounds_witness :
    datos ≠ [] ∧ ((9 : Int) < 0 ∨ (9 : Int) > (datos.length : Int) - 1) ∧
    ((∀ p : List Bool,
      (((runOps Arith.int32 (SegmentTree.ofArray Arith.int32 datos) [Op.query 2 5]).update
          Arith.int32 9 4).subtree p).val =
        ((runOps Arith.int32 (SegmentTree.ofArray Arith.int32 datos) [Op.query 2 5]).subtree
            p).val) ∧
    ((runOps Arith.int32 (SegmentTree.ofArray Arith.int32 datos) [Op.query 2 5]).update Arith.int32
        9 4).getLeaves [] =
      (runOps Arith.int32 (SegmentTree.ofArray Arith.int32 datos) [Op.query 2 5]).getLeaves [] ∧
    (∀ l r : Int, (((runOps Arith.int32 (SegmentTree.ofArray Arith.int32 datos) [Op.query 2
        5]).update Arith.int32 9 4).query Arith.int32 l r).1 =
      ((runOps Arith.int32 (SegmentTree.ofArray Arith.int32 datos) [Op.query 2 5]).query
          Arith.int32 l r).1) ∧
    ((runOps Arith.int32 (SegmentTree.ofArray Arith.int32 datos) [Op.query 2 5]).update Arith.int32
        9 4).state
      = some State.OUTSIDE ∧
    ∀ p : List Bool, p ≠ [] →
      (((runOps Arith.int32 (SegmentTree.ofArray Arith.int32 datos) [Op.query 2 5]).update
          Arith.int32 9 4).subtree p).state =
        ((runOps Arith.int32 (SegmentTree.ofArray Arith.int32 datos) [Op.query 2 5]).subtree
            p).state) :=
  ⟨by decide, by decide,
    update_out_of_bounds datos [Op.query 2 5] 9 4 (by decide) (by decide)⟩

/-- C12, amended for the 32-bit arithmetic: on a tree reached from `build(A)`,
`A` non-empty of length `n`, and for `0 ≤ idx ≤ n - 1`, after `update(idx, v)`
every node whose interval holds `idx` (the nodes of the path from the root to
the leaf `idx`) has as value the sum of its children wrapped to 32 bits, hence
exactly that sum whenever the sum is an `int`, and tag `PARTIAL`, or value `v`
and tag `CONTAINED` when it is the leaf; every other node keeps its value and
its tag; and on a tree whose tags were reset the nodes that got a tag are
exactly those whose interval holds `idx`. -/
theorem update_path_frame (A : List Int) (ops : List Op) (idx v : Int) (p : List Bool)
    (hA : A ≠ []) (h0 : 0 ≤ idx) (h1 : idx ≤ (A.length : Int) - 1)
    (hn : ((runOps Arith.int32 (SegmentTree.ofArray Arith.int32 A) ops).subtree p).isNull = false) :
    ((((runOps Arith.int32 (SegmentTree.ofArray Arith.int32 A) ops).subtree p).ledge ≤ idx ∧
        idx ≤ ((runOps Arith.int32 (SegmentTree.ofArray Arith.int32 A) ops).subtree p).redge) →
      (((runOps Arith.int32 (SegmentTree.ofArray Arith.int32 A) ops).subtree p).ledge =
          ((runOps Arith.int32 (SegmentTree.ofArray Arith.int32 A) ops).subtree p).redge →
        (((runOps Arith.int32 (SegmentTree.ofArray Arith.int32 A) ops).update Arith.int32 idx
            v).subtree p).val = v ∧
        (((runOps Arith.int32 (SegmentTree.ofArray Arith.int32 A) ops).update Arith.int32 idx
            v).subtree p).state =
          some State.CONTAINED) ∧
      (((runOps Arith.int32 (SegmentTree.ofArray Arith.int32 A) ops).subtree p).ledge ≠
          ((runOps Arith.int32 (SegmentTree.ofArray Arith.int32 A) ops).subtree p).redge →
        (((runOps Arith.int32 (SegmentTree.ofArray Arith.int32 A) ops).update Arith.int32 idx
            v).subtree p).val =
          wrap32 ((((runOps Arith.int32 (SegmentTree.ofArray Arith.int32 A) ops).update Arith.int32
              idx v).subtree p).left.val +
            (((runOps Arith.int32 (SegmentTree.ofArray Arith.int32 A) ops).update Arith.int32 idx
                v).subtree p).right.val) ∧
        (IsInt32 ((((runOps Arith.int32 (SegmentTree.ofArray Arith.int32 A) ops).update Arith.int32
            idx v).subtree p).left.val +
            (((runOps Arith.int32 (SegmentTree.ofArray Arith.int32 A) ops).update Arith.int32 idx
                v).subtree p).right.val) →
          (((runOps Arith.int32 (SegmentTree.ofArray Arith.int32 A) ops).update Arith.int32 idx
              v).subtree p).val =
            (((runOps Arith.int32 (SegmentTree.ofArray Arith.int32 A) ops).update Arith.int32 idx
                v).subtree p).left.val +
              (((runOps Arith.int32 (SegmentTree.ofArray Arith.int32 A) ops).update Arith.int32 idx
                  v).subtree p).right.val) ∧
        (((runOps Arith.int32 (SegmentTree.ofArray Arith.int32 A) ops).update Arith.int32 idx
            v).subtree p).state =
          some State.PARTIAL)) ∧
    (¬ (((runOps Arith.int32 (SegmentTree.ofArray Arith.int32 A) ops).subtree p).ledge ≤ idx ∧
        idx ≤ ((runOps Arith.int32 (SegmentTree.ofArray Arith.int32 A) ops).subtree p).redge) →
      (((runOps Arith.int32 (SegmentTree.ofArray Arith.int32 A) ops).update Arith.int32 idx
          v).subtree p).val =
        ((runOps Arith.int32 (SegmentTree.ofArray Arith.int32 A) ops).subtree p).val ∧
      (((runOps Arith.int32 (SegmentTree.ofArray Arith.int32 A) ops).update Arith.int32 idx
          v).subtree p).state =
        ((runOps Arith.int32 (SegmentTree.ofArray Arith.int32 A) ops).subtree p).state) ∧
    ((((runOps Arith.int32 (SegmentTree.ofArray Arith.int32 A) ops).resetVisuals.update Arith.int32
        idx v).subtree p).state ≠
        some State.DEFAULT ↔
      (((runOps Arith.int32 (SegmentTree.ofArray Arith.int32 A) ops).subtree p).ledge ≤ idx ∧
        idx ≤ ((runOps Arith.int32 (SegmentTree.ofArray Arith.int32 A) ops).subtree p).redge)) := by
  have hg := @good_reached Arith.int32 A hA ops
  generalize runOps Arith.int32 (SegmentTree.ofArray Arith.int32 A) ops = t at hn hg ⊢
  obtain ⟨f1, f2⟩ := @SegmentTree.update_frame Arith.int32 idx v t hg.1 (by rw [hg.2.2.1]; exact h0)
    (by rw [hg.2.2.2]; exact h1) p hn
  refine ⟨fun hc => ⟨(f1 hc).1, fun hl => ⟨((f1 hc).2 hl).1, fun hs => ?_, ((f1 hc).2 hl).2⟩⟩,
    fun hc => by rw [f2 hc]; exact ⟨rfl, rfl⟩, ?_⟩
  · rw [((f1 hc).2 hl).1]
    exact (wrap32_eq_self_iff _).mpr hs
  have hn2 : (t.resetVisuals.subtree p).isNull = false := by
    rw [SegmentTree.resetVisuals_subtree, SegmentTree.resetVisuals_isNull]; exact hn
  obtain ⟨g1, g2⟩ := @SegmentTree.update_frame Arith.int32 idx v t.resetVisuals
    ((SegmentTree.resetVisuals_shape t).mpr hg.1)
    (by rw [SegmentTree.resetVisuals_ledge, hg.2.2.1]; exact h0)
    (by rw [SegmentTree.resetVisuals_redge, hg.2.2.2]; exact h1) p hn2
  rw [SegmentTree.resetVisuals_subtree, SegmentTree.resetVisuals_ledge,
    SegmentTree.resetVisuals_redge] at g1 g2
  constructor
  · intro hs
    by_contra hc
    rw [g2 hc, SegmentTree.resetVisuals_state] at hs
    cases hst : t.subtree p with
    | null => rw [hst] at hn; exact absurd hn (by simp [SegmentTree.isNull])
    | node le re w lt rt st => rw [hst] at hs; exact hs rfl
  · intro hc
    by_cases hl : (t.subtree p).ledge = (t.subtree p).redge
    · rw [((g1 hc).1 hl).2]; simp
    · rw [((g1 hc).2 hl).2]; simp

theorem update_path_frame_witness :
    (datos ≠ []) ∧
    (0 ≤ (3 : Int)) ∧
    ((3 : Int) ≤ (datos.length : Int) - 1) ∧
    (((runOps Arith.int32 (SegmentTree.ofArray Arith.int32 datos) ([] : List Op)).subtree [false,
        true]).isNull = false) ∧
    (((((runOps Arith.int32 (SegmentTree.ofArray Arith.int32 datos) ([] : List Op)).subtree [false,
        true]).ledge ≤ (3 : Int) ∧
        (3 : Int) ≤ ((runOps Arith.int32 (SegmentTree.ofArray Arith.int32 datos) ([] : List
            Op)).subtree [false, true]).redge) →
      (((runOps Arith.int32 (SegmentTree.ofArray Arith.int32 datos) ([] : List Op)).subtree [false,
          true]).ledge =
          ((runOps Arith.int32 (SegmentTree.ofArray Arith.int32 datos) ([] : List Op)).subtree
              [false, true]).redge →
        (((runOps Arith.int32 (SegmentTree.ofArray Arith.int32 datos) ([] : List Op)).update
            Arith.int32 (3 : Int)
            (10 : Int)).subtree [false, true]).val = (10 : Int) ∧
        (((runOps Arith.int32 (SegmentTree.ofArray Arith.int32 datos) ([] : List Op)).update
            Arith.int32 (3 : Int)
            (10 : Int)).subtree [false, true]).state =
          some State.CONTAINED) ∧
      (((runOps Arith.int32 (SegmentTree.ofArray Arith.int32 datos) ([] : List Op)).subtree [false,
          true]).ledge ≠
          ((runOps Arith.int32 (SegmentTree.ofArray Arith.int32 datos) ([] : List Op)).subtree
              [false, true]).redge →
        (((runOps Arith.int32 (SegmentTree.ofArray Arith.int32 datos) ([] : List Op)).update
            Arith.int32 (3 : Int)
            (10 : Int)).subtree [false, true]).val =
          wrap32 ((((runOps Arith.int32 (SegmentTree.ofArray Arith.int32 datos) ([] : List
              Op)).update Arith.int32
              (3 : Int) (10 : Int)).subtree [false, true]).left.val +
            (((runOps Arith.int32 (SegmentTree.ofArray Arith.int32 datos) ([] : List Op)).update
                Arith.int32 (3 : Int)
                (10 : Int)).subtree [false, true]).right.val) ∧
        (IsInt32 ((((runOps Arith.int32 (SegmentTree.ofArray Arith.int32 datos) ([] : List
            Op)).update Arith.int32
            (3 : Int) (10 : Int)).subtree [false, true]).left.val +
            (((runOps Arith.int32 (SegmentTree.ofArray Arith.int32 datos) ([] : List Op)).update
                Arith.int32 (3 : Int)
                (10 : Int)).subtree [false, true]).right.val) →
          (((runOps Arith.int32 (SegmentTree.ofArray Arith.int32 datos) ([] : List Op)).update
              Arith.int32 (3 : Int)
              (10 : Int)).subtree [false, true]).val =
            (((runOps Arith.int32 (SegmentTree.ofArray Arith.int32 datos) ([] : List Op)).update
                Arith.int32 (3 : Int)
                (10 : Int)).subtree [false, true]).left.val +
              (((runOps Arith.int32 (SegmentTree.ofArray Arith.int32 datos) ([] : List Op)).update
                  Arith.int32 (3 : Int)
                  (10 : Int)).subtree [false, true]).right.val) ∧
        (((runOps Arith.int32 (SegmentTree.ofArray Arith.int32 datos) ([] : List Op)).update
            Arith.int32 (3 : Int)
            (10 : Int)).subtree [false, true]).state =
          some State.PARTIAL)) ∧
    (¬ (((runOps Arith.int32 (SegmentTree.ofArray Arith.int32 datos) ([] : List Op)).subtree
        [false, true]).ledge ≤ (3 : Int) ∧
        (3 : Int) ≤ ((runOps Arith.int32 (SegmentTree.ofArray Arith.int32 datos) ([] : List
            Op)).subtree [false, true]).redge) →
      (((runOps Arith.int32 (SegmentTree.ofArray Arith.int32 datos) ([] : List Op)).update
          Arith.int32 (3 : Int)
          (10 : Int)).subtree [false, true]).val =
        ((runOps Arith.int32 (SegmentTree.ofArray Arith.int32 datos) ([] : List Op)).subtree
            [false, true]).val ∧
      (((runOps Arith.int32 (SegmentTree.ofArray Arith.int32 datos) ([] : List Op)).update
          Arith.int32 (3 : Int)
          (10 : Int)).subtree [false, true]).state =
        ((runOps Arith.int32 (SegmentTree.ofArray Arith.int32 datos) ([] : List Op)).subtree
            [false, true]).state) ∧
    ((((runOps Arith.int32 (SegmentTree.ofArray Arith.int32 datos) ([] : List
        Op)).resetVisuals.update Arith.int32
        (3 : Int) (10 : Int)).subtree [false, true]).state ≠
        some State.DEFAULT ↔
      (((runOps Arith.int32 (SegmentTree.ofArray Arith.int32 datos) ([] : List Op)).subtree [false,
          true]).ledge ≤ (3 : Int) ∧
        (3 : Int) ≤ ((runOps Arith.int32 (SegmentTree.ofArray Arith.int32 datos) ([] : List
            Op)).subtree [false, true]).redge))) :=
  ⟨by decide, by decide, by decide, by decide,
    update_path_frame datos ([] : List Op) (3 : Int) (10 : Int) [false, true] (by decide) (by
        decide) (by decide) (by decide)⟩

/-- C12 as stated fails: on the tree built from `[0, 1]`, after
`update(0, 2147483647)` the root, which is on the path, holds -2147483648
while its children hold 2147483647 and 1. -/
theorem update_path_frame_counterexample :
    ((SegmentTree.ofArray Arith.int32 [0, 1]).update Arith.int32 0 2147483647).val =
      -2147483648 ∧
    ((SegmentTree.ofArray Arith.int32 [0, 1]).update Arith.int32 0 2147483647).val ≠
      ((SegmentTree.ofArray Arith.int32 [0, 1]).update Arith.int32 0 2147483647).left.val +
        ((SegmentTree.ofArray Arith.int32 [0, 1]).update Arith.int32 0 2147483647).right.val := by
  decide

/-- C13: for every tree and all integers `l`, `r`, `query(l, r)` changes no
node value, interval or child link, so `getLeaves()` is the same before and
after, and any number of consecutive `query(l, r)` calls return the same
answer. -/
theorem query_read_only (t : SegmentTree) (l r : Int) :
    (∀ p : List Bool,
      ((t.query Arith.int32 l r).2.subtree p).val = (t.subtree p).val ∧
      ((t.query Arith.int32 l r).2.subtree p).ledge = (t.subtree p).ledge ∧
      ((t.query Arith.int32 l r).2.subtree p).redge = (t.subtree p).redge ∧
      ((t.query Arith.int32 l r).2.subtree p).isNull = (t.subtree p).isNull) ∧
    (t.query Arith.int32 l r).2.getLeaves [] = t.getLeaves [] ∧
    ∀ k : Nat,
      (((fun s : SegmentTree => (s.query Arith.int32 l r).2)^[k] t).query Arith.int32 l r).1 =
          (t.query Arith.int32 l r).1 ∧
      ((fun s : SegmentTree => (s.query Arith.int32 l r).2)^[k] t).getLeaves [] = t.getLeaves [] :=
          by
  have h := @SegmentTree.resetVisuals_query Arith.int32 t l r
  refine ⟨fun p => ⟨SegmentTree.subtree_val_of_resetVisuals_eq h p,
    SegmentTree.subtree_ledge_of_resetVisuals_eq h p,
    SegmentTree.subtree_redge_of_resetVisuals_eq h p,
    SegmentTree.subtree_isNull_of_resetVisuals_eq h p⟩,
    SegmentTree.getLeaves_of_resetVisuals_eq h, ?_⟩
  intro k
  have hk := @SegmentTree.iterate_query_resetVisuals Arith.int32 l r k t
  exact ⟨SegmentTree.query_fst_of_resetVisuals_eq hk l r,
    SegmentTree.getLeaves_of_resetVisuals_eq hk⟩

/-- C14: for every tree, after `resetVisuals()` every node has tag `DEFAULT`
and the value, interval and child links of every node are unchanged, so
`getLeaves()` and every `query` answer are unchanged. -/
theorem resetVisuals_frame (t : SegmentTree) :
    (∀ p : List Bool,
      (t.resetVisuals.subtree p).isNull = (t.subtree p).isNull ∧
      ((t.subtree p).isNull = false → (t.resetVisuals.subtree p).state = some State.DEFAULT) ∧
      (t.resetVisuals.subtree p).val = (t.subtree p).val ∧
      (t.resetVisuals.subtree p).ledge = (t.subtree p).ledge ∧
      (t.resetVisuals.subtree p).redge = (t.subtree p).redge) ∧
    t.resetVisuals.getLeaves [] = t.getLeaves [] ∧
    ∀ l r : Int, (t.resetVisuals.query Arith.int32 l r).1 = (t.query Arith.int32 l r).1 := by
  refine ⟨fun p => ?_, SegmentTree.resetVisuals_getLeaves t [],
    SegmentTree.query_fst_resetVisuals t⟩
  rw [SegmentTree.resetVisuals_subtree]
  refine ⟨SegmentTree.resetVisuals_isNull _, ?_, SegmentTree.resetVisuals_val _,
    SegmentTree.resetVisuals_ledge _, SegmentTree.resetVisuals_redge _⟩
  intro hn
  cases hs : t.subtree p with
  | null => rw [hs] at hn; exact absurd hn (by simp [SegmentTree.isNull])
  | node le re v lt rt st => rfl

/-- C15: for a tree reached from `build(A)` by any sequence of calls, and any
call `op`, the tag of every node after `resetVisuals()` followed by `op` is
the tag of the node at the same place after `op` on the freshly built tree. -/
theorem tags_history_free (A : List Int) (ops : List Op) (op : Op) (_ : A ≠ [])
    (p : List Bool) :
    ((op.run Arith.int32 (runOps Arith.int32 (SegmentTree.ofArray Arith.int32 A)
        ops).resetVisuals).subtree p).state =
      ((op.run Arith.int32 (SegmentTree.ofArray Arith.int32 A)).subtree p).state := by
  apply SegmentTree.subtree_state_of_eraseVal_eq
  apply eraseVal_run_congr
  rw [SegmentTree.eraseVal_resetVisuals, skeleton_runOps, ← SegmentTree.eraseVal_resetVisuals,
    SegmentTree.ofArray, SegmentTree.resetVisuals_build]

theorem tags_history_free_witness :
    datos ≠ [] ∧
    (((Op.query 2 5).run Arith.int32 (runOps Arith.int32 (SegmentTree.ofArray Arith.int32 datos)
      [Op.update 3 10, Op.updateRange 1 4 3]).resetVisuals).subtree [false, true]).state =
      (((Op.query 2 5).run Arith.int32 (SegmentTree.ofArray Arith.int32 datos)).subtree [false,
          true]).state :=
  ⟨by decide, tags_history_free datos [Op.update 3 10, Op.updateRange 1 4 3] (Op.query 2 5)
    (by decide) [false, true]⟩

/-- C16: in the tree built from a non-empty array of length `n`, and in every
tree reached from it, the root interval is `[0, n - 1]`; every node has
`ledge ≤ redge`; a node has no children iff `ledge = redge`, and otherwise has
two children with intervals `[ledge, mid]` and `[mid + 1, redge]`,
`mid = (ledge + redge) / 2`; and no call of `query`, `update`, `updateRange`
or `resetVisuals` changes the interval of a node or which nodes exist. -/
theorem shape_invariant (A : List Int) (ops : List Op) (hA : A ≠ []) :
    (runOps Arith.int32 (SegmentTree.ofArray Arith.int32 A) ops).ledge = 0 ∧
    (runOps Arith.int32 (SegmentTree.ofArray Arith.int32 A) ops).redge = (A.length : Int) - 1 ∧
    (∀ p : List Bool, ((runOps Arith.int32 (SegmentTree.ofArray Arith.int32 A) ops).subtree
        p).isNull = false →
      ((runOps Arith.int32 (SegmentTree.ofArray Arith.int32 A) ops).subtree p).ledge ≤
        ((runOps Arith.int32 (SegmentTree.ofArray Arith.int32 A) ops).subtree p).redge ∧
      ((((runOps Arith.int32 (SegmentTree.ofArray Arith.int32 A) ops).subtree p).left.isNull = true
          ∧
        ((runOps Arith.int32 (SegmentTree.ofArray Arith.int32 A) ops).subtree p).right.isNull =
            true) ↔
        ((runOps Arith.int32 (SegmentTree.ofArray Arith.int32 A) ops).subtree p).ledge =
          ((runOps Arith.int32 (SegmentTree.ofArray Arith.int32 A) ops).subtree p).redge) ∧
      (((runOps Arith.int32 (SegmentTree.ofArray Arith.int32 A) ops).subtree p).ledge ≠
          ((runOps Arith.int32 (SegmentTree.ofArray Arith.int32 A) ops).subtree p).redge →
        ((runOps Arith.int32 (SegmentTree.ofArray Arith.int32 A) ops).subtree p).left.isNull =
            false ∧
        ((runOps Arith.int32 (SegmentTree.ofArray Arith.int32 A) ops).subtree p).right.isNull =
            false ∧
        ((runOps Arith.int32 (SegmentTree.ofArray Arith.int32 A) ops).subtree p).left.ledge =
          ((runOps Arith.int32 (SegmentTree.ofArray Arith.int32 A) ops).subtree p).ledge ∧
        ((runOps Arith.int32 (SegmentTree.ofArray Arith.int32 A) ops).subtree p).left.redge =
          (((runOps Arith.int32 (SegmentTree.ofArray Arith.int32 A) ops).subtree p).ledge +
            ((runOps Arith.int32 (SegmentTree.ofArray Arith.int32 A) ops).subtree p).redge) / 2 ∧
        ((runOps Arith.int32 (SegmentTree.ofArray Arith.int32 A) ops).subtree p).right.ledge =
          (((runOps Arith.int32 (SegmentTree.ofArray Arith.int32 A) ops).subtree p).ledge +
            ((runOps Arith.int32 (SegmentTree.ofArray Arith.int32 A) ops).subtree p).redge) / 2 + 1
                ∧
        ((runOps Arith.int32 (SegmentTree.ofArray Arith.int32 A) ops).subtree p).right.redge =
          ((runOps Arith.int32 (SegmentTree.ofArray Arith.int32 A) ops).subtree p).redge)) ∧
    ∀ (op : Op) (p : List Bool),
      ((op.run Arith.int32 (runOps Arith.int32 (SegmentTree.ofArray Arith.int32 A) ops)).subtree
          p).ledge =
        ((runOps Arith.int32 (SegmentTree.ofArray Arith.int32 A) ops).subtree p).ledge ∧
      ((op.run Arith.int32 (runOps Arith.int32 (SegmentTree.ofArray Arith.int32 A) ops)).subtree
          p).redge =
        ((runOps Arith.int32 (SegmentTree.ofArray Arith.int32 A) ops).subtree p).redge ∧
      ((op.run Arith.int32 (runOps Arith.int32 (SegmentTree.ofArray Arith.int32 A) ops)).subtree
          p).isNull =
        ((runOps Arith.int32 (SegmentTree.ofArray Arith.int32 A) ops).subtree p).isNull := by
  have hg := @good_reached Arith.int32 A hA ops
  have hm := @midShape_reached Arith.int32 A hA ops
  exact ⟨hg.2.2.1, hg.2.2.2, fun p hn => (hm.at_path p hn).local,
    fun op p => subtree_fields_of_skeleton_eq (skeleton_run op _) p⟩

theorem shape_invariant_witness :
    (datos ≠ []) ∧
    ((runOps Arith.int32 (SegmentTree.ofArray Arith.int32 datos) [Op.updateRange 1 4 3]).ledge = 0 ∧
    (runOps Arith.int32 (SegmentTree.ofArray Arith.int32 datos) [Op.updateRange 1 4 3]).redge =
        (datos.length : Int) - 1 ∧
    (∀ p : List Bool, ((runOps Arith.int32 (SegmentTree.ofArray Arith.int32 datos) [Op.updateRange
        1 4 3]).subtree
        p).isNull = false →
      ((runOps Arith.int32 (SegmentTree.ofArray Arith.int32 datos) [Op.updateRange 1 4 3]).subtree
          p).ledge ≤
        ((runOps Arith.int32 (SegmentTree.ofArray Arith.int32 datos) [Op.updateRange 1 4
            3]).subtree p).redge ∧
      ((((runOps Arith.int32 (SegmentTree.ofArray Arith.int32 datos) [Op.updateRange 1 4
          3]).subtree p).left.isNull = true
          ∧
        ((runOps Arith.int32 (SegmentTree.ofArray Arith.int32 datos) [Op.updateRange 1 4
            3]).subtree p).right.isNull =
            true) ↔
        ((runOps Arith.int32 (SegmentTree.ofArray Arith.int32 datos) [Op.updateRange 1 4
            3]).subtree p).ledge =
          ((runOps Arith.int32 (SegmentTree.ofArray Arith.int32 datos) [Op.updateRange 1 4
              3]).subtree p).redge) ∧
      (((runOps Arith.int32 (SegmentTree.ofArray Arith.int32 datos) [Op.updateRange 1 4 3]).subtree
          p).ledge ≠
          ((runOps Arith.int32 (SegmentTree.ofArray Arith.int32 datos) [Op.updateRange 1 4
              3]).subtree p).redge →
        ((runOps Arith.int32 (SegmentTree.ofArray Arith.int32 datos) [Op.updateRange 1 4
            3]).subtree p).left.isNull =
            false ∧
        ((runOps Arith.int32 (SegmentTree.ofArray Arith.int32 datos) [Op.updateRange 1 4
            3]).subtree p).right.isNull =
            false ∧
        ((runOps Arith.int32 (SegmentTree.ofArray Arith.int32 datos) [Op.updateRange 1 4
            3]).subtree p).left.ledge =
          ((runOps Arith.int32 (SegmentTree.ofArray Arith.int32 datos) [Op.updateRange 1 4
              3]).subtree p).ledge ∧
        ((runOps Arith.int32 (SegmentTree.ofArray Arith.int32 datos) [Op.updateRange 1 4
            3]).subtree p).left.redge =
          (((runOps Arith.int32 (SegmentTree.ofArray Arith.int32 datos) [Op.updateRange 1 4
              3]).subtree p).ledge +
            ((runOps Arith.int32 (SegmentTree.ofArray Arith.int32 datos) [Op.updateRange 1 4
                3]).subtree p).redge) / 2 ∧
        ((runOps Arith.int32 (SegmentTree.ofArray Arith.int32 datos) [Op.updateRange 1 4
            3]).subtree p).right.ledge =
          (((runOps Arith.int32 (SegmentTree.ofArray Arith.int32 datos) [Op.updateRange 1 4
              3]).subtree p).ledge +
            ((runOps Arith.int32 (SegmentTree.ofArray Arith.int32 datos) [Op.updateRange 1 4
                3]).subtree p).redge) / 2 + 1
                ∧
        ((runOps Arith.int32 (SegmentTree.ofArray Arith.int32 datos) [Op.updateRange 1 4
            3]).subtree p).right.redge =
          ((runOps Arith.int32 (SegmentTree.ofArray Arith.int32 datos) [Op.updateRange 1 4
              3]).subtree p).redge)) ∧
    ∀ (op : Op) (p : List Bool),
      ((op.run Arith.int32 (runOps Arith.int32 (SegmentTree.ofArray Arith.int32 datos)
          [Op.updateRange 1 4 3])).subtree
          p).ledge =
        ((runOps Arith.int32 (SegmentTree.ofArray Arith.int32 datos) [Op.updateRange 1 4
            3]).subtree p).ledge ∧
      ((op.run Arith.int32 (runOps Arith.int32 (SegmentTree.ofArray Arith.int32 datos)
          [Op.updateRange 1 4 3])).subtree
          p).redge =
        ((runOps Arith.int32 (SegmentTree.ofArray Arith.int32 datos) [Op.updateRange 1 4
            3]).subtree p).redge ∧
      ((op.run Arith.int32 (runOps Arith.int32 (SegmentTree.ofArray Arith.int32 datos)
          [Op.updateRange 1 4 3])).subtree
          p).isNull =
        ((runOps Arith.int32 (SegmentTree.ofArray Arith.int32 datos) [Op.updateRange 1 4
            3]).subtree p).isNull) :=
  ⟨by decide,
    shape_invariant datos [Op.updateRange 1 4 3] (by decide)⟩

/-- C17, amended for the root: on a tree reached from `build(A)`, `A`
non-empty, after `resetVisuals()` then `updateRange(l, r, d)` every node that is
not a leaf and whose interval meets `[min l r, max l r]` is tagged `PARTIAL`;
the nodes tagged `CONTAINED` are exactly the leaves whose index lies in the
range; and a node is tagged `OUTSIDE` iff its interval is disjoint from the
range and it is the root or the interval of its parent is not disjoint. -/
theorem updateRange_tagging (A : List Int) (ops : List Op) (l r d : Int) (p : List Bool)
    (hA : A ≠ []) (hn : ((runOps Arith.int32 (SegmentTree.ofArray Arith.int32 A) ops).subtree
        p).isNull = false) :
    (((runOps Arith.int32 (SegmentTree.ofArray Arith.int32 A) ops).subtree p).ledge ≠
        ((runOps Arith.int32 (SegmentTree.ofArray Arith.int32 A) ops).subtree p).redge →
      ¬ (max l r < ((runOps Arith.int32 (SegmentTree.ofArray Arith.int32 A) ops).subtree p).ledge ∨
        ((runOps Arith.int32 (SegmentTree.ofArray Arith.int32 A) ops).subtree p).redge < min l r) →
      (((runOps Arith.int32 (SegmentTree.ofArray Arith.int32 A) ops).resetVisuals.updateRange
          Arith.int32 l r d).subtree p).state =
        some State.PARTIAL) ∧
    ((((runOps Arith.int32 (SegmentTree.ofArray Arith.int32 A) ops).resetVisuals.updateRange
        Arith.int32 l r d).subtree p).state =
        some State.CONTAINED ↔
      (((runOps Arith.int32 (SegmentTree.ofArray Arith.int32 A) ops).subtree p).ledge =
          ((runOps Arith.int32 (SegmentTree.ofArray Arith.int32 A) ops).subtree p).redge ∧
        min l r ≤ ((runOps Arith.int32 (SegmentTree.ofArray Arith.int32 A) ops).subtree p).ledge ∧
        ((runOps Arith.int32 (SegmentTree.ofArray Arith.int32 A) ops).subtree p).ledge ≤ max l r)) ∧
    ((((runOps Arith.int32 (SegmentTree.ofArray Arith.int32 A) ops).resetVisuals.updateRange
        Arith.int32 l r d).subtree p).state =
        some State.OUTSIDE ↔
      ((max l r < ((runOps Arith.int32 (SegmentTree.ofArray Arith.int32 A) ops).subtree p).ledge ∨
          ((runOps Arith.int32 (SegmentTree.ofArray Arith.int32 A) ops).subtree p).redge < min l r)
              ∧
        (p = [] ∨
          ¬ (max l r < ((runOps Arith.int32 (SegmentTree.ofArray Arith.int32 A) ops).subtree
              p.dropLast).ledge ∨
            ((runOps Arith.int32 (SegmentTree.ofArray Arith.int32 A) ops).subtree p.dropLast).redge
                < min l r)))) := by
  have hg := @good_reached Arith.int32 A hA ops
  generalize runOps Arith.int32 (SegmentTree.ofArray Arith.int32 A) ops = t at hn hg ⊢
  have hsh := hg.1
  have hn2 : (t.resetVisuals.subtree p).isNull = false := by
    rw [SegmentTree.resetVisuals_subtree, SegmentTree.resetVisuals_isNull]; exact hn
  have key := @SegmentTree.updateRange_tags Arith.int32 (min l r) (max l r) d min_le_max
      t.resetVisuals
    ((SegmentTree.resetVisuals_shape t).mpr hsh) p hn2
  simp only [SegmentTree.resetVisuals_subtree, SegmentTree.resetVisuals_ledge,
    SegmentTree.resetVisuals_redge, SegmentTree.resetVisuals_state_of_not_null _ hn] at key
  rw [SegmentTree.updateRange_swap, key]
  have hle := (hsh.at_path_bounds p hn).1.ledge_le_redge
  have hmm : min l r ≤ max l r := min_le_max
  generalize min l r = lo at hmm ⊢
  generalize max l r = hi at hmm ⊢
  by_cases hp : p = []
  · subst hp
    simp only [true_or, if_true, List.dropLast_nil]
    split_ifs with c1 c2 <;> simp <;> omega
  · have hb := hsh.parent_bounds p hp hn
    simp only [hp, false_or]
    split_ifs with c0 c1 c2 <;> simp <;> omega

theorem updateRange_tagging_witness :
    (datos ≠ []) ∧
    (((runOps Arith.int32 (SegmentTree.ofArray Arith.int32 datos) ([] : List Op)).subtree [false,
        true]).isNull = false) ∧
    ((((runOps Arith.int32 (SegmentTree.ofArray Arith.int32 datos) ([] : List Op)).subtree [false,
        true]).ledge ≠
        ((runOps Arith.int32 (SegmentTree.ofArray Arith.int32 datos) ([] : List Op)).subtree
            [false, true]).redge →
      ¬ (max (4 : Int) (1 : Int) < ((runOps Arith.int32 (SegmentTree.ofArray Arith.int32 datos) ([]
          : List Op)).subtree [false, true]).ledge ∨
        ((runOps Arith.int32 (SegmentTree.ofArray Arith.int32 datos) ([] : List Op)).subtree
            [false, true]).redge < min (4 : Int) (1 : Int)) →
      (((runOps Arith.int32 (SegmentTree.ofArray Arith.int32 datos) ([] : List
          Op)).resetVisuals.updateRange
          Arith.int32 (4 : Int) (1 : Int) (3 : Int)).subtree [false, true]).state =
        some State.PARTIAL) ∧
    ((((runOps Arith.int32 (SegmentTree.ofArray Arith.int32 datos) ([] : List
        Op)).resetVisuals.updateRange
        Arith.int32 (4 : Int) (1 : Int) (3 : Int)).subtree [false, true]).state =
        some State.CONTAINED ↔
      (((runOps Arith.int32 (SegmentTree.ofArray Arith.int32 datos) ([] : List Op)).subtree [false,
          true]).ledge =
          ((runOps Arith.int32 (SegmentTree.ofArray Arith.int32 datos) ([] : List Op)).subtree
              [false, true]).redge ∧
        min (4 : Int) (1 : Int) ≤ ((runOps Arith.int32 (SegmentTree.ofArray Arith.int32 datos) ([]
            : List Op)).subtree [false, true]).ledge ∧
        ((runOps Arith.int32 (SegmentTree.ofArray Arith.int32 datos) ([] : List Op)).subtree
            [false, true]).ledge ≤ max (4 : Int) (1 : Int))) ∧
    ((((runOps Arith.int32 (SegmentTree.ofArray Arith.int32 datos) ([] : List
        Op)).resetVisuals.updateRange
        Arith.int32 (4 : Int) (1 : Int) (3 : Int)).subtree [false, true]).state =
        some State.OUTSIDE ↔
      ((max (4 : Int) (1 : Int) < ((runOps Arith.int32 (SegmentTree.ofArray Arith.int32 datos) ([]
          : List Op)).subtree [false, true]).ledge ∨
          ((runOps Arith.int32 (SegmentTree.ofArray Arith.int32 datos) ([] : List Op)).subtree
              [false, true]).redge < min (4 : Int) (1 : Int))
              ∧
        ([false, true] = [] ∨
          ¬ (max (4 : Int) (1 : Int) < ((runOps Arith.int32 (SegmentTree.ofArray Arith.int32 datos)
              ([] : List Op)).subtree
              [false, true].dropLast).ledge ∨
            ((runOps Arith.int32 (SegmentTree.ofArray Arith.int32 datos) ([] : List Op)).subtree
                [false, true].dropLast).redge
                < min (4 : Int) (1 : Int)))))) :=
  ⟨by decide, by decide,
    updateRange_tagging datos ([] : List Op) (4 : Int) (1 : Int) (3 : Int) [false, true] (by
        decide) (by decide)⟩

/-- C17 as stated fails at the root: on the tree built from
`[2,1,3,4,5,7,8,9]`, after `resetVisuals()` then `updateRange(20, 30, 1)` the
root is tagged `OUTSIDE`, its interval `[0, 7]` is disjoint from `[20, 30]`,
and it has no parent whose interval could meet the range. -/
theorem updateRange_tagging_root_counterexample :
    ¬ ((((SegmentTree.ofArray Arith.int32 datos).resetVisuals.updateRange Arith.int32 20 30
        1).subtree []).state =
        some State.OUTSIDE ↔
      ((max (20 : Int) 30 < ((SegmentTree.ofArray Arith.int32 datos).subtree []).ledge ∨
          ((SegmentTree.ofArray Arith.int32 datos).subtree []).redge < min (20 : Int) 30) ∧
        ∃ (q : List Bool) (b : Bool), ([] : List Bool) = q ++ [b] ∧
          ¬ (max (20 : Int) 30 < ((SegmentTree.ofArray Arith.int32 datos).subtree q).ledge ∨
            ((SegmentTree.ofArray Arith.int32 datos).subtree q).redge < min (20 : Int) 30))) := by
  intro h
  obtain ⟨-, q, b, hq, -⟩ := h.mp (by decide)
  cases q <;> simp at hq

/-- C18: on a tree reached from `build(A)`, `A` non-empty, and for all integers
`l`, `r`, after `resetVisuals()` then `query(l, r)` at most two nodes of each
depth are tagged `PARTIAL`, and at most `2 * h` nodes in all, `h` the height
of the tree. -/
theorem query_partial_bound (A : List Int) (ops : List Op) (l r : Int) (hA : A ≠ []) :
    (∀ k : Nat,
      (((runOps Arith.int32 (SegmentTree.ofArray Arith.int32 A) ops).resetVisuals.query Arith.int32
          l r).2.tagsAtDepth k).count
        State.PARTIAL ≤ 2) ∧
    ((runOps Arith.int32 (SegmentTree.ofArray Arith.int32 A) ops).resetVisuals.query Arith.int32 l
        r).2.tags.count State.PARTIAL ≤
      2 * (runOps Arith.int32 (SegmentTree.ofArray Arith.int32 A) ops).height := by
  rw [SegmentTree.query_swap]
  exact SegmentTree.query_partial_ordered _ _ min_le_max _ (good_reached A hA ops).1

theorem query_partial_bound_witness :
    datos ≠ [] ∧
    ((∀ k : Nat,
      (((runOps Arith.int32 (SegmentTree.ofArray Arith.int32 datos) []).resetVisuals.query
          Arith.int32 5 2).2.tagsAtDepth k).count
        State.PARTIAL ≤ 2) ∧
    ((runOps Arith.int32 (SegmentTree.ofArray Arith.int32 datos) []).resetVisuals.query Arith.int32
        5 2).2.tags.count State.PARTIAL ≤
      2 * (runOps Arith.int32 (SegmentTree.ofArray Arith.int32 datos) []).height) :=
  ⟨by decide, query_partial_bound datos [] 5 2 (by decide)⟩

/-- C19: for every `n ≥ 1` the tree built from an array of length `n` has a
height `h` with `2 ^ h < 2 * n`, that is `h ≤ ⌈log₂ n⌉`. -/
theorem height_log_bound (A : List Int) (hA : A ≠ []) :
    2 ^ (SegmentTree.ofArray Arith.int32 A).height < 2 * A.length ∧
    (SegmentTree.ofArray Arith.int32 A).height ≤ Nat.clog 2 A.length := by
  have hpos : 0 < A.length := List.length_pos.mpr hA
  have h := @SegmentTree.build_height Arith.int32 A A.length 0 ((A.length : Int) - 1) (le_refl 0)
      (by omega)
    (by omega)
  have e : (2 : Int) * ((A.length : Int) - 1 - 0 + 1) = ((2 * A.length : Nat) : Int) := by
    push_cast; ring
  rw [e] at h
  have hN : 2 ^ (SegmentTree.ofArray Arith.int32 A).height < 2 * A.length := by
    unfold SegmentTree.ofArray
    exact_mod_cast h
  refine ⟨hN, ?_⟩
  generalize (SegmentTree.ofArray Arith.int32 A).height = k at hN
  cases k with
  | zero => exact Nat.zero_le _
  | succ k =>
    rw [pow_succ] at hN
    exact (Nat.pow_lt_iff_lt_clog (by norm_num)).mp (by omega)

theorem height_log_bound_witness :
    datos ≠ [] ∧ 2 ^ (SegmentTree.ofArray Arith.int32 datos).height < 2 * datos.length ∧
    (SegmentTree.ofArray Arith.int32 datos).height ≤ Nat.clog 2 datos.length :=
  ⟨by decide, height_log_bound datos (by decide)⟩

/-- C20, amended for the 32-bit arithmetic: on a tree reached from `build(A)`,
`A` non-empty of length `n`, and for all integers `l`, `r`, after
`resetVisuals()` then `query(l, r)` the nodes tagged `CONTAINED` have pairwise
disjoint intervals and the union of these intervals is the set of the `i` with
`min l r ≤ i ≤ max l r` and `0 ≤ i ≤ n - 1`; when the array entries and the
arguments of the earlier calls are `int`s, the answer is the sum of the values
of these nodes wrapped to 32 bits, hence that sum itself whenever the sum is
an `int`. -/
theorem query_contained_tiling (A : List Int) (ops : List Op) (l r : Int) (hA : A ≠ []) :
    ((runOps Arith.int32 (SegmentTree.ofArray Arith.int32 A) ops).resetVisuals.query
      Arith.int32 l r).2.contained.Pairwise (fun a b => a.2.1 < b.1 ∨ b.2.1 < a.1) ∧
    (∀ i : Int,
      (∃ c ∈ ((runOps Arith.int32 (SegmentTree.ofArray Arith.int32 A) ops).resetVisuals.query
          Arith.int32 l r).2.contained, c.1 ≤ i ∧ i ≤ c.2.1) ↔
      (min l r ≤ i ∧ i ≤ max l r ∧ 0 ≤ i ∧ i ≤ (A.length : Int) - 1)) ∧
    ((∀ x ∈ A, IsInt32 x) → (∀ op ∈ ops, op.ArgsInt32) →
      ((runOps Arith.int32 (SegmentTree.ofArray Arith.int32 A) ops).resetVisuals.query
        Arith.int32 l r).1 =
        wrap32 (((runOps Arith.int32 (SegmentTree.ofArray Arith.int32 A)
          ops).resetVisuals.query Arith.int32 l r).2.contained.map (fun c => c.2.2)).sum ∧
      (IsInt32 (((runOps Arith.int32 (SegmentTree.ofArray Arith.int32 A)
          ops).resetVisuals.query Arith.int32 l r).2.contained.map (fun c => c.2.2)).sum →
        ((runOps Arith.int32 (SegmentTree.ofArray Arith.int32 A) ops).resetVisuals.query
          Arith.int32 l r).1 =
          (((runOps Arith.int32 (SegmentTree.ofArray Arith.int32 A)
            ops).resetVisuals.query Arith.int32 l r).2.contained.map (fun c => c.2.2)).sum)) := by
  have hg := @good_reached Arith.int32 A hA ops
  rw [SegmentTree.query_swap]
  obtain ⟨-, h2, h3⟩ := @SegmentTree.query_contained_ordered Arith.int32 _ _ min_le_max _ hg.1
  rw [hg.2.2.1, hg.2.2.2] at h3
  refine ⟨h2.imp (fun h => Or.inl h), h3, fun h32 hops => ?_⟩
  have hf : LeavesFit Arith.int32 (runOps Arith.int32 (SegmentTree.ofArray Arith.int32 A) ops) :=
    leavesFit_reached A hA ops (fun x hx => (wrap32_eq_self_iff x).mpr (h32 x hx))
      (fun op ho => fits_of_argsInt32 (hops op ho))
  have h4 := @SegmentTree.query_contained_sum Arith.int32 (min l r) (max l r) min_le_max _
    hg.1 hg.2.1 hf
  refine ⟨h4, fun hs => ?_⟩
  rw [h4]
  exact (wrap32_eq_self_iff _).mpr hs

theorem query_contained_tiling_witness :
    (datos ≠ []) ∧
    (((runOps Arith.int32 (SegmentTree.ofArray Arith.int32 datos) ([] : List Op)).resetVisuals.query
      Arith.int32 (5 : Int) (2 : Int)).2.contained.Pairwise (fun a b => a.2.1 < b.1 ∨ b.2.1 < a.1) ∧
    (∀ i : Int,
      (∃ c ∈ ((runOps Arith.int32 (SegmentTree.ofArray Arith.int32 datos) ([] : List
          Op)).resetVisuals.query
          Arith.int32 (5 : Int) (2 : Int)).2.contained, c.1 ≤ i ∧ i ≤ c.2.1) ↔
      (min (5 : Int) (2 : Int) ≤ i ∧ i ≤ max (5 : Int) (2 : Int) ∧ 0 ≤ i ∧ i ≤ (datos.length : Int)
          - 1)) ∧
    ((∀ x ∈ datos, IsInt32 x) → (∀ op ∈ ([] : List Op), op.ArgsInt32) →
      ((runOps Arith.int32 (SegmentTree.ofArray Arith.int32 datos) ([] : List
          Op)).resetVisuals.query
        Arith.int32 (5 : Int) (2 : Int)).1 =
        wrap32 (((runOps Arith.int32 (SegmentTree.ofArray Arith.int32 datos)
          ([] : List Op)).resetVisuals.query Arith.int32 (5 : Int) (2 : Int)).2.contained.map (fun
              c => c.2.2)).sum ∧
      (IsInt32 (((runOps Arith.int32 (SegmentTree.ofArray Arith.int32 datos)
          ([] : List Op)).resetVisuals.query Arith.int32 (5 : Int) (2 : Int)).2.contained.map (fun
              c => c.2.2)).sum →
        ((runOps Arith.int32 (SegmentTree.ofArray Arith.int32 datos) ([] : List
            Op)).resetVisuals.query
          Arith.int32 (5 : Int) (2 : Int)).1 =
          (((runOps Arith.int32 (SegmentTree.ofArray Arith.int32 datos)
            ([] : List Op)).resetVisuals.query Arith.int32 (5 : Int) (2 : Int)).2.contained.map
                (fun c => c.2.2)).sum))) :=
  ⟨by decide,
    query_contained_tiling datos ([] : List Op) (5 : Int) (2 : Int) (by decide)⟩

/-- C20 as stated fails: on the tree built from
`[1, 2000000000, 2000000000, 1]`, after `resetVisuals()` then `query(1, 2)` the
nodes tagged `CONTAINED` are the leaves 1 and 2, whose values add up to
4000000000, and the answer is -294967296. -/
theorem query_contained_tiling_counterexample :
    ((SegmentTree.ofArray Arith.int32 [1, 2000000000, 2000000000, 1]).resetVisuals.query
      Arith.int32 1 2).2.contained = [(1, 1, 2000000000), (2, 2, 2000000000)] ∧
    ((SegmentTree.ofArray Arith.int32 [1, 2000000000, 2000000000, 1]).resetVisuals.query
      Arith.int32 1 2).1 = -294967296 ∧
    ((SegmentTree.ofArray Arith.int32 [1, 2000000000, 2000000000, 1]).resetVisuals.query
      Arith.int32 1 2).1 ≠
      (((SegmentTree.ofArray Arith.int32 [1, 2000000000, 2000000000, 1]).resetVisuals.query
        Arith.int32 1 2).2.contained.map (fun c => c.2.2)).sum := by
  decide
